import Mathlib

/-!
# syncgate: a one-shot gate and the Wait / Try combinators

A shallow embedding of `syncgate.go`.

* Go pointers `*Gate` and channels `chan *Gate` are identifiers (`GateId`, `ChanId`)
  into two heaps, `GateId → Gate` and `ChanId → Chan`.
* Every method of `Gate` runs under `g.mu`, from `Lock` to the deferred `Unlock`;
  it is therefore one atomic transition of the gate it belongs to, the sends of its body
  included.  `Try` and `String` read `g.opened` without the lock; the read is one
  transition as well.
* A statement that panics leaves a state behind: the deferred `Unlock` releases the gate
  with the writes made so far.  `Outcome.panic` carries that state; a run ends at a
  panic (`run`); `runRecovered` goes on from that state, as the other goroutines do when
  the caller of `Open` recovers the panic.
* `Open` ranges over the map `g.chans` in an order Go leaves unspecified; here it is the
  order of the list of keys.  When no send panics the order does not show in the state;
  when one panics, the state left is the one Go leaves for that order of the range.
* `Wait` is not atomic.  It is a small machine with a program counter (`Pc`), and the
  whole program is the interleaving of such machines with `Open` calls (`step`, `run`).
* A channel keeps the whole list of values ever sent to it (`hist`) and the number of
  values already received (`rcvd`); its buffer is `hist.drop rcvd`.
-/

namespace Syncgate

abbrev GateId := Nat
abbrev ChanId := Nat
abbrev Pid := Nat

/-- The reason a `context.Context` reports through `Err()` once it is done. -/
inductive Err where
  | Canceled
  | DeadlineExceeded
  deriving DecidableEq, Repr

/-- Result of running a statement: it completes, it panics and leaves the state `a`
behind, or it cannot complete in this state (send on a full channel, select case that is
not ready, nothing to run). -/
inductive Outcome (α : Type) where
  | ok (a : α)
  | panic (a : α)
  | blocked

/-- The completed result, if there is one. -/
def Outcome.toOption {α : Type} : Outcome α → Option α
  | .ok a => some a
  | .panic _ => none
  | .blocked => none

/-- The completed result, or `d` when there is none. -/
def Outcome.getD {α : Type} (o : Outcome α) (d : α) : α :=
  match o with
  | .ok a => a
  | .panic _ => d
  | .blocked => d

/-- A buffered channel `chan *Gate`. -/
structure Chan where
  cap : Nat
  hist : List GateId
  rcvd : Nat
  closed : Bool
  deriving DecidableEq, Repr

/-- The channel state before `make`: nothing sent, nothing received. -/
def Chan.fresh (cap : Nat) : Chan :=
  { cap := cap, hist := [], rcvd := 0, closed := false }

/-- Number of values waiting in the buffer. -/
def Chan.pending (c : Chan) : Nat := c.hist.length - c.rcvd

/-- The statement `ch <- g`: panics on a closed channel, blocks on a full buffer. -/
def Chan.send (c : Chan) (g : GateId) : Outcome Chan :=
  if c.closed then .panic c
  else if c.pending < c.cap then .ok { c with hist := c.hist ++ [g] }
  else .blocked

/-- The receive `<-ch` of the select in `Wait`: ready when the buffer holds a value. -/
def Chan.recv (c : Chan) : Outcome Chan :=
  if c.rcvd < c.hist.length then .ok { c with rcvd := c.rcvd + 1 }
  else .blocked

/-- The statement `close(ch)`: panics when the channel is closed already. -/
def Chan.close (c : Chan) : Outcome Chan :=
  if c.closed then .panic c else .ok { c with closed := true }

abbrev Chans := ChanId → Chan

/-- The struct `Gate`; `mu` is left out, see the header.  `chans` is the key set of the
Go map (`none` is the nil map), kept without repetition by `register`. -/
structure Gate where
  name : String
  opened : Bool
  chans : Option (List ChanId)
  deriving DecidableEq, Repr

/-- Keys of `g.chans`; ranging over a nil map visits nothing. -/
def Gate.listeners (g : Gate) : List ChanId :=
  match g.chans with
  | none => []
  | some l => l

/-- The constructor `New(name ...string)`. -/
def New (name : List String) : Gate :=
  let n := if name.length > 0 then name.headD "" else ""
  { name := n, opened := false, chans := none }

/-- The loop `for ch := range g.chans { ch <- g }`, in list order (Go leaves the order
of a map range unspecified).  A send that panics ends the loop; the sends made before it
stay made. -/
def sendAll (self : GateId) : List ChanId → Chans → Outcome Chans
  | [], cs => .ok cs
  | ch :: rest, cs =>
    match (cs ch).send self with
    | .ok c => sendAll self rest (Function.update cs ch c)
    | .panic _ => .panic cs
    | .blocked => .blocked

/-- The method `(*Gate).Open`; `self` is the pointer, which is the value sent.  When a
send panics, `g.opened = true` has been written, `g.chans = nil` has not, and the deferred
`Unlock` releases the gate in that state. -/
def Gate.Open (self : GateId) (g : Gate) (cs : Chans) : Outcome (Gate × Chans) :=
  if g.opened then .ok (g, cs)
  else
    let g1 : Gate := { g with opened := true }
    match sendAll self g1.listeners cs with
    | .ok cs1 => .ok ({ g1 with chans := none }, cs1)
    | .panic cs1 => .panic (g1, cs1)
    | .blocked => .blocked

/-- The method `(*Gate).IsOpen`. -/
def Gate.IsOpen (g : Gate) : Bool := g.opened

/-- The method `(*Gate).String`, `fmt.Sprintf` with `%s` and `%t`. -/
def Gate.String (g : Gate) : String :=
  "syncgate.Gate\x7b name=" ++ g.name ++ " opened=" ++ (if g.opened then "true" else "false")
    ++ " \x7d"

/-- The method `(*Gate).register`. -/
def Gate.register (self : GateId) (g : Gate) (ch : ChanId) (cs : Chans) :
    Outcome (Gate × Chans) :=
  if g.opened then
    match (cs ch).send self with
    | .ok c => .ok (g, Function.update cs ch c)
    | .panic _ => .panic (g, cs)
    | .blocked => .blocked
  else
    let m : List ChanId :=
      match g.chans with
      | none => []
      | some l => l
    .ok ({ g with chans := some (m.insert ch) }, cs)

/-- The method `(*Gate).unregister`. -/
def Gate.unregister (g : Gate) (ch : ChanId) : Gate :=
  match g.chans with
  | none => g
  | some l => { g with chans := some (l.filter (fun c => c != ch)) }

/-- The loop of `Try` over the gates. -/
def tryLoop (gates : GateId → Gate) : List GateId → Bool
  | [] => true
  | g :: rest => if !(gates g).opened then false else tryLoop gates rest

/-- The function `Try(gates ...*Gate)`; it reads `g.opened` and writes nothing. -/
def Try (gates : GateId → Gate) (gs : List GateId) : Bool :=
  if gs.length = 0 then true else tryLoop gates gs

/-! ## One gate under a sequence of method calls -/

/-- A call of one of the three state-changing methods of a gate. -/
inductive GateOp where
  | register (ch : ChanId)
  | unregister (ch : ChanId)
  | openGate
  deriving DecidableEq, Repr

/-- Effect of one method call on the gate `self` and on the channels. -/
def Gate.apply (self : GateId) (op : GateOp) (g : Gate) (cs : Chans) :
    Outcome (Gate × Chans) :=
  match op with
  | .register ch => g.register self ch cs
  | .unregister ch => .ok (g.unregister ch, cs)
  | .openGate => g.Open self cs

/-- A sequence of method calls on the gate `self`, one after the other. -/
def Gate.runOps (self : GateId) : List GateOp → Gate → Chans → Outcome (Gate × Chans)
  | [], g, cs => .ok (g, cs)
  | op :: rest, g, cs =>
    match g.apply self op cs with
    | .ok (g1, cs1) => Gate.runOps self rest g1 cs1
    | .panic r => .panic r
    | .blocked => .blocked

/-- Number of values the gate `self` has sent to channel `e`. -/
def deliveries (self : GateId) (cs : Chans) (e : ChanId) : Nat :=
  (cs e).hist.count self

/-! ## The program: gates, channels and calls of `Wait` -/

/-- Where a call of `Wait` stands.
* `idle`: not called.
* `start`: called, before `n := len(gates)`.
* `registering ch i`: in the first loop, before `gates[i].register(ch)`.
* `selecting ch n`: at the `select`, with the local `n`.
* `unregistering ch j`: `ctx.Done()` was selected and `ch` closed, before
  `gates[j].unregister(ch)`.
* `returned ch err`: returned `err` (`none` is the nil error); `ch` is the channel the
  call made, if it made one. -/
inductive Pc where
  | idle
  | start
  | registering (ch : ChanId) (i : Nat)
  | selecting (ch : ChanId) (n : Nat)
  | unregistering (ch : ChanId) (j : Nat)
  | returned (ch : Option ChanId) (err : Option Err)
  deriving DecidableEq, Repr

/-- A call `Wait(ctx, gates...)`.  `ctx = none`: `ctx.Done()` is not closed;
`ctx = some e`: it is closed and `ctx.Err()` is `e`. -/
structure WaitCall where
  ctx : Option Err
  gates : List GateId
  pc : Pc
  deriving DecidableEq, Repr

structure State where
  gates : GateId → Gate
  chans : Chans
  nextChan : ChanId
  procs : Pid → WaitCall

/-- Every gate built by `New`, no channel made, no call of `Wait`. -/
def init (names : GateId → List String) : State :=
  { gates := fun g => New (names g)
    chans := fun _ => Chan.fresh 0
    nextChan := 0
    procs := fun _ => { ctx := none, gates := [], pc := .idle } }

/-- One transition of the program. -/
inductive Action where
  | openGate (g : GateId)
  | isOpen (g : GateId)
  | describe (g : GateId)
  | tryGates (gs : List GateId)
  | call (p : Pid) (ctx : Option Err) (gates : List GateId)
  | cancel (p : Pid) (e : Err)
  | wait (p : Pid)
  | selectRecv (p : Pid)
  | selectDone (p : Pid)
  deriving DecidableEq, Repr

/-- The state with the program counter of call `p` replaced. -/
def State.setPc (s : State) (p : Pid) (pc : Pc) : State :=
  { s with procs := Function.update s.procs p { s.procs p with pc := pc } }

/-- A statement of `Wait` outside the `select`: lines 77-81, one `register`, leaving
the first loop, one `unregister`, or `return ctx.Err()`. -/
def stepWait (s : State) (p : Pid) : Outcome State :=
  let w := s.procs p
  match w.pc with
  | .idle => .blocked
  | .start =>
    if w.gates.length = 0 then .ok (s.setPc p (.returned none none))
    else
      .ok ({ s with
              chans := Function.update s.chans s.nextChan (Chan.fresh w.gates.length)
              nextChan := s.nextChan + 1 }.setPc p (.registering s.nextChan 0))
  | .registering ch i =>
    match w.gates[i]? with
    | none => .ok (s.setPc p (.selecting ch w.gates.length))
    | some g =>
      match (s.gates g).register g ch s.chans with
      | .ok (g1, cs1) =>
        .ok ({ s with gates := Function.update s.gates g g1, chans := cs1 }.setPc p
              (.registering ch (i + 1)))
      | .panic (g1, cs1) =>
        .panic { s with gates := Function.update s.gates g g1, chans := cs1 }
      | .blocked => .blocked
  | .selecting _ _ => .blocked
  | .unregistering ch j =>
    match w.gates[j]? with
    | none => .ok (s.setPc p (.returned (some ch) w.ctx))
    | some g =>
      .ok ({ s with gates := Function.update s.gates g ((s.gates g).unregister ch) }.setPc p
            (.unregistering ch (j + 1)))
  | .returned _ _ => .blocked

/-- The case `<-ch` of the select: `n--`, and `close(ch); return nil` when `n <= 0`.
The local `n` is at least 1 whenever a receive happens, so the subtraction on `Nat`
agrees with the one on `int`. -/
def stepRecv (s : State) (p : Pid) : Outcome State :=
  match (s.procs p).pc with
  | .selecting ch n =>
    match (s.chans ch).recv with
    | .ok c =>
      if n - 1 ≤ 0 then
        match c.close with
        | .ok c1 =>
          .ok ({ s with chans := Function.update s.chans ch c1 }.setPc p
                (.returned (some ch) none))
        | .panic c1 => .panic { s with chans := Function.update s.chans ch c1 }
        | .blocked => .blocked
      else
        .ok ({ s with chans := Function.update s.chans ch c }.setPc p (.selecting ch (n - 1)))
    | .panic _ => .panic s
    | .blocked => .blocked
  | _ => .blocked

/-- The case `<-ctx.Done()` of the select, up to and including `close(ch)`. -/
def stepDone (s : State) (p : Pid) : Outcome State :=
  match (s.procs p).pc with
  | .selecting ch _ =>
    match (s.procs p).ctx with
    | none => .blocked
    | some _ =>
      match (s.chans ch).close with
      | .ok c1 =>
        .ok ({ s with chans := Function.update s.chans ch c1 }.setPc p (.unregistering ch 0))
      | .panic _ => .panic s
      | .blocked => .blocked
  | _ => .blocked

/-- One transition.  `call` starts a call of `Wait` in a slot that is idle; `cancel`
fires the context of a call whose context is not done. -/
def step (s : State) : Action → Outcome State
  | .openGate g =>
    match (s.gates g).Open g s.chans with
    | .ok (g1, cs1) => .ok { s with gates := Function.update s.gates g g1, chans := cs1 }
    | .panic (g1, cs1) => .panic { s with gates := Function.update s.gates g g1, chans := cs1 }
    | .blocked => .blocked
  | .isOpen _ => .ok s
  | .describe _ => .ok s
  | .tryGates _ => .ok s
  | .call p ctx gates =>
    match (s.procs p).pc with
    | .idle =>
      .ok { s with procs := Function.update s.procs p { ctx := ctx, gates := gates, pc := .start } }
    | _ => .blocked
  | .cancel p e =>
    match (s.procs p).ctx with
    | none => .ok { s with procs := Function.update s.procs p { s.procs p with ctx := some e } }
    | some _ => .blocked
  | .wait p => stepWait s p
  | .selectRecv p => stepRecv s p
  | .selectDone p => stepDone s p

/-- An interleaving: the transitions of a list of actions, in order. -/
def run : State → List Action → Outcome State
  | s, [] => .ok s
  | s, a :: rest =>
    match step s a with
    | .ok s1 => run s1 rest
    | .panic s1 => .panic s1
    | .blocked => .blocked

/-- The state an interleaving ends in, or `d` when it does not complete. -/
def runD (d : State) (s : State) (as : List Action) : State :=
  match run s as with
  | .ok s1 => s1
  | .panic _ => d
  | .blocked => d

/-- A panic that is recovered: the program goes on from the state the statement left. -/
def Outcome.recovered {α : Type} : Outcome α → Outcome α
  | .ok a => .ok a
  | .panic a => .ok a
  | .blocked => .blocked

/-- One transition in a program whose calls of `Open` are made under a deferred
`recover()`: a panic of `g.Open()` ends that call and nothing else.  The statements of
`Wait` are as in `step`. -/
def stepRecovered (s : State) : Action → Outcome State
  | .openGate g => (step s (.openGate g)).recovered
  | a => step s a

/-- An interleaving in a program whose calls of `Open` are made under a deferred
`recover()`. -/
def runRecovered : State → List Action → Outcome State
  | s, [] => .ok s
  | s, a :: rest =>
    match stepRecovered s a with
    | .ok s1 => runRecovered s1 rest
    | .panic s1 => .panic s1
    | .blocked => .blocked

/-- The state such an interleaving ends in, or `d` when it does not complete. -/
def runRecoveredD (d : State) (s : State) (as : List Action) : State :=
  match runRecovered s as with
  | .ok s1 => s1
  | .panic _ => d
  | .blocked => d

/-! ## Invariants of the program

They hold in every state reached by a run in which no statement has panicked
(`run (init names) as = .ok s`). -/

/-- The channel a call of `Wait` has made, if it made one. -/
def Pc.chan : Pc → Option ChanId
  | .idle => none
  | .start => none
  | .registering ch _ => some ch
  | .selecting ch _ => some ch
  | .unregistering ch _ => some ch
  | .returned ch _ => ch

/-- State of the channel `ch` (contents `c`) of a call on `gs` that has run its first
`i` registrations and has not left the select: what was sent to it, and who holds it. -/
structure Live (gates : GateId → Gate) (c : Chan) (ch : ChanId) (gs : List GateId)
    (i : Nat) : Prop where
  cap : c.cap = gs.length
  notClosed : c.closed = false
  unopened : ∀ g, (gates g).opened = false → c.hist.count g = 0
  count_le : ∀ g, c.hist.count g ≤ (gs.take i).count g
  held : ∀ g, ch ∈ (gates g).listeners → g ∈ gs.take i
  served : ∀ g, (gates g).opened = true → g ∈ gs.take i → 1 ≤ c.hist.count g
  waiting : ∀ g, (gates g).opened = false → g ∈ gs.take i → ch ∈ (gates g).listeners

/-- State of the channel of a call that has closed it. -/
structure Dead (c : Chan) (gs : List GateId) : Prop where
  cap : c.cap = gs.length
  closed : c.closed = true
  hist_le : c.hist.length ≤ gs.length
  rcvd_le : c.rcvd ≤ c.hist.length

/-- What holds of a call `Wait(ctx, gs...)` at each point of its code. -/
def ProcInv (gates : GateId → Gate) (chans : Chans) (ctx : Option Err) (gs : List GateId) :
    Pc → Prop
  | .idle => True
  | .start => True
  | .registering ch i =>
    1 ≤ gs.length ∧ i ≤ gs.length ∧ (chans ch).rcvd = 0 ∧ Live gates (chans ch) ch gs i
  | .selecting ch k =>
    1 ≤ k ∧ k + (chans ch).rcvd = gs.length ∧ (chans ch).rcvd ≤ (chans ch).hist.length ∧
      Live gates (chans ch) ch gs gs.length
  | .unregistering ch j =>
    ctx ≠ none ∧ (chans ch).rcvd < gs.length ∧ Dead (chans ch) gs ∧
      ∀ g, ch ∈ (gates g).listeners → g ∈ gs.drop j
  | .returned (some ch) none =>
    (chans ch).rcvd = gs.length ∧ Dead (chans ch) gs ∧ (∀ g ∈ gs, (gates g).opened = true) ∧
      ∀ g, ch ∉ (gates g).listeners
  | .returned (some ch) (some e) =>
    ctx = some e ∧ (chans ch).rcvd < gs.length ∧ Dead (chans ch) gs ∧
      ∀ g, ch ∉ (gates g).listeners
  | .returned none err => err = none ∧ gs = []

/-- The invariant of the whole program, as long as no statement has panicked. -/
structure Inv (s : State) : Prop where
  drained : ∀ g, (s.gates g).opened = true → (s.gates g).chans = none
  nodup : ∀ g, (s.gates g).listeners.Nodup
  listenersAlloc : ∀ g c, c ∈ (s.gates g).listeners → c < s.nextChan
  chanAlloc : ∀ p c, (s.procs p).pc.chan = some c → c < s.nextChan
  chanInj : ∀ p q c, (s.procs p).pc.chan = some c → (s.procs q).pc.chan = some c → p = q
  proc : ∀ p, ProcInv s.gates s.chans (s.procs p).ctx (s.procs p).gates (s.procs p).pc

/-! ## Measuring the progress of one call -/

/-- The actions that run a statement of call `p`. -/
def Action.isStepOf (p : Pid) : Action → Bool
  | .wait q => q == p
  | .selectRecv q => q == p
  | .selectDone q => q == p
  | _ => false

/-- A bound on the statements a call on `n` gates can still run from this point. -/
def Pc.fuel (n : Nat) : Pc → Nat
  | .idle => 3 * n + 5
  | .start => 3 * n + 4
  | .registering _ i => (n - i) + 2 * n + 3
  | .selecting _ k => k + n + 2
  | .unregistering _ j => (n - j) + 1
  | .returned _ _ => 0

/-- Whether the call has returned. -/
def Pc.isReturned : Pc → Bool
  | .returned _ _ => true
  | _ => false

/-! ## Concrete runs, after the test file -/

/-- Gates without a name, as `New()` builds them. -/
def unnamed : GateId → List String := fun _ => []

/-- The run of `TestWait2`: `Wait(ctx, g0, g1)` registers, both gates open, two values
are received. -/
def traceWait2 : List Action :=
  [.call 0 none [0, 1], .wait 0, .wait 0, .wait 0, .wait 0, .openGate 0, .openGate 1,
    .selectRecv 0, .selectRecv 0]

/-- The statements of `Wait(ctx, g0, g1)` in a run like `TestCancel`, with a context
that is done from the start: gate 1 opens at once, gate 0 does not open. -/
def traceCancel : List Action :=
  [.wait 0, .openGate 1, .wait 0, .wait 0, .wait 0, .selectRecv 0, .selectDone 0, .wait 0,
    .wait 0, .wait 0]

/-- A run in which the only gate is open and the context done before `Wait` is called,
and the select takes the case `<-ctx.Done()`. -/
def traceOpenedCancelled : List Action :=
  [.openGate 0, .call 0 (some .Canceled) [0], .wait 0, .wait 0, .wait 0, .selectDone 0,
    .wait 0, .wait 0]

/-- A run of `Wait(ctx, g0, g0)`: both registrations find `g0` unopened, `g0` opens, one
value is received. -/
def traceTwice : List Action :=
  [.call 0 none [0, 0], .wait 0, .wait 0, .wait 0, .wait 0, .openGate 0, .selectRecv 0]

/-- The statements of `Wait(ctx, g0)` in the run of `TestWaitOpened`, `g0` being open. -/
def traceWaitOpened : List Action :=
  [.wait 0, .wait 0, .wait 0, .selectRecv 0]

/-- A gate history: registered, opened, registered again, opened again. -/
def opsRegisterOpenTwice : List GateOp :=
  [.register 0, .openGate, .register 0, .openGate]

/-- A run in which `Wait(ctx, g0)` has registered, its context fires and the select takes
the case `<-ctx.Done()`: `ch` is closed and `g0.unregister(ch)` has not run yet. -/
def traceClosedHeld : List Action :=
  [.call 0 none [0], .wait 0, .wait 0, .wait 0, .cancel 0 .Canceled, .selectDone 0]

/-- The same run followed by `g0.Open()`. -/
def traceClosedHeldOpen : List Action :=
  traceClosedHeld ++ [.openGate 0]

/-- Two calls `Wait(ctx, g0)` (call 0, channel 0) and `Wait(ctx1, g0)` (call 1,
channel 1) have registered and stand at the select; `ctx1` fires and the select of
call 1 closes channel 1, which `g0` still holds. -/
def traceSecondClosed : List Action :=
  [.call 0 none [0], .wait 0, .wait 0, .wait 0, .call 1 none [0], .wait 1, .wait 1, .wait 1,
    .cancel 1 .Canceled, .selectDone 1]

/-- The same two calls; here the context of call 0 fires and its select closes
channel 0, which `g0` still holds. -/
def traceFirstClosed : List Action :=
  [.call 0 none [0], .wait 0, .wait 0, .wait 0, .call 1 none [0], .wait 1, .wait 1, .wait 1,
    .cancel 0 .Canceled, .selectDone 0]

/-- After `traceSecondClosed` and a `g0.Open()`: call 1 runs its `unregister` loop and
returns, and `g0.Open()` is called once more. -/
def traceSecondLeaves : List Action :=
  [.wait 1, .wait 1, .openGate 0]

/-- A run of `Wait(ctx, g0, g0)` on a gate `g0` that is open when `Wait` is called. -/
def traceTwiceOpened : List Action :=
  [.openGate 0, .call 0 none [0, 0], .wait 0, .wait 0, .wait 0, .wait 0, .selectRecv 0,
    .selectRecv 0]

/-- After `traceClosedHeldOpen`: a call `Wait(ctx1, g0)` on the gate `g0`, now open, runs
to its return. -/
def traceWaitAfterPanic : List Action :=
  [.call 1 none [0], .wait 1, .wait 1, .wait 1, .selectRecv 1]

/-- A call all of whose gates are open: every registration made so far sent its gate at
once, so the channel has been sent the registered gates, in order. -/
def AllOpenCall (s : State) (p : Pid) : Prop :=
  (∀ g ∈ (s.procs p).gates, (s.gates g).opened = true) ∧
    match (s.procs p).pc with
    | .registering ch i => (s.chans ch).hist = (s.procs p).gates.take i
    | .selecting ch _ => (s.chans ch).hist = (s.procs p).gates
    | _ => True

/-- Every channel in a listener set was made by some call of `Wait`. -/
def Owned (s : State) : Prop :=
  ∀ g c, c ∈ (s.gates g).listeners → ∃ q, (s.procs q).pc.chan = some c

/-! ## Channels and single gates -/

theorem send_ok_iff (c c1 : Chan) (g : GateId) :
    c.send g = .ok c1 ↔
      c.closed = false ∧ c.pending < c.cap ∧ c1 = { c with hist := c.hist ++ [g] } := by
  unfold Chan.send
  by_cases hc : c.closed = true
  · simp [hc]
  · by_cases hp : c.pending < c.cap
    · simp [hc, hp, eq_comm]
    · simp [hc, hp]

/-- What a completed range-and-send loop did to every channel. -/
theorem sendAll_ok (self : GateId) (l : List ChanId) (cs cs1 : Chans)
    (h : sendAll self l cs = .ok cs1) (c : ChanId) :
    cs1 c = { cs c with hist := (cs c).hist ++ List.replicate (l.count c) self } := by
  induction l generalizing cs with
  | nil =>
    simp only [sendAll, Outcome.ok.injEq] at h
    subst h
    simp
  | cons a rest ih =>
    simp only [sendAll] at h
    cases hs : (cs a).send self with
    | ok c2 =>
      rw [hs] at h
      have h2 := ih _ h
      rw [h2]
      obtain ⟨-, -, rfl⟩ := (send_ok_iff _ _ _).1 hs
      by_cases hac : a = c
      · subst hac
        simp [List.replicate_succ]
      · have hca : c ≠ a := fun h => hac h.symm
        simp [Function.update_noteq hca, List.count_cons, hac]
    | panic r0 => rw [hs] at h; cases h
    | blocked => rw [hs] at h; cases h

/-- The loop completes when every listener is an open channel with room. -/
theorem sendAll_total (self : GateId) (l : List ChanId) (cs : Chans) (hn : l.Nodup)
    (hr : ∀ c ∈ l, (cs c).closed = false ∧ (cs c).pending < (cs c).cap) :
    ∃ cs1, sendAll self l cs = .ok cs1 := by
  induction l generalizing cs with
  | nil => exact ⟨cs, rfl⟩
  | cons a rest ih =>
    obtain ⟨hc, hp⟩ := hr a (List.mem_cons_self _ _)
    have hs : (cs a).send self = .ok { cs a with hist := (cs a).hist ++ [self] } :=
      (send_ok_iff _ _ _).2 ⟨hc, hp, rfl⟩
    simp only [sendAll, hs]
    apply ih _ (List.nodup_cons.1 hn).2
    intro c hcm
    have hca : c ≠ a := fun h => (List.nodup_cons.1 hn).1 (h ▸ hcm)
    rw [Function.update_noteq hca]
    exact hr c (List.mem_cons_of_mem _ hcm)

theorem open_of_opened (self : GateId) (g : Gate) (cs : Chans) (h : g.opened = true) :
    g.Open self cs = .ok (g, cs) := by
  simp [Gate.Open, h]

/-- What a completed `Open` on an unopened gate did. -/
theorem open_ok_of_unopened (self : GateId) (g g1 : Gate) (cs cs1 : Chans)
    (hu : g.opened = false) (h : g.Open self cs = .ok (g1, cs1)) :
    g1 = { g with opened := true, chans := none } ∧ sendAll self g.listeners cs = .ok cs1 := by
  simp only [Gate.Open, hu] at h
  have hl : Gate.listeners { g with opened := true } = g.listeners := rfl
  rw [hl] at h
  cases hs : sendAll self g.listeners cs with
  | ok cs2 =>
    rw [hs] at h
    simp only [Bool.false_eq_true, if_false, Outcome.ok.injEq, Prod.mk.injEq] at h
    exact ⟨h.1.symm, by rw [h.2]⟩
  | panic r0 => rw [hs] at h; simp at h
  | blocked => rw [hs] at h; simp at h

theorem open_ok_opened (self : GateId) (g g1 : Gate) (cs cs1 : Chans)
    (h : g.Open self cs = .ok (g1, cs1)) : g1.opened = true := by
  by_cases hu : g.opened = true
  · rw [open_of_opened _ _ _ hu] at h
    simp only [Outcome.ok.injEq, Prod.mk.injEq] at h
    rw [← h.1]; exact hu
  · simp only [Bool.not_eq_true] at hu
    rw [(open_ok_of_unopened _ _ _ _ _ hu h).1]

theorem runOps_append (self : GateId) (xs ys : List GateOp) (g : Gate) (cs : Chans) :
    Gate.runOps self (xs ++ ys) g cs =
      match Gate.runOps self xs g cs with
      | .ok (g1, cs1) => Gate.runOps self ys g1 cs1
      | .panic r => .panic r
      | .blocked => .blocked := by
  induction xs generalizing g cs with
  | nil => simp [Gate.runOps]
  | cons op rest ih =>
    simp only [List.cons_append, Gate.runOps]
    cases h : g.apply self op cs with
    | ok r => obtain ⟨g1, cs1⟩ := r; simp [ih]
    | panic r0 => simp
    | blocked => simp

/-- Opening an opened gate again, any number of times, changes nothing. -/
theorem runOps_open_opened (self : GateId) (k : Nat) (g : Gate) (cs : Chans)
    (h : g.opened = true) :
    Gate.runOps self (List.replicate k .openGate) g cs = .ok (g, cs) := by
  induction k with
  | zero => rfl
  | succ k ih =>
    simp only [List.replicate_succ, Gate.runOps, Gate.apply, open_of_opened _ _ _ h]
    exact ih

theorem register_unopened (self : GateId) (g : Gate) (ch : ChanId) (cs : Chans)
    (hu : g.opened = false) :
    g.register self ch cs = .ok ({ g with chans := some (g.listeners.insert ch) }, cs) := by
  unfold Gate.register Gate.listeners
  simp only [hu, Bool.false_eq_true, if_false]

theorem unregister_opened (g : Gate) (ch : ChanId) : (g.unregister ch).opened = g.opened := by
  obtain ⟨n, o, c⟩ := g
  cases c <;> rfl

theorem unregister_name (g : Gate) (ch : ChanId) : (g.unregister ch).name = g.name := by
  obtain ⟨n, o, c⟩ := g
  cases c <;> rfl

theorem unregister_listeners (g : Gate) (ch : ChanId) :
    (g.unregister ch).listeners = g.listeners.filter (fun c => c != ch) := by
  obtain ⟨n, o, c⟩ := g
  cases c <;> simp [Gate.unregister, Gate.listeners]

/-- Without `Open`, a gate stays unopened, every call completes and nothing is sent. -/
theorem runOps_unopened (self : GateId) (ops : List GateOp) (g : Gate) (cs : Chans)
    (hu : g.opened = false) (hn : g.listeners.Nodup) (hops : GateOp.openGate ∉ ops) :
    ∃ g1, Gate.runOps self ops g cs = .ok (g1, cs) ∧ g1.opened = false ∧ g1.name = g.name ∧
      g1.listeners.Nodup := by
  induction ops generalizing g with
  | nil => exact ⟨g, rfl, hu, rfl, hn⟩
  | cons op rest ih =>
    have hrest : GateOp.openGate ∉ rest := fun h => hops (List.mem_cons_of_mem _ h)
    cases op with
    | register ch =>
      simp only [Gate.runOps, Gate.apply, register_unopened _ _ _ _ hu]
      exact ih _ hu (hn.insert) hrest
    | unregister ch =>
      simp only [Gate.runOps, Gate.apply]
      have h1 := ih (g.unregister ch) (by rw [unregister_opened]; exact hu)
        (by rw [unregister_listeners]; exact hn.filter _) hrest
      rw [unregister_name] at h1
      exact h1
    | openGate => exact absurd (List.mem_cons_self _ _) hops

/-- While a gate is unopened and `e` is never unregistered, `e` is a listener exactly
when it was one at the start or has been registered since. -/
theorem runOps_unopened_mem (self : GateId) (e : ChanId) (ops : List GateOp) (g g1 : Gate)
    (cs cs1 : Chans) (hu : g.opened = false) (hops : GateOp.openGate ∉ ops)
    (hun : GateOp.unregister e ∉ ops) (h : Gate.runOps self ops g cs = .ok (g1, cs1)) :
    (e ∈ g1.listeners ↔ e ∈ g.listeners ∨ GateOp.register e ∈ ops) := by
  induction ops generalizing g with
  | nil =>
    simp only [Gate.runOps, Outcome.ok.injEq, Prod.mk.injEq] at h
    rw [← h.1]; simp
  | cons op rest ih =>
    have hrest : GateOp.openGate ∉ rest := fun h => hops (List.mem_cons_of_mem _ h)
    have hun2 : GateOp.unregister e ∉ rest := fun h => hun (List.mem_cons_of_mem _ h)
    cases op with
    | register ch =>
      simp only [Gate.runOps, Gate.apply, register_unopened _ _ _ _ hu] at h
      rw [ih { g with chans := some (g.listeners.insert ch) } hu hrest hun2 h]
      have hl : Gate.listeners { g with chans := some (g.listeners.insert ch) }
          = g.listeners.insert ch := rfl
      rw [hl, List.mem_insert_iff, List.mem_cons, GateOp.register.injEq]
      tauto
    | unregister ch =>
      simp only [Gate.runOps, Gate.apply] at h
      have hne : e ≠ ch := by
        rintro rfl
        exact hun (List.mem_cons_self _ _)
      rw [ih (g.unregister ch) (by rw [unregister_opened]; exact hu) hrest hun2 h,
        unregister_listeners,
        List.mem_filter, List.mem_cons]
      simp [hne]
    | openGate => exact absurd (List.mem_cons_self _ _) hops

/-- Once a gate is open, every `register` delivers at once and nothing else does. -/
theorem runOps_opened (self : GateId) (e : ChanId) (ops : List GateOp) (g g1 : Gate)
    (cs cs1 : Chans) (ho : g.opened = true) (hc : g.chans = none)
    (h : Gate.runOps self ops g cs = .ok (g1, cs1)) :
    g1 = g ∧ deliveries self cs1 e = deliveries self cs e + ops.count (.register e) := by
  induction ops generalizing cs with
  | nil =>
    simp only [Gate.runOps, Outcome.ok.injEq, Prod.mk.injEq] at h
    rw [← h.1, ← h.2]; simp
  | cons op rest ih =>
    cases op with
    | register ch =>
      simp only [Gate.runOps, Gate.apply, Gate.register, ho, if_true] at h
      cases hs : (cs ch).send self with
      | ok c =>
        rw [hs] at h
        obtain ⟨hg, hd⟩ := ih _ h
        refine ⟨hg, ?_⟩
        rw [hd]
        obtain ⟨-, -, rfl⟩ := (send_ok_iff _ _ _).1 hs
        by_cases hce : ch = e
        · subst hce
          simp [deliveries, List.count_cons]
          omega
        · have hec : e ≠ ch := fun h => hce h.symm
          simp [deliveries, Function.update_noteq hec, List.count_cons, hce]
      | panic r0 => rw [hs] at h; simp at h
      | blocked => rw [hs] at h; simp at h
    | unregister ch =>
      have hu : g.unregister ch = g := by simp [Gate.unregister, hc]
      simp only [Gate.runOps, Gate.apply, hu] at h
      simpa [List.count_cons] using ih _ h
    | openGate =>
      simp only [Gate.runOps, Gate.apply, open_of_opened _ _ _ ho] at h
      simpa [List.count_cons] using ih _ h

/-- The first `Open` delivers once to every listener and to nobody else. -/
theorem open_deliveries (self : GateId) (e : ChanId) (g g1 : Gate) (cs cs1 : Chans)
    (hu : g.opened = false) (hn : g.listeners.Nodup) (h : g.Open self cs = .ok (g1, cs1)) :
    g1.opened = true ∧ g1.chans = none ∧
      deliveries self cs1 e = deliveries self cs e + if e ∈ g.listeners then 1 else 0 := by
  obtain ⟨hg, hs⟩ := open_ok_of_unopened _ _ _ _ _ hu h
  subst hg
  refine ⟨rfl, rfl, ?_⟩
  simp only [deliveries, sendAll_ok _ _ _ _ hs e, List.count_append, List.count_replicate_self]
  by_cases hm : e ∈ g.listeners
  · simp [hm, List.count_eq_one_of_mem hn hm]
  · simp [hm, List.count_eq_zero.2 hm]

/-- Deliveries of a gate to an endpoint over a whole history of `register` and `Open`
calls that starts at `New`: one for the registrations before the first `Open`, if
there are any, and one for each registration after it. -/
theorem runOps_deliveries (self : GateId) (e : ChanId) (name : List String)
    (ops : List GateOp) (cs0 cs : Chans) (g : Gate) (hun : GateOp.unregister e ∉ ops)
    (h : Gate.runOps self ops (New name) cs0 = .ok (g, cs)) (ho : g.opened = true) :
    deliveries self cs e = deliveries self cs0 e
      + (if GateOp.register e ∈ ops.takeWhile (fun op => op != .openGate) then 1 else 0)
      + (ops.dropWhile (fun op => op != .openGate)).count (.register e) := by
  have hsplit := List.takeWhile_append_dropWhile (fun op => op != GateOp.openGate) ops
  generalize hpre : ops.takeWhile (fun op => op != GateOp.openGate) = pre at hsplit
  generalize hpost : ops.dropWhile (fun op => op != GateOp.openGate) = post at hsplit
  have hpre_no : GateOp.openGate ∉ pre := by
    intro hm
    rw [← hpre] at hm
    simpa using List.mem_takeWhile_imp hm
  have hun1 : GateOp.unregister e ∉ pre := fun hm => hun (by rw [← hsplit]; simp [hm])
  obtain ⟨g0, hr0, hu0, -, hn0⟩ :=
    runOps_unopened self pre (New name) cs0 rfl (by simp [New, Gate.listeners]) hpre_no
  have hmem := runOps_unopened_mem self e pre (New name) g0 cs0 cs0 rfl hpre_no hun1 hr0
  rw [← hsplit, runOps_append, hr0] at h
  simp only at h
  cases post with
  | nil =>
    simp only [Gate.runOps, Outcome.ok.injEq, Prod.mk.injEq] at h
    rw [h.1] at hu0
    rw [hu0] at ho
    cases ho
  | cons op post1 =>
    have hop : op = GateOp.openGate := by
      have hh := List.head_dropWhile_not (fun op => op != GateOp.openGate) ops
        (by rw [hpost]; simp)
      simp only [hpost, List.head_cons] at hh
      simpa using hh
    subst hop
    simp only [Gate.runOps, Gate.apply] at h
    cases hopen : g0.Open self cs0 with
    | ok r =>
      obtain ⟨g1, cs1⟩ := r
      rw [hopen] at h
      obtain ⟨ho1, hc1, hd1⟩ := open_deliveries self e g0 g1 cs0 cs1 hu0 hn0 hopen
      obtain ⟨-, hd2⟩ := runOps_opened self e post1 g1 g cs1 cs ho1 hc1 h
      rw [hd2, hd1]
      have hme : (e ∈ g0.listeners) ↔ GateOp.register e ∈ pre := by
        rw [hmem]; simp [New, Gate.listeners]
      simp [hme, List.count_cons]
    | panic r0 => rw [hopen] at h; simp at h
    | blocked => rw [hopen] at h; simp at h

/-! ## What an `Open` that panics leaves behind -/

theorem sendAll_room (self : GateId) (l : List ChanId) (cs cs1 : Chans) (hn : l.Nodup)
    (h : sendAll self l cs = .ok cs1) (c : ChanId) (hc : c ∈ l) :
    (cs c).closed = false ∧ (cs c).pending < (cs c).cap := by
  induction l generalizing cs with
  | nil => cases hc
  | cons a rest ih =>
    simp only [sendAll] at h
    cases hs : (cs a).send self with
    | ok c2 =>
      rw [hs] at h
      obtain ⟨h1, h2, -⟩ := (send_ok_iff _ _ _).1 hs
      rcases List.mem_cons.1 hc with rfl | hmem
      · exact ⟨h1, h2⟩
      · have hca : c ≠ a := fun h => (List.nodup_cons.1 hn).1 (h ▸ hmem)
        have := ih _ (List.nodup_cons.1 hn).2 h hmem
        rwa [Function.update_noteq hca] at this
    | panic r0 => rw [hs] at h; cases h
    | blocked => rw [hs] at h; cases h

/-- Effect of the first `Open` of a gate on one channel. -/
theorem open_chan (self : GateId) (g g1 : Gate) (cs cs1 : Chans) (hu : g.opened = false)
    (hn : g.listeners.Nodup) (h : g.Open self cs = .ok (g1, cs1)) (c : ChanId) :
    (c ∈ g.listeners → (cs c).closed = false ∧ (cs c).pending < (cs c).cap ∧
        cs1 c = { cs c with hist := (cs c).hist ++ [self] }) ∧
      (c ∉ g.listeners → cs1 c = cs c) := by
  obtain ⟨-, hs⟩ := open_ok_of_unopened _ _ _ _ _ hu h
  have hc := sendAll_ok _ _ _ _ hs c
  constructor
  · intro hm
    obtain ⟨h1, h2⟩ := sendAll_room _ _ _ _ hn hs c hm
    refine ⟨h1, h2, ?_⟩
    rw [hc, List.count_eq_one_of_mem hn hm]
    rfl
  · intro hm
    rw [hc, List.count_eq_zero.2 hm]
    simp

theorem send_panic_iff (c c1 : Chan) (g : GateId) :
    c.send g = .panic c1 ↔ c.closed = true ∧ c1 = c := by
  unfold Chan.send
  by_cases hc : c.closed = true
  · simp [hc, eq_comm]
  · by_cases hp : c.pending < c.cap
    · simp [hc, hp]
    · simp [hc, hp]

/-- A range-and-send loop that panics met a closed channel; every channel is as it was
or, being one of the listeners with room, got the value once. -/
theorem sendAll_panic (self : GateId) (l : List ChanId) (cs cs1 : Chans) (hn : l.Nodup)
    (h : sendAll self l cs = .panic cs1) :
    (∃ c ∈ l, (cs c).closed = true) ∧
      ∀ c, cs1 c = cs c ∨ (c ∈ l ∧ (cs c).closed = false ∧ (cs c).pending < (cs c).cap ∧
        cs1 c = { cs c with hist := (cs c).hist ++ [self] }) := by
  induction l generalizing cs with
  | nil => cases h
  | cons a rest ih =>
    simp only [sendAll] at h
    cases hs : (cs a).send self with
    | ok c2 =>
      rw [hs] at h
      obtain ⟨h1, h2, h3⟩ := (send_ok_iff _ _ _).1 hs
      obtain ⟨⟨c0, hc0, hcl⟩, hall⟩ := ih _ (List.nodup_cons.1 hn).2 h
      have hne0 : c0 ≠ a := fun heq => (List.nodup_cons.1 hn).1 (heq ▸ hc0)
      rw [Function.update_noteq hne0] at hcl
      refine ⟨⟨c0, List.mem_cons_of_mem _ hc0, hcl⟩, ?_⟩
      intro c
      by_cases hca : c = a
      · subst hca
        rcases hall c with h4 | h4
        · rw [Function.update_same] at h4
          exact Or.inr ⟨List.mem_cons_self _ _, h1, h2, by rw [h4, h3]⟩
        · exact absurd h4.1 (List.nodup_cons.1 hn).1
      · rcases hall c with h4 | h4
        · rw [Function.update_noteq hca] at h4
          exact Or.inl h4
        · rw [Function.update_noteq hca] at h4
          exact Or.inr ⟨List.mem_cons_of_mem _ h4.1, h4.2.1, h4.2.2.1, h4.2.2.2⟩
    | panic c2 =>
      rw [hs] at h
      simp only [Outcome.panic.injEq] at h
      obtain ⟨hcl, -⟩ := (send_panic_iff _ _ _).1 hs
      exact ⟨⟨a, List.mem_cons_self _ _, hcl⟩, fun c => Or.inl (by rw [h])⟩
    | blocked => rw [hs] at h; cases h

theorem open_panic_unopened (self : GateId) (g g1 : Gate) (cs cs1 : Chans)
    (h : g.Open self cs = .panic (g1, cs1)) :
    g.opened = false ∧ g1 = { g with opened := true } ∧
      sendAll self g.listeners cs = .panic cs1 := by
  by_cases ho : g.opened = true
  · rw [open_of_opened _ _ _ ho] at h
    cases h
  · simp only [Bool.not_eq_true] at ho
    simp only [Gate.Open, ho] at h
    have hl : Gate.listeners { g with opened := true } = g.listeners := rfl
    rw [hl] at h
    cases hs : sendAll self g.listeners cs with
    | ok cs2 => rw [hs] at h; simp at h
    | panic cs2 =>
      rw [hs] at h
      simp only [Bool.false_eq_true, if_false, Outcome.panic.injEq, Prod.mk.injEq] at h
      exact ⟨ho, h.1.symm, by rw [h.2]⟩
    | blocked => rw [hs] at h; simp at h

/-- What `Open` leaves of an unopened gate, whether it completes or panics: the gate is
open under its name, it holds no channel it did not hold, and every channel is as it was
or, being a listener with room, got the gate once. -/
theorem open_leaves (self : GateId) (g g1 : Gate) (cs cs1 : Chans) (hu : g.opened = false)
    (hn : g.listeners.Nodup)
    (h : g.Open self cs = .ok (g1, cs1) ∨ g.Open self cs = .panic (g1, cs1)) :
    g1.opened = true ∧ g1.name = g.name ∧ (∀ c, c ∈ g1.listeners → c ∈ g.listeners) ∧
      g1.listeners.Nodup ∧
      ∀ c, cs1 c = cs c ∨ (c ∈ g.listeners ∧ (cs c).closed = false ∧
        (cs c).pending < (cs c).cap ∧ cs1 c = { cs c with hist := (cs c).hist ++ [self] }) := by
  rcases h with h | h
  · obtain ⟨hg1, -⟩ := open_ok_of_unopened _ _ _ _ _ hu h
    subst hg1
    refine ⟨rfl, rfl, fun c hc => absurd hc (List.not_mem_nil c), List.nodup_nil, ?_⟩
    intro c
    by_cases hc : c ∈ g.listeners
    · obtain ⟨h1, h2, h3⟩ := (open_chan _ _ _ _ _ hu hn h c).1 hc
      exact Or.inr ⟨hc, h1, h2, h3⟩
    · exact Or.inl ((open_chan _ _ _ _ _ hu hn h c).2 hc)
  · obtain ⟨-, hg1, hs⟩ := open_panic_unopened _ _ _ _ _ h
    subst hg1
    exact ⟨rfl, rfl, fun c hc => hc, hn, (sendAll_panic _ _ _ _ hn hs).2⟩

/-! ## The invariant is kept by every transition -/

theorem live_congr {gates gates1 : GateId → Gate} {c : Chan} {ch : ChanId}
    {gs : List GateId} {i : Nat} (h : Live gates c ch gs i)
    (hop : ∀ g, (gates1 g).opened = (gates g).opened)
    (hl : ∀ g, ch ∈ (gates1 g).listeners ↔ ch ∈ (gates g).listeners) :
    Live gates1 c ch gs i := by
  refine ⟨h.cap, h.notClosed, ?_, h.count_le, ?_, ?_, ?_⟩
  · intro g hg
    exact h.unopened g (by rw [← hop]; exact hg)
  · intro g hg
    exact h.held g ((hl g).1 hg)
  · intro g hg
    exact h.served g (by rw [← hop]; exact hg)
  · intro g hg hm
    exact (hl g).2 (h.waiting g (by rw [← hop]; exact hg) hm)

/-- A transition that leaves a call's channel alone, and the `opened` flags and the
membership of that channel in every listener set, keeps what holds of the call. -/
theorem procInv_congr {gates gates1 : GateId → Gate} {chans chans1 : Chans}
    {ctx : Option Err} {gs : List GateId} {pc : Pc} (h : ProcInv gates chans ctx gs pc)
    (hop : ∀ g, (gates1 g).opened = (gates g).opened)
    (hc : ∀ ch, pc.chan = some ch → chans1 ch = chans ch ∧
      ∀ g, (ch ∈ (gates1 g).listeners ↔ ch ∈ (gates g).listeners)) :
    ProcInv gates1 chans1 ctx gs pc := by
  cases pc with
  | idle => trivial
  | start => trivial
  | registering ch i =>
    obtain ⟨he, hl⟩ := hc ch rfl
    simp only [ProcInv] at h ⊢
    rw [he]
    exact ⟨h.1, h.2.1, h.2.2.1, live_congr h.2.2.2 hop hl⟩
  | selecting ch k =>
    obtain ⟨he, hl⟩ := hc ch rfl
    simp only [ProcInv] at h ⊢
    rw [he]
    exact ⟨h.1, h.2.1, h.2.2.1, live_congr h.2.2.2 hop hl⟩
  | unregistering ch j =>
    obtain ⟨he, hl⟩ := hc ch rfl
    simp only [ProcInv] at h ⊢
    rw [he]
    exact ⟨h.1, h.2.1, h.2.2.1, fun g hg => h.2.2.2 g ((hl g).1 hg)⟩
  | returned ch err =>
    cases ch with
    | none => exact h
    | some ch =>
      obtain ⟨he, hl⟩ := hc ch rfl
      cases err with
      | none =>
        simp only [ProcInv] at h ⊢
        rw [he]
        exact ⟨h.1, h.2.1, fun g hg => by rw [hop]; exact h.2.2.1 g hg,
          fun g hg => h.2.2.2 g ((hl g).1 hg)⟩
      | some e =>
        simp only [ProcInv] at h ⊢
        rw [he]
        exact ⟨h.1, h.2.1, h.2.2.1, fun g hg => h.2.2.2 g ((hl g).1 hg)⟩

/-- The first `Open` of gate `g0` keeps what holds of a channel that is still live. -/
theorem live_openGate {gates : GateId → Gate} {chans cs1 : Chans} {ch : ChanId}
    {gs : List GateId} {i : Nat} {g0 : GateId} {g1 : Gate}
    (h : Live gates (chans ch) ch gs i) (hu : (gates g0).opened = false)
    (hn : (gates g0).listeners.Nodup) (ho : (gates g0).Open g0 chans = .ok (g1, cs1)) :
    Live (Function.update gates g0 g1) (cs1 ch) ch gs i ∧ (cs1 ch).rcvd = (chans ch).rcvd ∧
      (chans ch).hist.length ≤ (cs1 ch).hist.length := by
  obtain ⟨hg1, -⟩ := open_ok_of_unopened _ _ _ _ _ hu ho
  obtain ⟨hin, hout⟩ := open_chan _ _ _ _ _ hu hn ho ch
  have hop : ∀ g, g ≠ g0 → (Function.update gates g0 g1 g) = gates g :=
    fun g hg => Function.update_noteq hg _ _
  have hself : Function.update gates g0 g1 g0 = g1 := Function.update_same _ _ _
  have hl1 : g1.listeners = [] := by rw [hg1]; rfl
  have ho1 : g1.opened = true := by rw [hg1]
  by_cases hm : ch ∈ (gates g0).listeners
  · obtain ⟨-, -, he⟩ := hin hm
    rw [he]
    refine ⟨⟨h.cap, h.notClosed, ?_, ?_, ?_, ?_, ?_⟩, rfl, by simp⟩
    · intro g hg
      have hne : g ≠ g0 := by
        rintro rfl
        rw [hself, ho1] at hg
        cases hg
      rw [hop g hne] at hg
      simp only [List.count_append, h.unopened g hg, zero_add]
      simp [List.count_cons, hne.symm]
    · intro g
      by_cases hne : g = g0
      · subst hne
        have h0 := h.unopened g hu
        have h1 : 0 < (gs.take i).count g := List.count_pos_iff.2 (h.held g hm)
        simp only [List.count_append, h0, zero_add]
        simp only [List.count_cons, List.count_nil, beq_self_eq_true, if_true]
        omega
      · have := h.count_le g
        simp only [List.count_append]
        simp [List.count_cons, Ne.symm hne]
        exact this
    · intro g hg
      have hne : g ≠ g0 := by
        rintro rfl
        rw [hself, hl1] at hg
        cases hg
      rw [hop g hne] at hg
      exact h.held g hg
    · intro g hg hmem
      by_cases hne : g = g0
      · subst hne
        simp [List.count_append]
      · rw [hop g hne] at hg
        have := h.served g hg hmem
        simp only [List.count_append]
        omega
    · intro g hg hmem
      have hne : g ≠ g0 := by
        rintro rfl
        rw [hself, ho1] at hg
        cases hg
      rw [hop g hne] at hg ⊢
      exact h.waiting g hg hmem
  · rw [hout hm]
    refine ⟨⟨h.cap, h.notClosed, ?_, h.count_le, ?_, ?_, ?_⟩, rfl, le_refl _⟩
    · intro g hg
      have hne : g ≠ g0 := by
        rintro rfl
        rw [hself, ho1] at hg
        cases hg
      rw [hop g hne] at hg
      exact h.unopened g hg
    · intro g hg
      have hne : g ≠ g0 := by
        rintro rfl
        rw [hself, hl1] at hg
        cases hg
      rw [hop g hne] at hg
      exact h.held g hg
    · intro g hg hmem
      by_cases hne : g = g0
      · subst hne
        exact absurd (h.waiting g hu hmem) hm
      · rw [hop g hne] at hg
        exact h.served g hg hmem
    · intro g hg hmem
      have hne : g ≠ g0 := by
        rintro rfl
        rw [hself, ho1] at hg
        cases hg
      rw [hop g hne] at hg ⊢
      exact h.waiting g hg hmem

theorem live_congrChan {gates : GateId → Gate} {c c1 : Chan} {ch : ChanId}
    {gs : List GateId} {i : Nat} (h : Live gates c ch gs i) (hcap : c1.cap = c.cap)
    (hcl : c1.closed = c.closed) (hh : c1.hist = c.hist) : Live gates c1 ch gs i := by
  refine ⟨by rw [hcap]; exact h.cap, by rw [hcl]; exact h.notClosed, ?_, ?_, h.held, ?_,
    h.waiting⟩
  · rw [hh]; exact h.unopened
  · rw [hh]; exact h.count_le
  · rw [hh]; exact h.served

/-- A live channel never got more values than registrations were made. -/
theorem live_subperm {gates : GateId → Gate} {c : Chan} {ch : ChanId} {gs : List GateId}
    {i : Nat} (h : Live gates c ch gs i) : c.hist.Subperm (gs.take i) :=
  List.subperm_ext_iff.2 fun g _ => h.count_le g

theorem live_hist_le {gates : GateId → Gate} {c : Chan} {ch : ChanId} {gs : List GateId}
    {i : Nat} (h : Live gates c ch gs i) : c.hist.length ≤ gs.length :=
  le_trans (live_subperm h).length_le (by simp)

/-- A live channel that got as many values as there are gates got them from open gates
that make up the whole list. -/
theorem live_all_opened {gates : GateId → Gate} {c : Chan} {ch : ChanId} {gs : List GateId}
    (h : Live gates c ch gs gs.length) (hlen : gs.length ≤ c.hist.length) :
    ∀ g ∈ gs, (gates g).opened = true := by
  intro g hg
  have hsub := live_subperm h
  rw [List.take_length] at hsub
  have hperm := hsub.perm_of_length_le hlen
  have hmem : g ∈ c.hist := hperm.mem_iff.2 hg
  by_contra hne
  simp only [Bool.not_eq_true] at hne
  exact absurd (h.unopened g hne) (List.count_pos_iff.2 hmem).ne'

theorem open_gates (gates : GateId → Gate) (g0 : GateId) (g1 : Gate) (chans cs1 : Chans)
    (ho : (gates g0).Open g0 chans = .ok (g1, cs1)) (g : GateId) :
    ((gates g).opened = true → (Function.update gates g0 g1 g).opened = true) ∧
      ∀ c, c ∈ (Function.update gates g0 g1 g).listeners → c ∈ (gates g).listeners := by
  by_cases hg : g = g0
  · subst hg
    rw [Function.update_same]
    refine ⟨fun _ => open_ok_opened _ _ _ _ _ ho, ?_⟩
    intro c hc
    by_cases hu : (gates g).opened = true
    · rw [open_of_opened _ _ _ hu] at ho
      simp only [Outcome.ok.injEq, Prod.mk.injEq] at ho
      rw [ho.1]; exact hc
    · simp only [Bool.not_eq_true] at hu
      rw [(open_ok_of_unopened _ _ _ _ _ hu ho).1] at hc
      cases hc
  · rw [Function.update_noteq hg]
    exact ⟨id, fun _ => id⟩

/-- The first `Open` of gate `g0` keeps what holds of every call. -/
theorem procInv_openGate {gates : GateId → Gate} {chans cs1 : Chans} {ctx : Option Err}
    {gs : List GateId} {pc : Pc} {g0 : GateId} {g1 : Gate}
    (h : ProcInv gates chans ctx gs pc) (hu : (gates g0).opened = false)
    (hn : (gates g0).listeners.Nodup) (ho : (gates g0).Open g0 chans = .ok (g1, cs1)) :
    ProcInv (Function.update gates g0 g1) cs1 ctx gs pc := by
  have hg := open_gates gates g0 g1 chans cs1 ho
  have hdead : ∀ ch, (chans ch).closed = true → cs1 ch = chans ch := by
    intro ch hcl
    obtain ⟨hin, hout⟩ := open_chan _ _ _ _ _ hu hn ho ch
    by_cases hm : ch ∈ (gates g0).listeners
    · rw [(hin hm).1] at hcl
      cases hcl
    · exact hout hm
  cases pc with
  | idle => trivial
  | start => trivial
  | registering ch i =>
    simp only [ProcInv] at h ⊢
    obtain ⟨hl, hr, -⟩ := live_openGate h.2.2.2 hu hn ho
    exact ⟨h.1, h.2.1, by rw [hr]; exact h.2.2.1, hl⟩
  | selecting ch k =>
    simp only [ProcInv] at h ⊢
    obtain ⟨hl, hr, hlen⟩ := live_openGate h.2.2.2 hu hn ho
    exact ⟨h.1, by rw [hr]; exact h.2.1, by rw [hr]; exact le_trans h.2.2.1 hlen, hl⟩
  | unregistering ch j =>
    simp only [ProcInv] at h ⊢
    rw [hdead ch h.2.2.1.closed]
    exact ⟨h.1, h.2.1, h.2.2.1, fun g hm => h.2.2.2 g ((hg g).2 ch hm)⟩
  | returned ch err =>
    cases ch with
    | none => exact h
    | some ch =>
      cases err with
      | none =>
        simp only [ProcInv] at h ⊢
        rw [hdead ch h.2.1.closed]
        exact ⟨h.1, h.2.1, fun g hm => (hg g).1 (h.2.2.1 g hm),
          fun g hm => h.2.2.2 g ((hg g).2 ch hm)⟩
      | some e =>
        simp only [ProcInv] at h ⊢
        rw [hdead ch h.2.2.1.closed]
        exact ⟨h.1, h.2.1, h.2.2.1, fun g hm => h.2.2.2 g ((hg g).2 ch hm)⟩

/-- Firing the context of a call keeps what holds of it. -/
theorem procInv_cancel {gates : GateId → Gate} {chans : Chans} {gs : List GateId} {pc : Pc}
    (e : Err) (h : ProcInv gates chans none gs pc) : ProcInv gates chans (some e) gs pc := by
  cases pc with
  | idle => trivial
  | start => trivial
  | registering ch i => exact h
  | selecting ch k => exact h
  | unregistering ch j => exact absurd rfl h.1
  | returned ch err =>
    cases ch with
    | none => exact h
    | some ch =>
      cases err with
      | none => exact h
      | some e1 =>
        simp only [ProcInv] at h
        exact absurd h.1 (by simp)

/-- After `make`: a fresh channel of capacity `len(gates)` that no gate holds. -/
theorem live_fresh {gates : GateId → Gate} {ch : ChanId} {gs : List GateId}
    (hno : ∀ g, ch ∉ (gates g).listeners) : Live gates (Chan.fresh gs.length) ch gs 0 := by
  refine ⟨rfl, rfl, ?_, ?_, ?_, ?_, ?_⟩
  · intro g _; rfl
  · intro g; simp [Chan.fresh]
  · intro g hg; exact absurd hg (hno g)
  · intro g _ hm; simp at hm
  · intro g _ hm; simp at hm

theorem take_succ_of_getElem? {gs : List GateId} {i : Nat} {g0 : GateId}
    (hi : gs[i]? = some g0) : gs.take (i + 1) = gs.take i ++ [g0] := by
  rw [List.take_succ, hi]; rfl

/-- A registration with a gate that is open: the value is sent at once. -/
theorem live_registerOpened {gates : GateId → Gate} {c : Chan} {ch : ChanId}
    {gs : List GateId} {i : Nat} {g0 : GateId} (h : Live gates c ch gs i)
    (hi : gs[i]? = some g0) (ho : (gates g0).opened = true) :
    Live gates { c with hist := c.hist ++ [g0] } ch gs (i + 1) := by
  have ht := take_succ_of_getElem? hi
  refine ⟨h.cap, h.notClosed, ?_, ?_, ?_, ?_, ?_⟩
  all_goals try rw [ht]
  · intro g hg
    have hne : g0 ≠ g := by
      rintro rfl
      rw [ho] at hg
      cases hg
    simp [List.count_append, List.count_cons, hne, h.unopened g hg]
  · intro g
    have := h.count_le g
    simp only [List.count_append]
    omega
  · intro g hg
    exact List.mem_append_left _ (h.held g hg)
  · intro g hg hm
    rcases List.mem_append.1 hm with hm | hm
    · have := h.served g hg hm
      simp only [List.count_append]
      omega
    · have hgg : g = g0 := by simpa using hm
      subst hgg
      simp [List.count_append]
  · intro g hg hm
    rcases List.mem_append.1 hm with hm | hm
    · exact h.waiting g hg hm
    · have hgg : g = g0 := by simpa using hm
      subst hgg
      rw [ho] at hg
      cases hg

/-- A registration with a gate that is not open: the channel joins the listener set. -/
theorem live_registerUnopened {gates : GateId → Gate} {c : Chan} {ch : ChanId}
    {gs : List GateId} {i : Nat} {g0 : GateId} (h : Live gates c ch gs i)
    (hi : gs[i]? = some g0) (hu : (gates g0).opened = false) :
    Live (Function.update gates g0
        { gates g0 with chans := some ((gates g0).listeners.insert ch) }) c ch gs (i + 1) := by
  have ht := take_succ_of_getElem? hi
  have hop : ∀ g, (Function.update gates g0
      { gates g0 with chans := some ((gates g0).listeners.insert ch) } g).opened
      = (gates g).opened := by
    intro g
    by_cases hg : g = g0
    · subst hg; rw [Function.update_same]
    · rw [Function.update_noteq hg]
  have hself : (Function.update gates g0
      { gates g0 with chans := some ((gates g0).listeners.insert ch) } g0).listeners
      = (gates g0).listeners.insert ch := by
    rw [Function.update_same]; rfl
  refine ⟨h.cap, h.notClosed, ?_, ?_, ?_, ?_, ?_⟩
  all_goals try rw [ht]
  · intro g hg
    rw [hop] at hg
    exact h.unopened g hg
  · intro g
    have := h.count_le g
    simp only [List.count_append]
    omega
  · intro g hg
    by_cases hgg : g = g0
    · subst hgg; simp
    · rw [Function.update_noteq hgg] at hg
      exact List.mem_append_left _ (h.held g hg)
  · intro g hg hm
    rw [hop] at hg
    rcases List.mem_append.1 hm with hm | hm
    · exact h.served g hg hm
    · have hgg : g = g0 := by simpa using hm
      subst hgg
      rw [hu] at hg
      cases hg
  · intro g hg hm
    rw [hop] at hg
    by_cases hgg : g = g0
    · subst hgg
      rw [hself]
      exact List.mem_insert_self _ _
    · rw [Function.update_noteq hgg]
      rcases List.mem_append.1 hm with hm | hm
      · exact h.waiting g hg hm
      · exact absurd (by simpa using hm) hgg

theorem inv_init (names : GateId → List String) : Inv (init names) := by
  refine ⟨?_, ?_, ?_, ?_, ?_, ?_⟩
  · intro g hg; cases hg
  · intro g; exact List.nodup_nil
  · intro g c hc; cases hc
  · intro p c hc; cases hc
  · intro p q c hc; cases hc
  · intro p; trivial

/-- A statement of call `p` that moves it to `pc1`, touches no channel of another call
and no `opened` flag, keeps the invariant as soon as it keeps what holds of `p`. -/
theorem inv_ownStep {s s1 : State} {p : Pid} {pc1 : Pc} (hinv : Inv s)
    (hprocs : s1.procs = Function.update s.procs p { s.procs p with pc := pc1 })
    (hnext : s.nextChan ≤ s1.nextChan)
    (hopen : ∀ g, (s1.gates g).opened = (s.gates g).opened)
    (hchans : ∀ c, pc1.chan ≠ some c → c < s.nextChan → s1.chans c = s.chans c)
    (hlist : ∀ g c, pc1.chan ≠ some c →
      (c ∈ (s1.gates g).listeners ↔ c ∈ (s.gates g).listeners))
    (hdr : ∀ g, (s1.gates g).opened = true → (s1.gates g).chans = none)
    (hnd : ∀ g, (s1.gates g).listeners.Nodup)
    (hfresh : ∀ c, pc1.chan = some c →
      (s.procs p).pc.chan = some c ∨ (s.nextChan ≤ c ∧ c < s1.nextChan))
    (hown : ProcInv s1.gates s1.chans (s.procs p).ctx (s.procs p).gates pc1) : Inv s1 := by
  have hp : s1.procs p = { s.procs p with pc := pc1 } := by rw [hprocs, Function.update_same]
  have hq : ∀ q, q ≠ p → s1.procs q = s.procs q :=
    fun q hq => by rw [hprocs, Function.update_noteq hq]
  have hother : ∀ q c, q ≠ p → (s.procs q).pc.chan = some c → pc1.chan ≠ some c := by
    intro q c hqp hc h1
    rcases hfresh c h1 with h2 | h2
    · exact hqp (hinv.chanInj q p c hc h2)
    · exact absurd (hinv.chanAlloc q c hc) (not_lt.2 h2.1)
  have hca : ∀ q c, (s1.procs q).pc.chan = some c → c < s1.nextChan := by
    intro q c hc
    by_cases hqp : q = p
    · subst hqp
      rw [hp] at hc
      rcases hfresh c hc with h2 | h2
      · exact lt_of_lt_of_le (hinv.chanAlloc q c h2) hnext
      · exact h2.2
    · rw [hq q hqp] at hc
      exact lt_of_lt_of_le (hinv.chanAlloc q c hc) hnext
  refine ⟨hdr, hnd, ?_, hca, ?_, ?_⟩
  · intro g c hc
    by_cases h1 : pc1.chan = some c
    · exact hca p c (by rw [hp]; exact h1)
    · exact lt_of_lt_of_le (hinv.listenersAlloc g c ((hlist g c h1).1 hc)) hnext
  · intro q1 q2 c h1 h2
    by_cases hq1 : q1 = p
    · by_cases hq2 : q2 = p
      · rw [hq1, hq2]
      · subst hq1
        rw [hp] at h1
        rw [hq q2 hq2] at h2
        exact absurd h1 (hother q2 c hq2 h2)
    · by_cases hq2 : q2 = p
      · subst hq2
        rw [hp] at h2
        rw [hq q1 hq1] at h1
        exact absurd h2 (hother q1 c hq1 h1)
      · rw [hq q1 hq1] at h1
        rw [hq q2 hq2] at h2
        exact hinv.chanInj q1 q2 c h1 h2
  · intro q
    by_cases hqp : q = p
    · subst hqp
      rw [hp]
      exact hown
    · rw [hq q hqp]
      refine procInv_congr (hinv.proc q) hopen ?_
      intro c hc
      have hne := hother q c hqp hc
      exact ⟨hchans c hne (hinv.chanAlloc q c hc), fun g => hlist g c hne⟩

theorem inv_openGate {s s1 : State} {g0 : GateId} (hinv : Inv s)
    (h : step s (.openGate g0) = .ok s1) : Inv s1 := by
  simp only [step] at h
  cases ho : (s.gates g0).Open g0 s.chans with
  | ok r =>
    obtain ⟨g1, cs1⟩ := r
    rw [ho] at h
    simp only [Outcome.ok.injEq] at h
    subst h
    by_cases hu : (s.gates g0).opened = true
    · rw [open_of_opened _ _ _ hu] at ho
      simp only [Outcome.ok.injEq, Prod.mk.injEq] at ho
      rw [← ho.1, ← ho.2, Function.update_eq_self]
      exact hinv
    · simp only [Bool.not_eq_true] at hu
      have hg1 := (open_ok_of_unopened _ _ _ _ _ hu ho).1
      have hg := open_gates s.gates g0 g1 s.chans cs1 ho
      refine ⟨?_, ?_, ?_, hinv.chanAlloc, hinv.chanInj, ?_⟩
      · intro g hgo
        by_cases hgg : g = g0
        · subst hgg
          simp only [Function.update_same]
          rw [hg1]
        · simp only [Function.update_noteq hgg] at hgo ⊢
          exact hinv.drained g hgo
      · intro g
        by_cases hgg : g = g0
        · subst hgg
          simp only [Function.update_same]
          rw [hg1]
          exact List.nodup_nil
        · simp only [Function.update_noteq hgg]
          exact hinv.nodup g
      · intro g c hc
        exact hinv.listenersAlloc g c ((hg g).2 c hc)
      · intro p
        exact procInv_openGate (hinv.proc p) hu (hinv.nodup g0) ho
  | panic r0 => rw [ho] at h; cases h
  | blocked => rw [ho] at h; cases h

theorem inv_frame {s s1 : State} (hinv : Inv s) (hg : s1.gates = s.gates)
    (hc : s1.chans = s.chans) (hn : s1.nextChan = s.nextChan)
    (hpc : ∀ p, (s1.procs p).pc.chan = (s.procs p).pc.chan)
    (hp : ∀ p, ProcInv s.gates s.chans (s1.procs p).ctx (s1.procs p).gates (s1.procs p).pc) :
    Inv s1 := by
  refine ⟨?_, ?_, ?_, ?_, ?_, ?_⟩
  · rw [hg]; exact hinv.drained
  · rw [hg]; exact hinv.nodup
  · rw [hg, hn]; exact hinv.listenersAlloc
  · intro p c h; rw [hn]; exact hinv.chanAlloc p c (by rw [← hpc]; exact h)
  · intro p q c h1 h2
    exact hinv.chanInj p q c (by rw [← hpc]; exact h1) (by rw [← hpc]; exact h2)
  · rw [hg, hc]; exact hp

theorem inv_call {s s1 : State} {p : Pid} {ctx : Option Err} {gs : List GateId}
    (hinv : Inv s) (h : step s (.call p ctx gs) = .ok s1) : Inv s1 := by
  simp only [step] at h
  cases hpc : (s.procs p).pc <;> rw [hpc] at h <;> cases h
  refine inv_frame hinv rfl rfl rfl ?_ ?_
  · intro q
    by_cases hq : q = p
    · subst hq; simp [hpc, Pc.chan]
    · simp [Function.update_noteq hq]
  · intro q
    by_cases hq : q = p
    · subst hq; simp [ProcInv]
    · simp only [Function.update_noteq hq]
      exact hinv.proc q

theorem inv_cancel {s s1 : State} {p : Pid} {e : Err}
    (hinv : Inv s) (h : step s (.cancel p e) = .ok s1) : Inv s1 := by
  simp only [step] at h
  cases hctx : (s.procs p).ctx <;> rw [hctx] at h <;> cases h
  refine inv_frame hinv rfl rfl rfl ?_ ?_
  · intro q
    by_cases hq : q = p
    · subst hq; simp
    · simp [Function.update_noteq hq]
  · intro q
    by_cases hq : q = p
    · subst hq
      simp only [Function.update_same]
      have := hinv.proc q
      rw [hctx] at this
      exact procInv_cancel e this
    · simp only [Function.update_noteq hq]
      exact hinv.proc q

theorem register_opened_ok (self : GateId) (g g1 : Gate) (ch : ChanId) (cs cs1 : Chans)
    (ho : g.opened = true) (h : g.register self ch cs = .ok (g1, cs1)) :
    g1 = g ∧ cs1 = Function.update cs ch { cs ch with hist := (cs ch).hist ++ [self] } ∧
      (cs ch).closed = false ∧ (cs ch).pending < (cs ch).cap := by
  simp only [Gate.register, ho, if_true] at h
  cases hs : (cs ch).send self with
  | ok c =>
    rw [hs] at h
    simp only [Outcome.ok.injEq, Prod.mk.injEq] at h
    obtain ⟨h1, h2, h3⟩ := (send_ok_iff _ _ _).1 hs
    exact ⟨h.1.symm, by rw [← h.2, h3], h1, h2⟩
  | panic r0 => rw [hs] at h; cases h
  | blocked => rw [hs] at h; cases h

theorem drop_of_getElem? {gs : List GateId} {j : Nat} {g0 : GateId}
    (hj : gs[j]? = some g0) : gs.drop j = g0 :: gs.drop (j + 1) := by
  obtain ⟨hlt, hget⟩ := List.getElem?_eq_some_iff.1 hj
  rw [List.drop_eq_getElem_cons hlt, hget]

theorem inv_wait {s s1 : State} {p : Pid} (hinv : Inv s) (h : stepWait s p = .ok s1) :
    Inv s1 := by
  have hold := hinv.proc p
  unfold stepWait at h
  cases hpc : (s.procs p).pc with
  | idle => simp only [hpc] at h; cases h
  | selecting ch k => simp only [hpc] at h; cases h
  | returned ch err => simp only [hpc] at h; cases h
  | start =>
    simp only [hpc] at h
    by_cases hlen : (s.procs p).gates.length = 0
    · simp only [hlen, if_true, Outcome.ok.injEq] at h
      subst h
      refine inv_ownStep hinv rfl (le_refl _) (fun _ => rfl) (fun _ _ _ => rfl)
        (fun _ _ _ => Iff.rfl) hinv.drained hinv.nodup ?_ ?_
      · intro c hc; cases hc
      · exact ⟨rfl, List.length_eq_zero.1 hlen⟩
    · simp only [hlen, if_false, Outcome.ok.injEq] at h
      subst h
      refine inv_ownStep hinv rfl (Nat.le_succ _) (fun _ => rfl) ?_
        (fun _ _ _ => Iff.rfl) hinv.drained hinv.nodup ?_ ?_
      · intro c hc _
        have hne : c ≠ s.nextChan := fun h => hc (by rw [h]; rfl)
        simp [State.setPc, Function.update_noteq hne]
      · intro c hc
        simp only [Pc.chan, Option.some.injEq] at hc
        subst hc
        exact Or.inr ⟨le_refl _, Nat.lt_succ_self _⟩
      · simp only [ProcInv, State.setPc, Function.update_same]
        refine ⟨Nat.pos_of_ne_zero hlen, Nat.zero_le _, rfl, live_fresh ?_⟩
        intro g hg
        exact lt_irrefl _ (hinv.listenersAlloc g _ hg)
  | registering ch i =>
    simp only [hpc] at h
    rw [hpc] at hold
    simp only [ProcInv] at hold
    obtain ⟨hn1, hile, hr0, hlive⟩ := hold
    cases hi : (s.procs p).gates[i]? with
    | none =>
      simp only [hi, Outcome.ok.injEq] at h
      subst h
      have hieq : i = (s.procs p).gates.length :=
        le_antisymm hile (List.getElem?_eq_none_iff.1 hi)
      refine inv_ownStep hinv rfl (le_refl _) (fun _ => rfl) (fun _ _ _ => rfl)
        (fun _ _ _ => Iff.rfl) hinv.drained hinv.nodup ?_ ?_
      · intro c hc
        exact Or.inl (by rw [hpc]; exact hc)
      · simp only [ProcInv, State.setPc]
        rw [hieq] at hlive
        exact ⟨hn1, by rw [hr0]; rfl, by rw [hr0]; exact Nat.zero_le _, hlive⟩
    | some g0 =>
      simp only [hi] at h
      have hilt : i < (s.procs p).gates.length := (List.getElem?_eq_some_iff.1 hi).1
      by_cases ho : (s.gates g0).opened = true
      · cases hreg : (s.gates g0).register g0 ch s.chans with
        | ok r =>
          obtain ⟨g1, cs1⟩ := r
          rw [hreg] at h
          simp only [Outcome.ok.injEq] at h
          subst h
          obtain ⟨hg1, hcs1, -, -⟩ := register_opened_ok _ _ _ _ _ _ ho hreg
          subst hg1 hcs1
          refine inv_ownStep hinv rfl (le_refl _) ?_ ?_ ?_ ?_ ?_ ?_ ?_
          · intro g; simp [State.setPc, Function.update_eq_self]
          · intro c hc _
            have hne : c ≠ ch := fun h => hc (by rw [h]; rfl)
            simp [State.setPc, Function.update_noteq hne]
          · intro g c _; simp [State.setPc, Function.update_eq_self]
          · simp only [State.setPc, Function.update_eq_self]; exact hinv.drained
          · simp only [State.setPc, Function.update_eq_self]; exact hinv.nodup
          · intro c hc
            exact Or.inl (by rw [hpc]; exact hc)
          · simp only [ProcInv, State.setPc, Function.update_eq_self, Function.update_same]
            exact ⟨hn1, hilt, hr0, live_registerOpened hlive hi ho⟩
        | panic r0 => rw [hreg] at h; cases h
        | blocked => rw [hreg] at h; cases h
      · simp only [Bool.not_eq_true] at ho
        rw [register_unopened _ _ _ _ ho] at h
        simp only [Outcome.ok.injEq] at h
        subst h
        have hopen : ∀ g, (Function.update s.gates g0
            { s.gates g0 with chans := some ((s.gates g0).listeners.insert ch) } g).opened
            = (s.gates g).opened := by
          intro g
          by_cases hg : g = g0
          · subst hg; rw [Function.update_same]
          · rw [Function.update_noteq hg]
        refine inv_ownStep hinv rfl (le_refl _) hopen (fun _ _ _ => rfl) ?_ ?_ ?_ ?_ ?_
        · intro g c hc
          have hne : c ≠ ch := fun h => hc (by rw [h]; rfl)
          by_cases hg : g = g0
          · subst hg
            simp only [State.setPc, Function.update_same]
            show c ∈ (s.gates g).listeners.insert ch ↔ _
            rw [List.mem_insert_iff]
            simp [hne]
          · simp only [State.setPc, Function.update_noteq hg]
        · intro g hg
          have hgo := hg
          simp only [State.setPc] at hgo
          rw [hopen] at hgo
          have hne : g ≠ g0 := by
            rintro rfl
            rw [ho] at hgo
            cases hgo
          simp only [State.setPc, Function.update_noteq hne]
          exact hinv.drained g hgo
        · intro g
          by_cases hg : g = g0
          · subst hg
            simp only [State.setPc, Function.update_same]
            exact (hinv.nodup g).insert
          · simp only [State.setPc, Function.update_noteq hg]
            exact hinv.nodup g
        · intro c hc
          exact Or.inl (by rw [hpc]; exact hc)
        · simp only [ProcInv, State.setPc]
          exact ⟨hn1, hilt, hr0, live_registerUnopened hlive hi ho⟩
  | unregistering ch j =>
    simp only [hpc] at h
    rw [hpc] at hold
    simp only [ProcInv] at hold
    obtain ⟨hctx, hrc, hdead, hheld⟩ := hold
    cases hj : (s.procs p).gates[j]? with
    | none =>
      simp only [hj, Outcome.ok.injEq] at h
      subst h
      refine inv_ownStep hinv rfl (le_refl _) (fun _ => rfl) (fun _ _ _ => rfl)
        (fun _ _ _ => Iff.rfl) hinv.drained hinv.nodup ?_ ?_
      · intro c hc
        exact Or.inl (by rw [hpc]; exact hc)
      · cases hc : (s.procs p).ctx with
        | none => exact absurd hc hctx
        | some e =>
          simp only [ProcInv, State.setPc]
          refine ⟨trivial, hrc, hdead, ?_⟩
          intro g hg
          have := hheld g hg
          rw [List.drop_eq_nil_of_le (List.getElem?_eq_none_iff.1 hj)] at this
          cases this
    | some g0 =>
      simp only [hj, Outcome.ok.injEq] at h
      subst h
      have hopen : ∀ g, (Function.update s.gates g0 ((s.gates g0).unregister ch) g).opened
          = (s.gates g).opened := by
        intro g
        by_cases hg : g = g0
        · subst hg; rw [Function.update_same, unregister_opened]
        · rw [Function.update_noteq hg]
      refine inv_ownStep hinv rfl (le_refl _) hopen (fun _ _ _ => rfl) ?_ ?_ ?_ ?_ ?_
      · intro g c hc
        have hne : c ≠ ch := fun h => hc (by rw [h]; rfl)
        by_cases hg : g = g0
        · subst hg
          simp only [State.setPc, Function.update_same, unregister_listeners, List.mem_filter]
          simp [hne]
        · simp only [State.setPc, Function.update_noteq hg]
      · intro g hg
        have hgo := hg
        simp only [State.setPc] at hgo
        rw [hopen] at hgo
        by_cases hgg : g = g0
        · subst hgg
          simp only [State.setPc, Function.update_same]
          simp [Gate.unregister, hinv.drained g hgo]
        · simp only [State.setPc, Function.update_noteq hgg]
          exact hinv.drained g hgo
      · intro g
        by_cases hg : g = g0
        · subst hg
          simp only [State.setPc, Function.update_same, unregister_listeners]
          exact (hinv.nodup g).filter _
        · simp only [State.setPc, Function.update_noteq hg]
          exact hinv.nodup g
      · intro c hc
        exact Or.inl (by rw [hpc]; exact hc)
      · simp only [ProcInv, State.setPc]
        refine ⟨hctx, hrc, hdead, ?_⟩
        intro g hg
        by_cases hgg : g = g0
        · subst hgg
          rw [Function.update_same, unregister_listeners, List.mem_filter] at hg
          simp at hg
        · rw [Function.update_noteq hgg] at hg
          have := hheld g hg
          rw [drop_of_getElem? hj] at this
          rcases List.mem_cons.1 this with h1 | h1
          · exact absurd h1 hgg
          · exact h1

theorem recv_ok_iff (c c1 : Chan) :
    c.recv = .ok c1 ↔ c.rcvd < c.hist.length ∧ c1 = { c with rcvd := c.rcvd + 1 } := by
  unfold Chan.recv
  by_cases h : c.rcvd < c.hist.length
  · simp [h, eq_comm]
  · simp [h]

theorem close_ok_iff (c c1 : Chan) :
    c.close = .ok c1 ↔ c.closed = false ∧ c1 = { c with closed := true } := by
  unfold Chan.close
  by_cases h : c.closed = true
  · simp [h]
  · simp [h, eq_comm]

theorem inv_recv {s s1 : State} {p : Pid} (hinv : Inv s) (h : stepRecv s p = .ok s1) :
    Inv s1 := by
  have hold := hinv.proc p
  unfold stepRecv at h
  cases hpc : (s.procs p).pc with
  | idle => simp only [hpc] at h; cases h
  | start => simp only [hpc] at h; cases h
  | registering ch i => simp only [hpc] at h; cases h
  | unregistering ch j => simp only [hpc] at h; cases h
  | returned ch err => simp only [hpc] at h; cases h
  | selecting ch k =>
    simp only [hpc] at h
    rw [hpc] at hold
    simp only [ProcInv] at hold
    obtain ⟨hk1, hkn, hrl, hlive⟩ := hold
    have hhl := live_hist_le hlive
    have hchans : ∀ (c1 : Chan) (c : ChanId), some ch ≠ some c → c < s.nextChan →
        (Function.update s.chans ch c1) c = s.chans c := by
      intro c1 c hc _
      have hne : c ≠ ch := fun h => hc (by rw [h])
      exact Function.update_noteq hne _ _
    have hfresh : ∀ c, some ch = some c →
        (s.procs p).pc.chan = some c ∨ (s.nextChan ≤ c ∧ c < s.nextChan) :=
      fun c hc => Or.inl (by rw [hpc]; exact hc)
    cases hrecv : (s.chans ch).recv with
    | ok c =>
      rw [hrecv] at h
      obtain ⟨hlt, hc⟩ := (recv_ok_iff _ _).1 hrecv
      by_cases hk : k - 1 ≤ 0
      · simp only [hk, if_true] at h
        cases hclose : c.close with
        | ok c1 =>
          rw [hclose] at h
          simp only [Outcome.ok.injEq] at h
          subst h
          obtain ⟨-, hc1⟩ := (close_ok_iff _ _).1 hclose
          refine inv_ownStep hinv rfl (le_refl _) (fun _ => rfl) (hchans c1)
            (fun _ _ _ => Iff.rfl) hinv.drained hinv.nodup hfresh ?_
          simp only [ProcInv, State.setPc, Function.update_same]
          have hlen : (s.procs p).gates.length ≤ (s.chans ch).hist.length := by omega
          have hall := live_all_opened hlive hlen
          subst hc1 hc
          refine ⟨by simp only; omega, ⟨hlive.cap, rfl, hhl, hlt⟩, hall, ?_⟩
          intro g hg
          have hmem := hlive.held g hg
          rw [List.take_length] at hmem
          have hdr := hinv.drained g (hall g hmem)
          simp [Gate.listeners, hdr] at hg
        | panic r0 => rw [hclose] at h; cases h
        | blocked => rw [hclose] at h; cases h
      · simp only [hk, if_false, Outcome.ok.injEq] at h
        subst h
        refine inv_ownStep hinv rfl (le_refl _) (fun _ => rfl) (hchans c)
          (fun _ _ _ => Iff.rfl) hinv.drained hinv.nodup hfresh ?_
        simp only [ProcInv, State.setPc, Function.update_same]
        subst hc
        refine ⟨by omega, by simp only; omega, hlt, live_congrChan hlive rfl rfl rfl⟩
    | panic r0 => rw [hrecv] at h; cases h
    | blocked => rw [hrecv] at h; cases h

theorem inv_done {s s1 : State} {p : Pid} (hinv : Inv s) (h : stepDone s p = .ok s1) :
    Inv s1 := by
  have hold := hinv.proc p
  unfold stepDone at h
  cases hpc : (s.procs p).pc with
  | idle => simp only [hpc] at h; cases h
  | start => simp only [hpc] at h; cases h
  | registering ch i => simp only [hpc] at h; cases h
  | unregistering ch j => simp only [hpc] at h; cases h
  | returned ch err => simp only [hpc] at h; cases h
  | selecting ch k =>
    simp only [hpc] at h
    rw [hpc] at hold
    simp only [ProcInv] at hold
    obtain ⟨hk1, hkn, hrl, hlive⟩ := hold
    have hhl := live_hist_le hlive
    cases hctx : (s.procs p).ctx with
    | none => rw [hctx] at h; cases h
    | some e =>
      rw [hctx] at h
      cases hclose : (s.chans ch).close with
      | ok c1 =>
        rw [hclose] at h
        simp only [Outcome.ok.injEq] at h
        subst h
        obtain ⟨-, hc1⟩ := (close_ok_iff _ _).1 hclose
        refine inv_ownStep hinv rfl (le_refl _) (fun _ => rfl) ?_
          (fun _ _ _ => Iff.rfl) hinv.drained hinv.nodup ?_ ?_
        · intro c hc _
          have hne : c ≠ ch := fun h => hc (by rw [h]; rfl)
          exact Function.update_noteq hne _ _
        · exact fun c hc => Or.inl (by rw [hpc]; exact hc)
        · simp only [ProcInv, State.setPc, Function.update_same]
          subst hc1
          refine ⟨by simp [hctx], by simp only; omega, ⟨hlive.cap, rfl, hhl, hrl⟩, ?_⟩
          intro g hg
          have hmem := hlive.held g hg
          rw [List.take_length] at hmem
          simpa using hmem
      | panic r0 => rw [hclose] at h; cases h
      | blocked => rw [hclose] at h; cases h

/-- Every transition keeps the invariant. -/
theorem inv_step {s s1 : State} (a : Action) (hinv : Inv s) (h : step s a = .ok s1) :
    Inv s1 := by
  cases a with
  | openGate g => exact inv_openGate hinv h
  | isOpen g => simp only [Syncgate.step, Outcome.ok.injEq] at h; subst h; exact hinv
  | describe g => simp only [Syncgate.step, Outcome.ok.injEq] at h; subst h; exact hinv
  | tryGates gs => simp only [Syncgate.step, Outcome.ok.injEq] at h; subst h; exact hinv
  | call p ctx gs => exact inv_call hinv h
  | cancel p e => exact inv_cancel hinv h
  | wait p => exact inv_wait hinv h
  | selectRecv p => exact inv_recv hinv h
  | selectDone p => exact inv_done hinv h

theorem run_cons_ok {s s2 : State} {a : Action} {as : List Action}
    (h : run s (a :: as) = .ok s2) : ∃ s1, step s a = .ok s1 ∧ run s1 as = .ok s2 := by
  simp only [run] at h
  cases hs : Syncgate.step s a with
  | ok s1 => rw [hs] at h; exact ⟨s1, rfl, h⟩
  | panic r0 => rw [hs] at h; cases h
  | blocked => rw [hs] at h; cases h

/-- Every interleaving keeps the invariant. -/
theorem inv_run {s s1 : State} (as : List Action) (hinv : Inv s) (h : run s as = .ok s1) :
    Inv s1 := by
  induction as generalizing s with
  | nil =>
    simp only [Syncgate.run, Outcome.ok.injEq] at h
    subst h
    exact hinv
  | cons a rest ih =>
    obtain ⟨s2, h1, h2⟩ := run_cons_ok h
    exact ih (inv_step a hinv h1) h2

/-! ## What one transition does to one call and to the `opened` flags -/

theorem register_opened_eq (self : GateId) (g g1 : Gate) (ch : ChanId) (cs cs1 : Chans)
    (h : g.register self ch cs = .ok (g1, cs1)) : g1.opened = g.opened ∧ g1.name = g.name := by
  by_cases ho : g.opened = true
  · obtain ⟨hg, -, -, -⟩ := register_opened_ok _ _ _ _ _ _ ho h
    rw [hg]; exact ⟨rfl, rfl⟩
  · simp only [Bool.not_eq_true] at ho
    rw [register_unopened _ _ _ _ ho] at h
    simp only [Outcome.ok.injEq, Prod.mk.injEq] at h
    rw [← h.1]; exact ⟨rfl, rfl⟩

/-- A statement of `Wait` outside the select changes the program counter of its call
only, to a point with less fuel, and no `opened` flag or name. -/
theorem stepWait_effect {s s1 : State} {q : Pid} (h : stepWait s q = .ok s1) :
    (∃ pc1, s1.procs = Function.update s.procs q { s.procs q with pc := pc1 } ∧
      pc1 ≠ .idle ∧
      pc1.fuel (s.procs q).gates.length < (s.procs q).pc.fuel (s.procs q).gates.length) ∧
    (∀ g, (s1.gates g).opened = (s.gates g).opened) ∧
    (∀ g, (s1.gates g).name = (s.gates g).name) := by
  unfold stepWait at h
  cases hpc : (s.procs q).pc with
  | idle => simp only [hpc] at h; cases h
  | selecting ch k => simp only [hpc] at h; cases h
  | returned ch err => simp only [hpc] at h; cases h
  | start =>
    simp only [hpc] at h
    by_cases hlen : (s.procs q).gates.length = 0
    · simp only [hlen, if_true, Outcome.ok.injEq] at h
      subst h
      exact ⟨⟨_, rfl, by simp, by simp [Pc.fuel]⟩, fun _ => rfl, fun _ => rfl⟩
    · simp only [hlen, if_false, Outcome.ok.injEq] at h
      subst h
      refine ⟨⟨_, rfl, by simp, ?_⟩, fun _ => rfl, fun _ => rfl⟩
      simp only [Pc.fuel]
      omega
  | registering ch i =>
    simp only [hpc] at h
    cases hi : (s.procs q).gates[i]? with
    | none =>
      simp only [hi, Outcome.ok.injEq] at h
      subst h
      refine ⟨⟨_, rfl, by simp, ?_⟩, fun _ => rfl, fun _ => rfl⟩
      simp only [Pc.fuel]
      omega
    | some g0 =>
      simp only [hi] at h
      have hilt : i < (s.procs q).gates.length := (List.getElem?_eq_some_iff.1 hi).1
      cases hreg : (s.gates g0).register g0 ch s.chans with
      | ok r =>
        obtain ⟨g1, cs1⟩ := r
        rw [hreg] at h
        simp only [Outcome.ok.injEq] at h
        subst h
        obtain ⟨ho, hn⟩ := register_opened_eq _ _ _ _ _ _ hreg
        refine ⟨⟨_, rfl, by simp, ?_⟩, ?_, ?_⟩
        · simp only [Pc.fuel]
          omega
        · intro g
          by_cases hg : g = g0
          · subst hg; simp [State.setPc, ho]
          · simp [State.setPc, Function.update_noteq hg]
        · intro g
          by_cases hg : g = g0
          · subst hg; simp [State.setPc, hn]
          · simp [State.setPc, Function.update_noteq hg]
      | panic r0 => rw [hreg] at h; cases h
      | blocked => rw [hreg] at h; cases h
  | unregistering ch j =>
    simp only [hpc] at h
    cases hj : (s.procs q).gates[j]? with
    | none =>
      simp only [hj, Outcome.ok.injEq] at h
      subst h
      exact ⟨⟨_, rfl, by simp, by simp [Pc.fuel]⟩, fun _ => rfl, fun _ => rfl⟩
    | some g0 =>
      simp only [hj, Outcome.ok.injEq] at h
      subst h
      have hjlt : j < (s.procs q).gates.length := (List.getElem?_eq_some_iff.1 hj).1
      refine ⟨⟨_, rfl, by simp, ?_⟩, ?_, ?_⟩
      · simp only [Pc.fuel]
        omega
      · intro g
        by_cases hg : g = g0
        · subst hg; simp [State.setPc, unregister_opened]
        · simp [State.setPc, Function.update_noteq hg]
      · intro g
        by_cases hg : g = g0
        · subst hg; simp [State.setPc, unregister_name]
        · simp [State.setPc, Function.update_noteq hg]

theorem stepRecv_effect {s s1 : State} {q : Pid} (h : stepRecv s q = .ok s1) :
    (∃ pc1, s1.procs = Function.update s.procs q { s.procs q with pc := pc1 } ∧
      pc1 ≠ .idle ∧
      pc1.fuel (s.procs q).gates.length < (s.procs q).pc.fuel (s.procs q).gates.length) ∧
    s1.gates = s.gates := by
  unfold stepRecv at h
  cases hpc : (s.procs q).pc with
  | idle => simp only [hpc] at h; cases h
  | start => simp only [hpc] at h; cases h
  | registering ch i => simp only [hpc] at h; cases h
  | unregistering ch j => simp only [hpc] at h; cases h
  | returned ch err => simp only [hpc] at h; cases h
  | selecting ch k =>
    simp only [hpc] at h
    cases hrecv : (s.chans ch).recv with
    | ok c =>
      rw [hrecv] at h
      by_cases hk : k - 1 ≤ 0
      · simp only [hk, if_true] at h
        cases hclose : c.close with
        | ok c1 =>
          rw [hclose] at h
          simp only [Outcome.ok.injEq] at h
          subst h
          exact ⟨⟨_, rfl, by simp, by simp [Pc.fuel]⟩, rfl⟩
        | panic r0 => rw [hclose] at h; cases h
        | blocked => rw [hclose] at h; cases h
      · simp only [hk, if_false, Outcome.ok.injEq] at h
        subst h
        refine ⟨⟨_, rfl, by simp, ?_⟩, rfl⟩
        simp only [Pc.fuel]
        omega
    | panic r0 => rw [hrecv] at h; cases h
    | blocked => rw [hrecv] at h; cases h

theorem stepDone_effect {s s1 : State} {q : Pid} (h : stepDone s q = .ok s1) :
    (∃ pc1, s1.procs = Function.update s.procs q { s.procs q with pc := pc1 } ∧
      pc1 ≠ .idle ∧
      pc1.fuel (s.procs q).gates.length < (s.procs q).pc.fuel (s.procs q).gates.length) ∧
    s1.gates = s.gates := by
  unfold stepDone at h
  cases hpc : (s.procs q).pc with
  | idle => simp only [hpc] at h; cases h
  | start => simp only [hpc] at h; cases h
  | registering ch i => simp only [hpc] at h; cases h
  | unregistering ch j => simp only [hpc] at h; cases h
  | returned ch err => simp only [hpc] at h; cases h
  | selecting ch k =>
    simp only [hpc] at h
    cases hctx : (s.procs q).ctx with
    | none => rw [hctx] at h; cases h
    | some e =>
      rw [hctx] at h
      cases hclose : (s.chans ch).close with
      | ok c1 =>
        rw [hclose] at h
        simp only [Outcome.ok.injEq] at h
        subst h
        refine ⟨⟨_, rfl, by simp, ?_⟩, rfl⟩
        simp only [Pc.fuel]
        omega
      | panic r0 => rw [hclose] at h; cases h
      | blocked => rw [hclose] at h; cases h

/-- Only `Open` changes an `opened` flag, and only from false to true. -/
theorem step_opened {s s1 : State} {a : Action} (h : step s a = .ok s1) (g : GateId) :
    ((s.gates g).opened = true → (s1.gates g).opened = true) ∧
      (a ≠ .openGate g → (s1.gates g).opened = (s.gates g).opened) := by
  cases a with
  | openGate g0 =>
    simp only [step] at h
    cases ho : (s.gates g0).Open g0 s.chans with
    | ok r =>
      obtain ⟨g1, cs1⟩ := r
      rw [ho] at h
      simp only [Outcome.ok.injEq] at h
      subst h
      refine ⟨(open_gates s.gates g0 g1 s.chans cs1 ho g).1, ?_⟩
      intro hne
      have hg : g ≠ g0 := fun h => hne (by rw [h])
      simp [Function.update_noteq hg]
    | panic r0 => rw [ho] at h; cases h
    | blocked => rw [ho] at h; cases h
  | isOpen g0 => simp only [step, Outcome.ok.injEq] at h; subst h; exact ⟨id, fun _ => rfl⟩
  | describe g0 => simp only [step, Outcome.ok.injEq] at h; subst h; exact ⟨id, fun _ => rfl⟩
  | tryGates gs => simp only [step, Outcome.ok.injEq] at h; subst h; exact ⟨id, fun _ => rfl⟩
  | call p ctx gs =>
    simp only [step] at h
    cases hpc : (s.procs p).pc <;> rw [hpc] at h <;> cases h
    exact ⟨id, fun _ => rfl⟩
  | cancel p e =>
    simp only [step] at h
    cases hctx : (s.procs p).ctx <;> rw [hctx] at h <;> cases h
    exact ⟨id, fun _ => rfl⟩
  | wait p =>
    have := (stepWait_effect h).2.1 g
    exact ⟨fun h1 => by rw [this]; exact h1, fun _ => this⟩
  | selectRecv p =>
    have := (stepRecv_effect h).2
    rw [this]; exact ⟨id, fun _ => rfl⟩
  | selectDone p =>
    have := (stepDone_effect h).2
    rw [this]; exact ⟨id, fun _ => rfl⟩

/-- What a transition does to a call that has been made: its gate list stays, a context
that is done stays done with the same reason, and its program counter moves only by its
own statements, each of which uses up fuel. -/
theorem step_proc {s s1 : State} {a : Action} (p : Pid) (h : step s a = .ok s1)
    (hpc : (s.procs p).pc ≠ .idle) :
    (s1.procs p).gates = (s.procs p).gates ∧ (s1.procs p).pc ≠ .idle ∧
      (∀ e, (s.procs p).ctx = some e → (s1.procs p).ctx = some e) ∧
      (a.isStepOf p = true →
        (s1.procs p).pc.fuel (s.procs p).gates.length
          < (s.procs p).pc.fuel (s.procs p).gates.length) ∧
      (a.isStepOf p = false → (s1.procs p).pc = (s.procs p).pc) := by
  have hset : ∀ q, (∃ pc1, s1.procs = Function.update s.procs q { s.procs q with pc := pc1 } ∧
      pc1 ≠ .idle ∧
      pc1.fuel (s.procs q).gates.length < (s.procs q).pc.fuel (s.procs q).gates.length) →
      (s1.procs p).gates = (s.procs p).gates ∧ (s1.procs p).pc ≠ .idle ∧
      (∀ e, (s.procs p).ctx = some e → (s1.procs p).ctx = some e) ∧
      ((q == p) = true →
        (s1.procs p).pc.fuel (s.procs p).gates.length
          < (s.procs p).pc.fuel (s.procs p).gates.length) ∧
      ((q == p) = false → (s1.procs p).pc = (s.procs p).pc) := by
    rintro q ⟨pc1, hp, hne, hlt⟩
    by_cases hq : q = p
    · subst hq
      rw [hp, Function.update_same]
      exact ⟨rfl, hne, fun e he => he, fun _ => hlt, fun hh => by simp at hh⟩
    · have hpq : p ≠ q := fun h => hq h.symm
      rw [hp, Function.update_noteq hpq]
      exact ⟨rfl, hpc, fun e he => he, fun hh => absurd (by simpa using hh) hq, fun _ => rfl⟩
  cases a with
  | openGate g0 =>
    simp only [step] at h
    cases ho : (s.gates g0).Open g0 s.chans with
    | ok r =>
      rw [ho] at h
      simp only [Outcome.ok.injEq] at h
      subst h
      exact ⟨rfl, hpc, fun e he => he, fun hh => by simp [Action.isStepOf] at hh, fun _ => rfl⟩
    | panic r0 => rw [ho] at h; cases h
    | blocked => rw [ho] at h; cases h
  | isOpen g0 =>
    simp only [step, Outcome.ok.injEq] at h; subst h
    exact ⟨rfl, hpc, fun e he => he, fun hh => by simp [Action.isStepOf] at hh, fun _ => rfl⟩
  | describe g0 =>
    simp only [step, Outcome.ok.injEq] at h; subst h
    exact ⟨rfl, hpc, fun e he => he, fun hh => by simp [Action.isStepOf] at hh, fun _ => rfl⟩
  | tryGates gs =>
    simp only [step, Outcome.ok.injEq] at h; subst h
    exact ⟨rfl, hpc, fun e he => he, fun hh => by simp [Action.isStepOf] at hh, fun _ => rfl⟩
  | call q ctx gs =>
    simp only [step] at h
    cases hq : (s.procs q).pc <;> rw [hq] at h <;> cases h
    have hpq : p ≠ q := by
      rintro rfl
      exact hpc hq
    simp only [Function.update_noteq hpq]
    exact ⟨trivial, hpc, fun e he => he, fun hh => by simp [Action.isStepOf] at hh,
      fun _ => trivial⟩
  | cancel q e1 =>
    simp only [step] at h
    cases hctx : (s.procs q).ctx <;> rw [hctx] at h <;> cases h
    by_cases hq : p = q
    · subst hq
      simp only [Function.update_same]
      refine ⟨trivial, hpc, ?_, fun hh => by simp [Action.isStepOf] at hh, fun _ => trivial⟩
      intro e he
      rw [hctx] at he
      cases he
    · simp only [Function.update_noteq hq]
      exact ⟨trivial, hpc, fun e he => he, fun hh => by simp [Action.isStepOf] at hh,
        fun _ => trivial⟩
  | wait q => exact hset q (stepWait_effect h).1
  | selectRecv q => exact hset q (stepRecv_effect h).1
  | selectDone q => exact hset q (stepDone_effect h).1

/-- Over an interleaving, a call that has been made keeps its gate list and a context
that is done, and runs at most as many statements as it had fuel. -/
theorem run_proc {s s1 : State} (p : Pid) (as : List Action) (h : run s as = .ok s1)
    (hpc : (s.procs p).pc ≠ .idle) :
    (s1.procs p).gates = (s.procs p).gates ∧ (s1.procs p).pc ≠ .idle ∧
      (∀ e, (s.procs p).ctx = some e → (s1.procs p).ctx = some e) ∧
      as.countP (Action.isStepOf p) + (s1.procs p).pc.fuel (s.procs p).gates.length
        ≤ (s.procs p).pc.fuel (s.procs p).gates.length := by
  induction as generalizing s with
  | nil =>
    simp only [run, Outcome.ok.injEq] at h
    subst h
    exact ⟨rfl, hpc, fun e he => he, by simp⟩
  | cons a rest ih =>
    obtain ⟨s2, h1, h2⟩ := run_cons_ok h
    obtain ⟨hg, hne, hctx, hstep, hstay⟩ := step_proc p h1 hpc
    obtain ⟨hg2, hne2, hctx2, hfuel⟩ := ih h2 hne
    rw [hg] at hg2 hfuel
    refine ⟨hg2, hne2, fun e he => hctx2 e (hctx e he), ?_⟩
    by_cases ha : a.isStepOf p = true
    · have := hstep ha
      rw [List.countP_cons_of_pos _ _ ha]
      omega
    · simp only [Bool.not_eq_true] at ha
      have := hstay ha
      rw [List.countP_cons_of_neg _ _ (by simp [ha]), ← this]
      exact hfuel

/-- A gate that no action of the interleaving opens keeps its flag; an open gate stays
open in any case. -/
theorem run_opened {s s1 : State} (g : GateId) (as : List Action) (h : run s as = .ok s1) :
    ((s.gates g).opened = true → (s1.gates g).opened = true) ∧
      (Action.openGate g ∉ as → (s1.gates g).opened = (s.gates g).opened) := by
  induction as generalizing s with
  | nil =>
    simp only [run, Outcome.ok.injEq] at h
    subst h
    exact ⟨id, fun _ => rfl⟩
  | cons a rest ih =>
    obtain ⟨s2, h1, h2⟩ := run_cons_ok h
    obtain ⟨hm, he⟩ := step_opened h1 g
    obtain ⟨hm2, he2⟩ := ih h2
    refine ⟨fun ho => hm2 (hm ho), ?_⟩
    intro hno
    rw [he2 (fun hmem => hno (List.mem_cons_of_mem _ hmem)),
      he (fun heq => hno (by rw [heq]; exact List.mem_cons_self _ _))]

/-- A call whose context is done and which has not returned can run its next statement:
outside the select by `wait`, at the select by the case `<-ctx.Done()`. -/
theorem progress_done {s : State} (p : Pid) (e : Err) (hinv : Inv s)
    (hctx : (s.procs p).ctx = some e) (hidle : (s.procs p).pc ≠ .idle)
    (hret : (s.procs p).pc.isReturned = false) :
    ∃ s2, step s (.wait p) = .ok s2 ∨ step s (.selectDone p) = .ok s2 := by
  have hold := hinv.proc p
  cases hpc : (s.procs p).pc with
  | idle => exact absurd hpc hidle
  | returned ch err => rw [hpc] at hret; cases hret
  | start =>
    by_cases hlen : (s.procs p).gates.length = 0
    · exact ⟨_, Or.inl (by simp only [step, stepWait, hpc, hlen, if_true]; rfl)⟩
    · exact ⟨_, Or.inl (by simp only [step, stepWait, hpc, hlen, if_false]; rfl)⟩
  | registering ch i =>
    rw [hpc] at hold
    simp only [ProcInv] at hold
    obtain ⟨hn1, hile, hr0, hlive⟩ := hold
    cases hi : (s.procs p).gates[i]? with
    | none => exact ⟨_, Or.inl (by simp only [step, stepWait, hpc, hi]; rfl)⟩
    | some g0 =>
      have hilt : i < (s.procs p).gates.length := (List.getElem?_eq_some_iff.1 hi).1
      by_cases ho : (s.gates g0).opened = true
      · have hlen : (s.chans ch).hist.length ≤ i := by
          have := (live_subperm hlive).length_le
          simp only [List.length_take] at this
          omega
        have hsend : (s.chans ch).send g0
            = .ok { s.chans ch with hist := (s.chans ch).hist ++ [g0] } := by
          refine (send_ok_iff _ _ _).2 ⟨hlive.notClosed, ?_, rfl⟩
          rw [hlive.cap]
          simp only [Chan.pending]
          omega
        exact ⟨_, Or.inl (by
          simp only [step, stepWait, hpc, hi, Gate.register, ho, if_true, hsend]
          rfl)⟩
      · simp only [Bool.not_eq_true] at ho
        exact ⟨_, Or.inl (by
          simp only [step, stepWait, hpc, hi, register_unopened _ _ _ _ ho]
          rfl)⟩
  | selecting ch k =>
    rw [hpc] at hold
    simp only [ProcInv] at hold
    obtain ⟨hk1, hkn, hrl, hlive⟩ := hold
    have hclose : (s.chans ch).close = .ok { s.chans ch with closed := true } :=
      (close_ok_iff _ _).2 ⟨hlive.notClosed, rfl⟩
    exact ⟨_, Or.inr (by simp only [step, stepDone, hpc, hctx, hclose]; rfl)⟩
  | unregistering ch j =>
    cases hj : (s.procs p).gates[j]? with
    | none => exact ⟨_, Or.inl (by simp only [step, stepWait, hpc, hj]; rfl)⟩
    | some g0 => exact ⟨_, Or.inl (by simp only [step, stepWait, hpc, hj]; rfl)⟩

/-! ## Calls on gates that are all open -/

theorem stepWait_chans {s s1 : State} {q : Pid} (h : stepWait s q = .ok s1) (c : ChanId)
    (hc : (s.procs q).pc.chan ≠ some c) (hn : c ≠ s.nextChan) : s1.chans c = s.chans c := by
  unfold stepWait at h
  cases hpc : (s.procs q).pc with
  | idle => simp only [hpc] at h; cases h
  | selecting ch k => simp only [hpc] at h; cases h
  | returned ch err => simp only [hpc] at h; cases h
  | start =>
    simp only [hpc] at h
    by_cases hlen : (s.procs q).gates.length = 0
    · simp only [hlen, if_true, Outcome.ok.injEq] at h
      subst h; rfl
    · simp only [hlen, if_false, Outcome.ok.injEq] at h
      subst h
      simp [State.setPc, Function.update_noteq hn]
  | registering ch i =>
    simp only [hpc] at h
    have hne : c ≠ ch := by
      rintro rfl
      exact hc (by rw [hpc]; rfl)
    cases hi : (s.procs q).gates[i]? with
    | none =>
      simp only [hi, Outcome.ok.injEq] at h
      subst h; rfl
    | some g0 =>
      simp only [hi] at h
      cases hreg : (s.gates g0).register g0 ch s.chans with
      | ok r =>
        obtain ⟨g1, cs1⟩ := r
        rw [hreg] at h
        simp only [Outcome.ok.injEq] at h
        subst h
        by_cases ho : (s.gates g0).opened = true
        · obtain ⟨-, hcs, -, -⟩ := register_opened_ok _ _ _ _ _ _ ho hreg
          subst hcs
          simp [State.setPc, Function.update_noteq hne]
        · simp only [Bool.not_eq_true] at ho
          rw [register_unopened _ _ _ _ ho] at hreg
          simp only [Outcome.ok.injEq, Prod.mk.injEq] at hreg
          rw [← hreg.2]; rfl
      | panic r0 => rw [hreg] at h; cases h
      | blocked => rw [hreg] at h; cases h
  | unregistering ch j =>
    simp only [hpc] at h
    cases hj : (s.procs q).gates[j]? with
    | none =>
      simp only [hj, Outcome.ok.injEq] at h
      subst h; rfl
    | some g0 =>
      simp only [hj, Outcome.ok.injEq] at h
      subst h; rfl

theorem stepRecv_chans {s s1 : State} {q : Pid} (h : stepRecv s q = .ok s1) (c : ChanId)
    (hc : (s.procs q).pc.chan ≠ some c) : s1.chans c = s.chans c := by
  unfold stepRecv at h
  cases hpc : (s.procs q).pc with
  | idle => simp only [hpc] at h; cases h
  | start => simp only [hpc] at h; cases h
  | registering ch i => simp only [hpc] at h; cases h
  | unregistering ch j => simp only [hpc] at h; cases h
  | returned ch err => simp only [hpc] at h; cases h
  | selecting ch k =>
    simp only [hpc] at h
    have hne : c ≠ ch := by
      rintro rfl
      exact hc (by rw [hpc]; rfl)
    cases hrecv : (s.chans ch).recv with
    | ok c1 =>
      rw [hrecv] at h
      by_cases hk : k - 1 ≤ 0
      · simp only [hk, if_true] at h
        cases hclose : c1.close with
        | ok c2 =>
          rw [hclose] at h
          simp only [Outcome.ok.injEq] at h
          subst h
          simp [State.setPc, Function.update_noteq hne]
        | panic r0 => rw [hclose] at h; cases h
        | blocked => rw [hclose] at h; cases h
      · simp only [hk, if_false, Outcome.ok.injEq] at h
        subst h
        simp [State.setPc, Function.update_noteq hne]
    | panic r0 => rw [hrecv] at h; cases h
    | blocked => rw [hrecv] at h; cases h

theorem stepDone_chans {s s1 : State} {q : Pid} (h : stepDone s q = .ok s1) (c : ChanId)
    (hc : (s.procs q).pc.chan ≠ some c) : s1.chans c = s.chans c := by
  unfold stepDone at h
  cases hpc : (s.procs q).pc with
  | idle => simp only [hpc] at h; cases h
  | start => simp only [hpc] at h; cases h
  | registering ch i => simp only [hpc] at h; cases h
  | unregistering ch j => simp only [hpc] at h; cases h
  | returned ch err => simp only [hpc] at h; cases h
  | selecting ch k =>
    simp only [hpc] at h
    have hne : c ≠ ch := by
      rintro rfl
      exact hc (by rw [hpc]; rfl)
    cases hctx : (s.procs q).ctx with
    | none => rw [hctx] at h; cases h
    | some e =>
      rw [hctx] at h
      cases hclose : (s.chans ch).close with
      | ok c1 =>
        rw [hclose] at h
        simp only [Outcome.ok.injEq] at h
        subst h
        simp [State.setPc, Function.update_noteq hne]
      | panic r0 => rw [hclose] at h; cases h
      | blocked => rw [hclose] at h; cases h

/-- A transition that is no statement of call `p` and no `Open` of a gate holding the
channel of `p` leaves that channel as it is. -/
theorem step_chan_frame {s s1 : State} {a : Action} (p : Pid) (ch : ChanId) (hinv : Inv s)
    (h : step s a = .ok s1) (hch : (s.procs p).pc.chan = some ch)
    (hnot : a.isStepOf p = false)
    (hopen : ∀ g, a = .openGate g → ch ∉ (s.gates g).listeners) :
    s1.chans ch = s.chans ch := by
  have hother : ∀ q, q ≠ p → (s.procs q).pc.chan ≠ some ch :=
    fun q hq hc => hq (hinv.chanInj q p ch hc hch)
  have hlt : ch ≠ s.nextChan := fun heq =>
    lt_irrefl _ (heq ▸ hinv.chanAlloc p ch hch)
  cases a with
  | openGate g =>
    simp only [step] at h
    cases ho : (s.gates g).Open g s.chans with
    | ok r =>
      obtain ⟨g1, cs1⟩ := r
      rw [ho] at h
      simp only [Outcome.ok.injEq] at h
      subst h
      by_cases hu : (s.gates g).opened = true
      · rw [open_of_opened _ _ _ hu] at ho
        simp only [Outcome.ok.injEq, Prod.mk.injEq] at ho
        rw [← ho.2]
      · simp only [Bool.not_eq_true] at hu
        exact (open_chan _ _ _ _ _ hu (hinv.nodup g) ho ch).2 (hopen g rfl)
    | panic r0 => rw [ho] at h; cases h
    | blocked => rw [ho] at h; cases h
  | isOpen g => simp only [step, Outcome.ok.injEq] at h; subst h; rfl
  | describe g => simp only [step, Outcome.ok.injEq] at h; subst h; rfl
  | tryGates gs => simp only [step, Outcome.ok.injEq] at h; subst h; rfl
  | call q ctx gs =>
    simp only [step] at h
    cases hpc : (s.procs q).pc <;> rw [hpc] at h <;> cases h
    rfl
  | cancel q e =>
    simp only [step] at h
    cases hctx : (s.procs q).ctx <;> rw [hctx] at h <;> cases h
    rfl
  | wait q =>
    have hq : q ≠ p := by simpa [Action.isStepOf] using hnot
    exact stepWait_chans h ch (hother q hq) hlt
  | selectRecv q =>
    have hq : q ≠ p := by simpa [Action.isStepOf] using hnot
    exact stepRecv_chans h ch (hother q hq)
  | selectDone q =>
    have hq : q ≠ p := by simpa [Action.isStepOf] using hnot
    exact stepDone_chans h ch (hother q hq)

theorem allOpen_wait {s s1 : State} {p : Pid} (hall : AllOpenCall s p)
    (hidle : (s.procs p).pc ≠ .idle) (h : stepWait s p = .ok s1) : AllOpenCall s1 p := by
  have hstep : step s (.wait p) = .ok s1 := h
  have hopen1 : ∀ g ∈ (s1.procs p).gates, (s1.gates g).opened = true := by
    intro g hg
    rw [(step_proc p hstep hidle).1] at hg
    exact (step_opened hstep g).1 (hall.1 g hg)
  clear hstep
  obtain ⟨hopen, hhist⟩ := hall
  unfold stepWait at h
  cases hpc : (s.procs p).pc with
  | idle => simp only [hpc] at h; cases h
  | selecting ch k => simp only [hpc] at h; cases h
  | returned ch err => simp only [hpc] at h; cases h
  | start =>
    simp only [hpc] at h
    by_cases hlen : (s.procs p).gates.length = 0
    · simp only [hlen, if_true, Outcome.ok.injEq] at h
      subst h
      exact ⟨hopen1, by simp [State.setPc]⟩
    · simp only [hlen, if_false, Outcome.ok.injEq] at h
      subst h
      exact ⟨hopen1, by simp [State.setPc, Chan.fresh]⟩
  | registering ch i =>
    simp only [hpc] at h hhist
    cases hi : (s.procs p).gates[i]? with
    | none =>
      simp only [hi, Outcome.ok.injEq] at h
      subst h
      refine ⟨hopen1, ?_⟩
      simp only [State.setPc, Function.update_same]
      rw [hhist, List.take_of_length_le (List.getElem?_eq_none_iff.1 hi)]
    | some g0 =>
      simp only [hi] at h
      have ho : (s.gates g0).opened = true := hopen g0 (List.getElem?_mem hi)
      cases hreg : (s.gates g0).register g0 ch s.chans with
      | ok r =>
        obtain ⟨g1, cs1⟩ := r
        rw [hreg] at h
        simp only [Outcome.ok.injEq] at h
        subst h
        obtain ⟨hg1, hcs, -, -⟩ := register_opened_ok _ _ _ _ _ _ ho hreg
        subst hg1 hcs
        refine ⟨hopen1, ?_⟩
        simp only [State.setPc, Function.update_same]
        rw [hhist, take_succ_of_getElem? hi]
      | panic r0 => rw [hreg] at h; cases h
      | blocked => rw [hreg] at h; cases h
  | unregistering ch j =>
    simp only [hpc] at h
    cases hj : (s.procs p).gates[j]? with
    | none =>
      simp only [hj, Outcome.ok.injEq] at h
      subst h
      exact ⟨hopen1, by simp [State.setPc]⟩
    | some g0 =>
      simp only [hj, Outcome.ok.injEq] at h
      subst h
      exact ⟨hopen1, by simp [State.setPc]⟩

theorem allOpen_recv {s s1 : State} {p : Pid} (hall : AllOpenCall s p)
    (hidle : (s.procs p).pc ≠ .idle) (h : stepRecv s p = .ok s1) : AllOpenCall s1 p := by
  have hstep : step s (.selectRecv p) = .ok s1 := h
  have hopen1 : ∀ g ∈ (s1.procs p).gates, (s1.gates g).opened = true := by
    intro g hg
    rw [(step_proc p hstep hidle).1] at hg
    exact (step_opened hstep g).1 (hall.1 g hg)
  clear hstep
  obtain ⟨hopen, hhist⟩ := hall
  unfold stepRecv at h
  cases hpc : (s.procs p).pc with
  | idle => simp only [hpc] at h; cases h
  | start => simp only [hpc] at h; cases h
  | registering ch i => simp only [hpc] at h; cases h
  | unregistering ch j => simp only [hpc] at h; cases h
  | returned ch err => simp only [hpc] at h; cases h
  | selecting ch k =>
    simp only [hpc] at h hhist
    cases hrecv : (s.chans ch).recv with
    | ok c1 =>
      rw [hrecv] at h
      obtain ⟨-, hc1⟩ := (recv_ok_iff _ _).1 hrecv
      by_cases hk : k - 1 ≤ 0
      · simp only [hk, if_true] at h
        cases hclose : c1.close with
        | ok c2 =>
          rw [hclose] at h
          simp only [Outcome.ok.injEq] at h
          subst h
          exact ⟨hopen1, by simp [State.setPc]⟩
        | panic r0 => rw [hclose] at h; cases h
        | blocked => rw [hclose] at h; cases h
      · simp only [hk, if_false, Outcome.ok.injEq] at h
        subst h
        refine ⟨hopen1, ?_⟩
        simp only [State.setPc, Function.update_same]
        rw [hc1]
        exact hhist
    | panic r0 => rw [hrecv] at h; cases h
    | blocked => rw [hrecv] at h; cases h

theorem allOpen_done {s s1 : State} {p : Pid} (hall : AllOpenCall s p)
    (hidle : (s.procs p).pc ≠ .idle) (h : stepDone s p = .ok s1) : AllOpenCall s1 p := by
  have hstep : step s (.selectDone p) = .ok s1 := h
  have hopen1 : ∀ g ∈ (s1.procs p).gates, (s1.gates g).opened = true := by
    intro g hg
    rw [(step_proc p hstep hidle).1] at hg
    exact (step_opened hstep g).1 (hall.1 g hg)
  clear hstep
  obtain ⟨hopen, hhist⟩ := hall
  unfold stepDone at h
  cases hpc : (s.procs p).pc with
  | idle => simp only [hpc] at h; cases h
  | start => simp only [hpc] at h; cases h
  | registering ch i => simp only [hpc] at h; cases h
  | unregistering ch j => simp only [hpc] at h; cases h
  | returned ch err => simp only [hpc] at h; cases h
  | selecting ch k =>
    simp only [hpc] at h
    cases hctx : (s.procs p).ctx with
    | none => rw [hctx] at h; cases h
    | some e =>
      rw [hctx] at h
      cases hclose : (s.chans ch).close with
      | ok c1 =>
        rw [hclose] at h
        simp only [Outcome.ok.injEq] at h
        subst h
        exact ⟨hopen1, by simp [State.setPc]⟩
      | panic r0 => rw [hclose] at h; cases h
      | blocked => rw [hclose] at h; cases h

/-- Every transition keeps `AllOpenCall` of a call that has been made. -/
theorem allOpen_step {s s1 : State} {a : Action} (p : Pid) (hinv : Inv s)
    (hall : AllOpenCall s p) (hidle : (s.procs p).pc ≠ .idle) (h : step s a = .ok s1) :
    AllOpenCall s1 p := by
  by_cases hown : a.isStepOf p = true
  · cases a with
    | wait q =>
      have hq : q = p := by simpa [Action.isStepOf] using hown
      subst hq
      exact allOpen_wait hall hidle h
    | selectRecv q =>
      have hq : q = p := by simpa [Action.isStepOf] using hown
      subst hq
      exact allOpen_recv hall hidle h
    | selectDone q =>
      have hq : q = p := by simpa [Action.isStepOf] using hown
      subst hq
      exact allOpen_done hall hidle h
    | openGate g => simp [Action.isStepOf] at hown
    | isOpen g => simp [Action.isStepOf] at hown
    | describe g => simp [Action.isStepOf] at hown
    | tryGates gs => simp [Action.isStepOf] at hown
    | call q ctx gs => simp [Action.isStepOf] at hown
    | cancel q e => simp [Action.isStepOf] at hown
  · simp only [Bool.not_eq_true] at hown
    obtain ⟨hgs, -, -, -, hstay⟩ := step_proc p h hidle
    have hpc := hstay hown
    obtain ⟨hopen, hhist⟩ := hall
    have hopen1 : ∀ g ∈ (s1.procs p).gates, (s1.gates g).opened = true := by
      intro g hg
      rw [hgs] at hg
      exact (step_opened h g).1 (hopen g hg)
    have hnohold : ∀ ch i, Live s.gates (s.chans ch) ch (s.procs p).gates i →
        ∀ g, ch ∉ (s.gates g).listeners := by
      intro ch i hlive g hg
      have hmem := List.mem_of_mem_take (hlive.held g hg)
      have hdr := hinv.drained g (hopen g hmem)
      simp [Gate.listeners, hdr] at hg
    have hp := hinv.proc p
    refine ⟨hopen1, ?_⟩
    rw [hpc, hgs]
    cases hpc0 : (s.procs p).pc with
    | idle => trivial
    | start => trivial
    | unregistering ch j => trivial
    | returned ch err => trivial
    | registering ch i =>
      rw [hpc0] at hhist hp
      simp only [ProcInv] at hp
      simp only at hhist ⊢
      rw [step_chan_frame p ch hinv h (by rw [hpc0]; rfl) hown
        (fun g _ => hnohold ch i hp.2.2.2 g)]
      exact hhist
    | selecting ch k =>
      rw [hpc0] at hhist hp
      simp only [ProcInv] at hp
      simp only at hhist ⊢
      rw [step_chan_frame p ch hinv h (by rw [hpc0]; rfl) hown
        (fun g _ => hnohold ch _ hp.2.2.2 g)]
      exact hhist

/-- Every interleaving keeps `AllOpenCall` of a call that has been made. -/
theorem allOpen_run {s s1 : State} (p : Pid) (as : List Action) (hinv : Inv s)
    (hall : AllOpenCall s p) (hidle : (s.procs p).pc ≠ .idle) (h : run s as = .ok s1) :
    AllOpenCall s1 p := by
  induction as generalizing s with
  | nil =>
    simp only [run, Outcome.ok.injEq] at h
    subst h
    exact hall
  | cons a rest ih =>
    obtain ⟨s2, h1, h2⟩ := run_cons_ok h
    exact ih (inv_step a hinv h1) (allOpen_step p hinv hall hidle h1)
      (step_proc p h1 hidle).2.1 h2

/-- A call on gates that are all open can always run its next statement without taking
the case `<-ctx.Done()`: outside the select by `wait`, and at the select the case `<-ch`
is ready. -/
theorem progress_allOpen {s : State} (p : Pid) (hinv : Inv s) (hall : AllOpenCall s p)
    (hidle : (s.procs p).pc ≠ .idle) (hret : (s.procs p).pc.isReturned = false) :
    ∃ s2, step s (.wait p) = .ok s2 ∨ step s (.selectRecv p) = .ok s2 := by
  have hold := hinv.proc p
  obtain ⟨hopen, hhist⟩ := hall
  cases hpc : (s.procs p).pc with
  | idle => exact absurd hpc hidle
  | returned ch err => rw [hpc] at hret; cases hret
  | start =>
    by_cases hlen : (s.procs p).gates.length = 0
    · exact ⟨_, Or.inl (by simp only [step, stepWait, hpc, hlen, if_true]; rfl)⟩
    · exact ⟨_, Or.inl (by simp only [step, stepWait, hpc, hlen, if_false]; rfl)⟩
  | registering ch i =>
    rw [hpc] at hold hhist
    simp only [ProcInv] at hold
    simp only at hhist
    obtain ⟨hn1, hile, hr0, hlive⟩ := hold
    cases hi : (s.procs p).gates[i]? with
    | none => exact ⟨_, Or.inl (by simp only [step, stepWait, hpc, hi]; rfl)⟩
    | some g0 =>
      have hilt : i < (s.procs p).gates.length := (List.getElem?_eq_some_iff.1 hi).1
      have ho : (s.gates g0).opened = true := hopen g0 (List.getElem?_mem hi)
      have hlen : (s.chans ch).hist.length ≤ i := by
        rw [hhist, List.length_take]
        omega
      have hsend : (s.chans ch).send g0
          = .ok { s.chans ch with hist := (s.chans ch).hist ++ [g0] } := by
        refine (send_ok_iff _ _ _).2 ⟨hlive.notClosed, ?_, rfl⟩
        rw [hlive.cap]
        simp only [Chan.pending]
        omega
      exact ⟨_, Or.inl (by
        simp only [step, stepWait, hpc, hi, Gate.register, ho, if_true, hsend]
        rfl)⟩
  | selecting ch k =>
    rw [hpc] at hold hhist
    simp only [ProcInv] at hold
    simp only at hhist
    obtain ⟨hk1, hkn, hrl, hlive⟩ := hold
    have hrecv : (s.chans ch).recv = .ok { s.chans ch with rcvd := (s.chans ch).rcvd + 1 } := by
      refine (recv_ok_iff _ _).2 ⟨?_, rfl⟩
      rw [hhist]
      omega
    by_cases hk : k - 1 ≤ 0
    · have hclose : Chan.close { s.chans ch with rcvd := (s.chans ch).rcvd + 1 }
          = .ok { s.chans ch with rcvd := (s.chans ch).rcvd + 1, closed := true } :=
        (close_ok_iff _ _).2 ⟨hlive.notClosed, rfl⟩
      exact ⟨_, Or.inr (by
        simp only [step, stepRecv, hpc, hrecv, hk, if_true, hclose]
        rfl)⟩
    · exact ⟨_, Or.inr (by
        simp only [step, stepRecv, hpc, hrecv, hk, if_false]
        rfl)⟩
  | unregistering ch j =>
    cases hj : (s.procs p).gates[j]? with
    | none => exact ⟨_, Or.inl (by simp only [step, stepWait, hpc, hj]; rfl)⟩
    | some g0 => exact ⟨_, Or.inl (by simp only [step, stepWait, hpc, hj]; rfl)⟩

/-- Once the buffer holds the `k` values the select still waits for, `k` receives in a
row complete and the call returns nil. -/
theorem run_recv_all (p : Pid) (ch : ChanId) (k : Nat) (s : State)
    (hpc : (s.procs p).pc = .selecting ch k) (hk : 1 ≤ k)
    (hcl : (s.chans ch).closed = false)
    (hbuf : (s.chans ch).rcvd + k ≤ (s.chans ch).hist.length) :
    ∃ s1, run s (List.replicate k (.selectRecv p)) = .ok s1 ∧
      (s1.procs p).pc = .returned (some ch) none := by
  induction k generalizing s with
  | zero => omega
  | succ m ih =>
    obtain ⟨c1, hrecv, hc1r, hc1c, hc1h⟩ : ∃ c1, (s.chans ch).recv = .ok c1 ∧
        c1.rcvd = (s.chans ch).rcvd + 1 ∧ c1.closed = (s.chans ch).closed ∧
        c1.hist = (s.chans ch).hist :=
      ⟨_, (recv_ok_iff _ _).2 ⟨by omega, rfl⟩, rfl, rfl, rfl⟩
    by_cases hm : m = 0
    · subst hm
      obtain ⟨c2, hclose⟩ : ∃ c2, c1.close = .ok c2 :=
        ⟨_, (close_ok_iff _ _).2 ⟨by rw [hc1c]; exact hcl, rfl⟩⟩
      have hstep : step s (.selectRecv p) = .ok (State.setPc
          { s with chans := Function.update s.chans ch c2 } p (.returned (some ch) none)) := by
        simp only [step, stepRecv, hpc, hrecv]
        simp only [Nat.add_sub_cancel, le_refl, if_true, hclose]
      refine ⟨State.setPc { s with chans := Function.update s.chans ch c2 } p
        (.returned (some ch) none), ?_, ?_⟩
      · simp only [List.replicate, run, hstep]
      · simp [State.setPc]
    · have hstep : step s (.selectRecv p) = .ok (State.setPc
          { s with chans := Function.update s.chans ch c1 } p (.selecting ch m)) := by
        simp only [step, stepRecv, hpc, hrecv]
        have : ¬ (m ≤ 0) := by omega
        simp only [Nat.add_sub_cancel, this, if_false]
      have hch : (State.setPc { s with chans := Function.update s.chans ch c1 } p
          (.selecting ch m)).chans ch = c1 := by
        simp [State.setPc]
      obtain ⟨s1, h1, h2⟩ := ih (State.setPc { s with chans := Function.update s.chans ch c1 }
        p (.selecting ch m)) (by simp [State.setPc]) (by omega)
        (by rw [hch, hc1c]; exact hcl) (by rw [hch, hc1r, hc1h]; omega)
      refine ⟨s1, ?_, h2⟩
      simp only [List.replicate, run, hstep]
      exact h1

/-! ## The claims -/

/-- C1: a gate built by `New`, whatever its name and whatever was registered with it
since, reports `IsOpen = false`, and its `Open` completes whenever its listeners can take
a value; for every gate, after an `Open` has completed `IsOpen` is true, and any number
of further `Open` calls leave the gate and every channel exactly as they are. -/
theorem C1_isOpen_open_idempotent (self : GateId) (name : List String) (ops : List GateOp)
    (cs : Chans) (hops : GateOp.openGate ∉ ops) :
    (∃ g0, Gate.runOps self ops (New name) cs = .ok (g0, cs) ∧ g0.IsOpen = false ∧
      ∀ cs0, (∀ c ∈ g0.listeners, (cs0 c).closed = false ∧ (cs0 c).pending < (cs0 c).cap) →
        ∃ g1 cs1, g0.Open self cs0 = .ok (g1, cs1)) ∧
      ∀ (g : Gate) cs0 g1 cs1, g.Open self cs0 = .ok (g1, cs1) →
        g1.IsOpen = true ∧
          ∀ k cs2, Gate.runOps self (List.replicate k .openGate) g1 cs2 = .ok (g1, cs2) := by
  obtain ⟨g0, hrun, hu, -, hn⟩ :=
    runOps_unopened self ops (New name) cs rfl (by simp [New, Gate.listeners]) hops
  refine ⟨⟨g0, hrun, hu, ?_⟩, ?_⟩
  · intro cs0 hroom
    obtain ⟨cs1, hs⟩ := sendAll_total self g0.listeners cs0 hn hroom
    refine ⟨{ g0 with opened := true, chans := none }, cs1, ?_⟩
    have hl : Gate.listeners { g0 with opened := true } = g0.listeners := rfl
    simp only [Gate.Open, hu, Bool.false_eq_true, if_false, hl, hs]
  · intro g cs0 g1 cs1 ho
    have h1 := open_ok_opened _ _ _ _ _ ho
    exact ⟨h1, fun k cs2 => runOps_open_opened self k g1 cs2 h1⟩

theorem C1_witness :
    (∃ g0, Gate.runOps 0 [.register 0, .register 1] (New ["common"]) (fun _ => Chan.fresh 1)
        = .ok (g0, fun _ => Chan.fresh 1) ∧ g0.IsOpen = false ∧
      ∀ cs0, (∀ c ∈ g0.listeners, (cs0 c).closed = false ∧ (cs0 c).pending < (cs0 c).cap) →
        ∃ g1 cs1, g0.Open 0 cs0 = .ok (g1, cs1)) ∧
      ∀ (g : Gate) cs0 g1 cs1, g.Open 0 cs0 = .ok (g1, cs1) →
        g1.IsOpen = true ∧
          ∀ k cs2, Gate.runOps 0 (List.replicate k .openGate) g1 cs2 = .ok (g1, cs2) :=
  C1_isOpen_open_idempotent 0 ["common"] [.register 0, .register 1] (fun _ => Chan.fresh 1)
    (by decide)

/-- C2: in every state an interleaving of `Open` calls and `Wait` statements can reach,
a call of `Wait` that has returned nil has every gate of its list open. -/
theorem C2_wait_nil_all_open (names : GateId → List String) (as : List Action) (s : State)
    (p : Pid) (ch : Option ChanId) (hrun : run (init names) as = .ok s)
    (hret : (s.procs p).pc = .returned ch none) :
    ∀ g ∈ (s.procs p).gates, (s.gates g).IsOpen = true := by
  have hinv := inv_run as (inv_init names) hrun
  have hp := hinv.proc p
  rw [hret] at hp
  cases ch with
  | none =>
    simp only [ProcInv] at hp
    rw [hp.2]
    intro g hg
    cases hg
  | some c =>
    simp only [ProcInv] at hp
    exact hp.2.2.1

theorem C2_witness :
    ((runD (init unnamed) (init unnamed) traceWait2).gates 0).IsOpen = true ∧
      ((runD (init unnamed) (init unnamed) traceWait2).gates 1).IsOpen = true :=
  ⟨C2_wait_nil_all_open unnamed traceWait2 (runD (init unnamed) (init unnamed) traceWait2) 0
      (some 0) rfl rfl 0 (by decide),
    C2_wait_nil_all_open unnamed traceWait2 (runD (init unnamed) (init unnamed) traceWait2) 0
      (some 0) rfl rfl 1 (by decide)⟩

theorem call_ok {s s1 : State} {p : Pid} {ctx : Option Err} {gs : List GateId}
    (h : step s (.call p ctx gs) = .ok s1) :
    (s.procs p).pc = .idle ∧
      s1 = { s with procs := Function.update s.procs p { ctx := ctx, gates := gs, pc := .start } } := by
  simp only [step] at h
  cases hpc : (s.procs p).pc <;> rw [hpc] at h <;> cases h
  exact ⟨rfl, rfl⟩

/-- C3: `Wait` is called with a context that is done (reason `e`) on a list holding a gate
`g0` that is not open and that no later action opens.  Then, along every interleaving:
if the call has returned, it returned `e`, never nil; the call runs at most
`3 * len(gates) + 4` statements; and as long as it has not returned its next statement
can run, whichever case the select took before.  So every run of the call ends, and
ends by returning `ctx.Err()`. -/
theorem C3_wait_cancelled_returns_err (names : GateId → List String) (as0 as : List Action)
    (s0 s1 s : State) (p : Pid) (e : Err) (gs : List GateId) (g0 : GateId)
    (hreach : run (init names) as0 = .ok s0)
    (hcall : step s0 (.call p (some e) gs) = .ok s1)
    (hg0 : g0 ∈ gs) (hu : (s1.gates g0).opened = false)
    (hstay : Action.openGate g0 ∉ as) (hrun : run s1 as = .ok s) :
    (∀ ch err, (s.procs p).pc = .returned ch err → err = some e) ∧
      as.countP (Action.isStepOf p) ≤ 3 * gs.length + 4 ∧
      ((s.procs p).pc.isReturned = false →
        ∃ s2, step s (.wait p) = .ok s2 ∨ step s (.selectDone p) = .ok s2) := by
  have hinv1 := inv_step _ (inv_run as0 (inv_init names) hreach) hcall
  have hinv := inv_run as hinv1 hrun
  obtain ⟨-, hs1⟩ := call_ok hcall
  have hp1 : s1.procs p = { ctx := some e, gates := gs, pc := .start } := by
    rw [hs1]; simp
  have hne1 : (s1.procs p).pc ≠ .idle := by rw [hp1]; simp
  obtain ⟨hgs, hne, hctx, hfuel⟩ := run_proc p as hrun hne1
  rw [hp1] at hgs hctx hfuel
  simp only at hgs hctx hfuel
  have hctx1 := hctx e rfl
  have hopen := (run_opened g0 as hrun).2 hstay
  rw [hu] at hopen
  refine ⟨?_, ?_, ?_⟩
  · intro ch err hret
    have hp := hinv.proc p
    rw [hret, hgs, hctx1] at hp
    cases ch with
    | none =>
      simp only [ProcInv] at hp
      rw [hp.2] at hg0
      cases hg0
    | some c =>
      cases err with
      | none =>
        simp only [ProcInv] at hp
        have := hp.2.2.1 g0 hg0
        rw [hopen] at this
        cases this
      | some e1 =>
        simp only [ProcInv] at hp
        rw [← hp.1]
  · simp only [Pc.fuel] at hfuel
    omega
  · intro hret
    exact progress_done p e hinv hctx1 hne hret

theorem C3_witness :
    (∀ ch err, ((runD (init unnamed) (init unnamed)
        (.call 0 (some .DeadlineExceeded) [0, 1] :: traceCancel)).procs 0).pc
        = .returned ch err → err = some .DeadlineExceeded) ∧
      traceCancel.countP (Action.isStepOf 0) ≤ 3 * [0, 1].length + 4 ∧
      (((runD (init unnamed) (init unnamed)
        (.call 0 (some .DeadlineExceeded) [0, 1] :: traceCancel)).procs 0).pc.isReturned = false →
        ∃ s2, step (runD (init unnamed) (init unnamed)
            (.call 0 (some .DeadlineExceeded) [0, 1] :: traceCancel)) (.wait 0) = .ok s2 ∨
          step (runD (init unnamed) (init unnamed)
            (.call 0 (some .DeadlineExceeded) [0, 1] :: traceCancel)) (.selectDone 0) = .ok s2) :=
  C3_wait_cancelled_returns_err unnamed [] traceCancel (init unnamed)
    (runD (init unnamed) (init unnamed) [.call 0 (some .DeadlineExceeded) [0, 1]])
    (runD (init unnamed) (init unnamed) (.call 0 (some .DeadlineExceeded) [0, 1] :: traceCancel))
    0 .DeadlineExceeded [0, 1] 0 rfl rfl (by decide) rfl (by decide) rfl

/-- C4, counterexample: the only gate is open and the context done before `Wait` is
called; the select finds both cases ready, takes `<-ctx.Done()`, and `Wait` returns the
context's error although every gate was open when it was called. -/
theorem C4_counterexample :
    ((runD (init unnamed) (init unnamed) (traceOpenedCancelled.take 1)).gates 0).IsOpen = true ∧
      ((runD (init unnamed) (init unnamed) (traceOpenedCancelled.take 2)).procs 0)
        = { ctx := some .Canceled, gates := [0], pc := .start } ∧
      ((runD (init unnamed) (init unnamed) traceOpenedCancelled).procs 0).pc
        = .returned (some 0) (some .Canceled) := by
  decide

/-- C4, amended: in every reachable state, a call of `Wait` that has returned an error
`e` has a context that is done with `ctx.Err() = e`, and had received fewer than
`len(gates)` values when the select took `<-ctx.Done()`.  And for a call made when every
gate of its list is open: it runs at most `3 * len(gates) + 4` statements, as long as it
has not returned its next statement can run without the case `<-ctx.Done()` (at the
select a value is ready), and if its context is not done it has not returned an error. -/
theorem C4_wait_error_is_ctx_err (names : GateId → List String) (as : List Action)
    (s : State) (hrun : run (init names) as = .ok s) :
    (∀ p ch e, (s.procs p).pc = .returned ch (some e) →
        (s.procs p).ctx = some e ∧
          ∃ c, ch = some c ∧ (s.chans c).rcvd < (s.procs p).gates.length) ∧
      ∀ p ctx gs s1 as1 s2, step s (.call p ctx gs) = .ok s1 →
        (∀ g ∈ gs, (s.gates g).IsOpen = true) → run s1 as1 = .ok s2 →
        as1.countP (Action.isStepOf p) ≤ 3 * gs.length + 4 ∧
          ((s2.procs p).pc.isReturned = false →
            ∃ s3, step s2 (.wait p) = .ok s3 ∨ step s2 (.selectRecv p) = .ok s3) ∧
          ((s2.procs p).ctx = none →
            ∀ ch err, (s2.procs p).pc = .returned ch err → err = none) := by
  have hinv := inv_run as (inv_init names) hrun
  have herr : ∀ (t : State), Inv t → ∀ p ch e, (t.procs p).pc = .returned ch (some e) →
      (t.procs p).ctx = some e ∧
        ∃ c, ch = some c ∧ (t.chans c).rcvd < (t.procs p).gates.length := by
    intro t ht p ch e hret
    have hp := ht.proc p
    rw [hret] at hp
    cases ch with
    | none =>
      simp only [ProcInv] at hp
      exact absurd hp.1 (by simp)
    | some c =>
      simp only [ProcInv] at hp
      exact ⟨hp.1, c, rfl, hp.2.1⟩
  refine ⟨herr s hinv, ?_⟩
  intro p ctx gs s1 as1 s2 hcall hopen hrun1
  have hinv1 := inv_step _ hinv hcall
  have hinv2 := inv_run as1 hinv1 hrun1
  obtain ⟨-, hs1⟩ := call_ok hcall
  have hp1 : s1.procs p = { ctx := ctx, gates := gs, pc := .start } := by
    rw [hs1]; simp
  have hne1 : (s1.procs p).pc ≠ .idle := by rw [hp1]; simp
  have hall1 : AllOpenCall s1 p := by
    refine ⟨?_, by rw [hp1]; trivial⟩
    rw [hp1, hs1]
    exact hopen
  have hall2 := allOpen_run p as1 hinv1 hall1 hne1 hrun1
  obtain ⟨-, hne2, -, hfuel⟩ := run_proc p as1 hrun1 hne1
  rw [hp1] at hfuel
  refine ⟨?_, ?_, ?_⟩
  · simp only [Pc.fuel] at hfuel
    omega
  · intro hret
    exact progress_allOpen p hinv2 hall2 hne2 hret
  · intro hctx ch err hret
    cases err with
    | none => rfl
    | some e =>
      have := (herr s2 hinv2 p ch e hret).1
      rw [hctx] at this
      cases this

theorem C4_witness :
    ((runD (init unnamed) (init unnamed) traceOpenedCancelled).procs 0).ctx = some .Canceled ∧
      ∃ c, some 0 = some c ∧
        ((runD (init unnamed) (init unnamed) traceOpenedCancelled).chans c).rcvd
          < ((runD (init unnamed) (init unnamed) traceOpenedCancelled).procs 0).gates.length :=
  (C4_wait_error_is_ctx_err unnamed traceOpenedCancelled
    (runD (init unnamed) (init unnamed) traceOpenedCancelled) rfl).1 0 (some 0) .Canceled rfl

/-- What the code delivers: over a history of `register` and `Open` calls on a gate built
by `New` in which the endpoint `e` is not unregistered and no call panics, once the gate
is open the deliveries it made to `e` are one for each registration made after the first
`Open`, delivered at registration, plus a single one, made by `Open`, if `e` was
registered before it, however many times.  When `e` was registered at most once before
the first `Open` this is the number of its registrations. -/
theorem deliveries_of_registrations (self : GateId) (e : ChanId) (name : List String)
    (ops : List GateOp) (cs0 cs : Chans) (g : Gate) (hun : GateOp.unregister e ∉ ops)
    (h : Gate.runOps self ops (New name) cs0 = .ok (g, cs)) (ho : g.IsOpen = true) :
    deliveries self cs e = deliveries self cs0 e
        + (if GateOp.register e ∈ ops.takeWhile (fun op => op != .openGate) then 1 else 0)
        + (ops.dropWhile (fun op => op != .openGate)).count (.register e) ∧
      ((ops.takeWhile (fun op => op != .openGate)).count (.register e) ≤ 1 →
        deliveries self cs e = deliveries self cs0 e + ops.count (.register e)) := by
  have hmain := runOps_deliveries self e name ops cs0 cs g hun h ho
  refine ⟨hmain, ?_⟩
  intro hle
  have hsplit := List.takeWhile_append_dropWhile (fun op => op != GateOp.openGate) ops
  have hcount : ops.count (.register e)
      = (ops.takeWhile (fun op => op != GateOp.openGate)).count (.register e)
        + (ops.dropWhile (fun op => op != GateOp.openGate)).count (.register e) := by
    conv_lhs => rw [← hsplit]
    rw [List.count_append]
  rw [hmain, hcount]
  by_cases hm : GateOp.register e ∈ ops.takeWhile (fun op => op != GateOp.openGate)
  · have := List.count_pos_iff.2 hm
    simp only [hm, if_true]
    omega
  · have := List.count_eq_zero.2 hm
    simp only [hm, if_false]
    omega

/-- As long as no `Open` has panicked there is no missed wake-up: a call of `Wait` on
pairwise distinct gates has finished registering and stands at the select, at any point
of an interleaving with `Open` calls in which no statement panicked, and every gate of
its list is open.  Then its channel has been sent the gates of the list, each exactly
once (so `len(gates)` values), no gate holds the channel, and receiving the values it
still waits for completes and returns nil. -/
theorem no_missed_wakeup (names : GateId → List String) (as : List Action) (s : State)
    (p : Pid) (ch : ChanId) (k : Nat) (hrun : run (init names) as = .ok s)
    (hpc : (s.procs p).pc = .selecting ch k) (hnd : (s.procs p).gates.Nodup)
    (hall : ∀ g ∈ (s.procs p).gates, (s.gates g).IsOpen = true) :
    (s.chans ch).hist.Perm (s.procs p).gates ∧
      (s.chans ch).hist.length = (s.procs p).gates.length ∧
      (∀ g, ch ∉ (s.gates g).listeners) ∧
      ∃ s1, run s (List.replicate k (.selectRecv p)) = .ok s1 ∧
        (s1.procs p).pc = .returned (some ch) none := by
  have hinv := inv_run as (inv_init names) hrun
  have hp := hinv.proc p
  rw [hpc] at hp
  simp only [ProcInv] at hp
  obtain ⟨hk1, hkn, hrl, hlive⟩ := hp
  have hperm : (s.chans ch).hist.Perm (s.procs p).gates := by
    rw [List.perm_iff_count]
    intro g
    have hle := hlive.count_le g
    rw [List.take_length] at hle
    by_cases hg : g ∈ (s.procs p).gates
    · have h1 := hlive.served g (hall g hg) (by rw [List.take_length]; exact hg)
      have h2 := List.count_eq_one_of_mem hnd hg
      omega
    · have h2 := List.count_eq_zero.2 hg
      omega
  refine ⟨hperm, hperm.length_eq, ?_, ?_⟩
  · intro g hg
    have hmem := hlive.held g hg
    rw [List.take_length] at hmem
    have hdr := hinv.drained g (hall g hmem)
    simp [Gate.listeners, hdr] at hg
  · refine run_recv_all p ch k s hpc hk1 hlive.notClosed ?_
    rw [hperm.length_eq]
    omega

/-- C8: a call `Wait(ctx)` with no gates returns nil by its first statement, for every
context, done or not; no channel is made, no gate and no other call is touched, and the
context keeps the value it had. -/
theorem C8_wait_no_gates (s : State) (p : Pid) (ctx : Option Err)
    (hidle : (s.procs p).pc = .idle) :
    ∃ s1 s2, step s (.call p ctx []) = .ok s1 ∧ step s1 (.wait p) = .ok s2 ∧
      s2.procs p = { ctx := ctx, gates := [], pc := .returned none none } ∧
      s2.gates = s.gates ∧ s2.chans = s.chans ∧ s2.nextChan = s.nextChan ∧
      ∀ q, q ≠ p → s2.procs q = s.procs q := by
  refine ⟨⟨s.gates, s.chans, s.nextChan, Function.update s.procs p ⟨ctx, [], .start⟩⟩,
    State.setPc ⟨s.gates, s.chans, s.nextChan, Function.update s.procs p ⟨ctx, [], .start⟩⟩
      p (.returned none none), ?_, ?_, ?_, rfl, rfl, rfl, ?_⟩
  · simp only [step, hidle]
  · simp only [step, stepWait, Function.update_same, List.length_nil, if_true]
  · simp [State.setPc]
  · intro q hq
    simp [State.setPc, Function.update_noteq hq]

theorem C8_witness :
    ∃ s1 s2, step (init unnamed) (.call 0 (some .DeadlineExceeded) []) = .ok s1 ∧
      step s1 (.wait 0) = .ok s2 ∧
      s2.procs 0 = { ctx := some .DeadlineExceeded, gates := [], pc := .returned none none } ∧
      s2.gates = (init unnamed).gates ∧ s2.chans = (init unnamed).chans ∧
      s2.nextChan = (init unnamed).nextChan ∧
      ∀ q, q ≠ 0 → s2.procs q = (init unnamed).procs q :=
  C8_wait_no_gates (init unnamed) 0 (some .DeadlineExceeded) rfl

theorem tryLoop_iff (gates : GateId → Gate) (gs : List GateId) :
    tryLoop gates gs = true ↔ ∀ g ∈ gs, (gates g).opened = true := by
  induction gs with
  | nil => simp [tryLoop]
  | cons g rest ih =>
    simp only [tryLoop, List.mem_cons, forall_eq_or_imp]
    by_cases ho : (gates g).opened = true
    · simp [ho, ih]
    · simp [ho]

/-- C9: `Try` returns true exactly when every gate of the list is open; with no gates it
returns true; with two gates it is false while either is unopened; and the transition of
the program that calls it leaves the state as it is. -/
theorem C9_try_iff_all_open (gates : GateId → Gate) (gs : List GateId) :
    (Try gates gs = true ↔ ∀ g ∈ gs, (gates g).IsOpen = true) ∧
      Try gates [] = true ∧
      (∀ g1 g2, Try gates [g1, g2] = ((gates g1).IsOpen && (gates g2).IsOpen)) ∧
      ∀ s : State, step s (.tryGates gs) = .ok s ∧ Try s.gates gs = tryLoop s.gates gs := by
  have hiff : ∀ l, Try gates l = true ↔ ∀ g ∈ l, (gates g).IsOpen = true := by
    intro l
    unfold Try
    by_cases hl : l.length = 0
    · rw [List.length_eq_zero.1 hl]; simp
    · simp only [hl, if_false]
      exact tryLoop_iff gates l
  refine ⟨hiff gs, rfl, ?_, ?_⟩
  · intro g1 g2
    rw [Bool.eq_iff_iff, hiff]
    simp
  · intro s
    refine ⟨rfl, ?_⟩
    unfold Try
    by_cases hl : gs.length = 0
    · rw [List.length_eq_zero.1 hl]; rfl
    · simp [hl]

/-- C10: in every reachable state, a call of `Wait` that has returned the cancellation
error has its channel in the listener set of no gate; and each `unregister` it runs on
the way completes and leaves the channels, every `opened` flag, every name and the
membership of every other channel in every listener set as they were. -/
theorem C10_cancel_releases_registrations (names : GateId → List String) (as : List Action)
    (s : State) (p : Pid) (hrun : run (init names) as = .ok s) :
    (∀ ch e, (s.procs p).pc = .returned ch (some e) →
        ∃ c, ch = some c ∧ ∀ g, c ∉ (s.gates g).listeners) ∧
      ∀ c j, (s.procs p).pc = .unregistering c j →
        ∃ s1, step s (.wait p) = .ok s1 ∧ s1.chans = s.chans ∧
          ∀ g, (s1.gates g).opened = (s.gates g).opened ∧ (s1.gates g).name = (s.gates g).name ∧
            (∀ c1, c1 ≠ c → (c1 ∈ (s1.gates g).listeners ↔ c1 ∈ (s.gates g).listeners)) ∧
            (g ∉ (s.procs p).gates → s1.gates g = s.gates g) := by
  have hinv := inv_run as (inv_init names) hrun
  constructor
  · intro ch e hret
    have hp := hinv.proc p
    rw [hret] at hp
    cases ch with
    | none =>
      simp only [ProcInv] at hp
      exact absurd hp.1 (by simp)
    | some c =>
      simp only [ProcInv] at hp
      exact ⟨c, rfl, hp.2.2.2⟩
  · intro c j hpc
    cases hj : (s.procs p).gates[j]? with
    | none =>
      refine ⟨s.setPc p (.returned (some c) (s.procs p).ctx), ?_, rfl, ?_⟩
      · simp only [step, stepWait, hpc, hj]
      · intro g
        exact ⟨rfl, rfl, fun _ _ => Iff.rfl, fun _ => rfl⟩
    | some g0 =>
      refine ⟨State.setPc ⟨Function.update s.gates g0 ((s.gates g0).unregister c), s.chans,
        s.nextChan, s.procs⟩ p (.unregistering c (j + 1)), ?_, rfl, ?_⟩
      · simp only [step, stepWait, hpc, hj]
      · intro g
        by_cases hg : g = g0
        · subst hg
          simp only [State.setPc, Function.update_same]
          refine ⟨unregister_opened _ _, unregister_name _ _, ?_, ?_⟩
          · intro c1 hc1
            rw [unregister_listeners, List.mem_filter]
            simp [hc1]
          · intro hnot
            exact absurd (List.mem_iff_getElem?.2 ⟨j, hj⟩) hnot
        · simp only [State.setPc, Function.update_noteq hg]
          exact ⟨trivial, trivial, fun _ _ => trivial, fun _ => trivial⟩

theorem C10_witness :
    (∀ ch e, ((runD (init unnamed) (init unnamed)
          (.call 0 (some .DeadlineExceeded) [0, 1] :: traceCancel)).procs 0).pc
          = .returned ch (some e) →
        ∃ c, ch = some c ∧ ∀ g, c ∉ ((runD (init unnamed) (init unnamed)
          (.call 0 (some .DeadlineExceeded) [0, 1] :: traceCancel)).gates g).listeners) ∧
      ∀ c j, ((runD (init unnamed) (init unnamed)
          (.call 0 (some .DeadlineExceeded) [0, 1] :: traceCancel)).procs 0).pc
          = .unregistering c j →
        ∃ s1, step (runD (init unnamed) (init unnamed)
            (.call 0 (some .DeadlineExceeded) [0, 1] :: traceCancel)) (.wait 0) = .ok s1 ∧
          s1.chans = (runD (init unnamed) (init unnamed)
            (.call 0 (some .DeadlineExceeded) [0, 1] :: traceCancel)).chans ∧
          ∀ g, (s1.gates g).opened = ((runD (init unnamed) (init unnamed)
              (.call 0 (some .DeadlineExceeded) [0, 1] :: traceCancel)).gates g).opened ∧
            (s1.gates g).name = ((runD (init unnamed) (init unnamed)
              (.call 0 (some .DeadlineExceeded) [0, 1] :: traceCancel)).gates g).name ∧
            (∀ c1, c1 ≠ c → (c1 ∈ (s1.gates g).listeners ↔
              c1 ∈ ((runD (init unnamed) (init unnamed)
                (.call 0 (some .DeadlineExceeded) [0, 1] :: traceCancel)).gates g).listeners)) ∧
            (g ∉ ((runD (init unnamed) (init unnamed)
                (.call 0 (some .DeadlineExceeded) [0, 1] :: traceCancel)).procs 0).gates →
              s1.gates g = (runD (init unnamed) (init unnamed)
                (.call 0 (some .DeadlineExceeded) [0, 1] :: traceCancel)).gates g) :=
  C10_cancel_releases_registrations unnamed
    (.call 0 (some .DeadlineExceeded) [0, 1] :: traceCancel)
    (runD (init unnamed) (init unnamed) (.call 0 (some .DeadlineExceeded) [0, 1] :: traceCancel))
    0 rfl

/-! ## Claims on single gates, on the channel of a call and on calls on open gates -/

/-- One method call keeps a gate open and keeps an open gate without listeners. -/
theorem apply_keeps (self : GateId) (op : GateOp) (g g1 : Gate) (cs cs1 : Chans)
    (h : g.apply self op cs = .ok (g1, cs1)) :
    (g.opened = true → g1.opened = true) ∧
      ((g.opened = true → g.chans = none) → g1.opened = true → g1.chans = none) := by
  cases op with
  | register ch =>
    simp only [Gate.apply] at h
    by_cases ho : g.opened = true
    · obtain ⟨hg, -, -, -⟩ := register_opened_ok _ _ _ _ _ _ ho h
      rw [hg]
      exact ⟨id, fun hd => hd⟩
    · simp only [Bool.not_eq_true] at ho
      rw [register_unopened _ _ _ _ ho] at h
      simp only [Outcome.ok.injEq, Prod.mk.injEq] at h
      rw [← h.1]
      refine ⟨fun h1 => absurd h1 (by simp [ho]), fun _ h1 => ?_⟩
      simp only [ho] at h1
      cases h1
  | unregister ch =>
    simp only [Gate.apply, Outcome.ok.injEq, Prod.mk.injEq] at h
    rw [← h.1, unregister_opened]
    refine ⟨id, fun hd ho => ?_⟩
    simp [Gate.unregister, hd ho]
  | openGate =>
    simp only [Gate.apply] at h
    refine ⟨fun _ => open_ok_opened _ _ _ _ _ h, fun hd _ => ?_⟩
    by_cases ho : g.opened = true
    · rw [open_of_opened _ _ _ ho] at h
      simp only [Outcome.ok.injEq, Prod.mk.injEq] at h
      rw [← h.1]
      exact hd ho
    · simp only [Bool.not_eq_true] at ho
      rw [(open_ok_of_unopened _ _ _ _ _ ho h).1]

theorem runOps_cons_ok {self : GateId} {op : GateOp} {ops : List GateOp} {g g2 : Gate}
    {cs cs2 : Chans} (h : Gate.runOps self (op :: ops) g cs = .ok (g2, cs2)) :
    ∃ g1 cs1, g.apply self op cs = .ok (g1, cs1) ∧ Gate.runOps self ops g1 cs1 = .ok (g2, cs2) := by
  simp only [Gate.runOps] at h
  cases ha : g.apply self op cs with
  | ok r =>
    obtain ⟨g1, cs1⟩ := r
    rw [ha] at h
    exact ⟨g1, cs1, rfl, h⟩
  | panic r0 => rw [ha] at h; cases h
  | blocked => rw [ha] at h; cases h

/-- Any sequence of method calls keeps a gate open and keeps an open gate without
listeners. -/
theorem runOps_keeps (self : GateId) (ops : List GateOp) (g g1 : Gate) (cs cs1 : Chans)
    (h : Gate.runOps self ops g cs = .ok (g1, cs1)) :
    (g.opened = true → g1.opened = true) ∧
      ((g.opened = true → g.chans = none) → g1.opened = true → g1.chans = none) := by
  induction ops generalizing g cs with
  | nil =>
    simp only [Gate.runOps, Outcome.ok.injEq, Prod.mk.injEq] at h
    rw [← h.1]
    exact ⟨id, fun hd => hd⟩
  | cons op rest ih =>
    obtain ⟨g2, cs2, h1, h2⟩ := runOps_cons_ok h
    obtain ⟨hm, hd⟩ := apply_keeps self op g g2 cs cs2 h1
    obtain ⟨hm2, hd2⟩ := ih g2 cs2 h2
    exact ⟨fun ho => hm2 (hm ho), fun hdr => hd2 (hd hdr)⟩

/-- As long as no statement has panicked: in every state the program reaches, an open gate
has the nil listener set, and over any further interleaving an open gate stays open; the
same holds of a single gate built by `New` under any sequence of `register`,
`unregister` and `Open` calls none of which panics. -/
theorem gate_invariants (names : GateId → List String) (as as1 : List Action)
    (s s1 : State) (hrun : run (init names) as = .ok s) (hrun1 : run s as1 = .ok s1) :
    (∀ g, (s.gates g).opened = true → (s1.gates g).opened = true) ∧
      (∀ g, (s.gates g).opened = true →
        (s.gates g).chans = none ∧ (s.gates g).listeners = []) ∧
      ∀ self name ops cs g cs1, Gate.runOps self ops (New name) cs = .ok (g, cs1) →
        (g.opened = true → g.chans = none ∧ g.listeners = []) ∧
          ∀ ops2 cs2 g2 cs3, Gate.runOps self ops2 g cs2 = .ok (g2, cs3) →
            g.opened = true → g2.opened = true := by
  have hinv := inv_run as (inv_init names) hrun
  refine ⟨fun g => (run_opened g as1 hrun1).1, ?_, ?_⟩
  · intro g ho
    have hd := hinv.drained g ho
    exact ⟨hd, by simp [Gate.listeners, hd]⟩
  · intro self name ops cs g cs1 h
    have hk := (runOps_keeps self ops (New name) g cs cs1 h).2 (fun _ => rfl)
    refine ⟨fun ho => ⟨hk ho, by simp [Gate.listeners, hk ho]⟩, ?_⟩
    intro ops2 cs2 g2 cs3 h2
    exact (runOps_keeps self ops2 g g2 cs2 cs3 h2).1

/-- A statement of `Wait` outside the select keeps the channel of its call, and puts no
channel but that one into a listener set. -/
theorem stepWait_owner {s s1 : State} {q : Pid} (h : stepWait s q = .ok s1) :
    (∀ c, (s.procs q).pc.chan = some c → (s1.procs q).pc.chan = some c) ∧
      ∀ g c, c ∈ (s1.gates g).listeners →
        c ∈ (s.gates g).listeners ∨ (s1.procs q).pc.chan = some c := by
  unfold stepWait at h
  cases hpc : (s.procs q).pc with
  | idle => simp only [hpc] at h; cases h
  | selecting ch k => simp only [hpc] at h; cases h
  | returned ch err => simp only [hpc] at h; cases h
  | start =>
    simp only [hpc] at h
    by_cases hlen : (s.procs q).gates.length = 0
    · simp only [hlen, if_true, Outcome.ok.injEq] at h
      subst h
      exact ⟨fun c hc => by simp [Pc.chan] at hc, fun g c hc => Or.inl hc⟩
    · simp only [hlen, if_false, Outcome.ok.injEq] at h
      subst h
      exact ⟨fun c hc => by simp [Pc.chan] at hc, fun g c hc => Or.inl hc⟩
  | registering ch i =>
    simp only [hpc] at h
    cases hi : (s.procs q).gates[i]? with
    | none =>
      simp only [hi, Outcome.ok.injEq] at h
      subst h
      exact ⟨fun c hc => by simpa [State.setPc, Pc.chan] using hc, fun g c hc => Or.inl hc⟩
    | some g0 =>
      simp only [hi] at h
      cases hreg : (s.gates g0).register g0 ch s.chans with
      | ok r =>
        obtain ⟨g1, cs1⟩ := r
        rw [hreg] at h
        simp only [Outcome.ok.injEq] at h
        subst h
        refine ⟨fun c hc => by simpa [State.setPc, Pc.chan] using hc, ?_⟩
        intro g c hc
        by_cases hg : g = g0
        · subst hg
          simp only [State.setPc, Function.update_same] at hc ⊢
          by_cases ho : (s.gates g).opened = true
          · obtain ⟨hg1, -, -, -⟩ := register_opened_ok _ _ _ _ _ _ ho hreg
            rw [hg1] at hc
            exact Or.inl hc
          · simp only [Bool.not_eq_true] at ho
            rw [register_unopened _ _ _ _ ho] at hreg
            simp only [Outcome.ok.injEq, Prod.mk.injEq] at hreg
            rw [← hreg.1] at hc
            have hc2 : c ∈ (s.gates g).listeners.insert ch := hc
            rcases List.mem_insert_iff.1 hc2 with h1 | h1
            · exact Or.inr (by simp [Pc.chan, h1])
            · exact Or.inl h1
        · simp only [State.setPc, Function.update_noteq hg] at hc
          exact Or.inl hc
      | panic r0 => rw [hreg] at h; cases h
      | blocked => rw [hreg] at h; cases h
  | unregistering ch j =>
    simp only [hpc] at h
    cases hj : (s.procs q).gates[j]? with
    | none =>
      simp only [hj, Outcome.ok.injEq] at h
      subst h
      exact ⟨fun c hc => by simpa [State.setPc, Pc.chan] using hc, fun g c hc => Or.inl hc⟩
    | some g0 =>
      simp only [hj, Outcome.ok.injEq] at h
      subst h
      refine ⟨fun c hc => by simpa [State.setPc, Pc.chan] using hc, ?_⟩
      intro g c hc
      by_cases hg : g = g0
      · subst hg
        simp only [State.setPc, Function.update_same, unregister_listeners] at hc
        exact Or.inl (List.mem_filter.1 hc).1
      · simp only [State.setPc, Function.update_noteq hg] at hc
        exact Or.inl hc

theorem stepRecv_owner {s s1 : State} {q : Pid} (h : stepRecv s q = .ok s1) :
    ∀ c, (s.procs q).pc.chan = some c → (s1.procs q).pc.chan = some c := by
  unfold stepRecv at h
  cases hpc : (s.procs q).pc with
  | idle => simp only [hpc] at h; cases h
  | start => simp only [hpc] at h; cases h
  | registering ch i => simp only [hpc] at h; cases h
  | unregistering ch j => simp only [hpc] at h; cases h
  | returned ch err => simp only [hpc] at h; cases h
  | selecting ch k =>
    simp only [hpc] at h
    cases hrecv : (s.chans ch).recv with
    | ok c1 =>
      rw [hrecv] at h
      by_cases hk : k - 1 ≤ 0
      · simp only [hk, if_true] at h
        cases hclose : c1.close with
        | ok c2 =>
          rw [hclose] at h
          simp only [Outcome.ok.injEq] at h
          subst h
          exact fun c hc => by simpa [State.setPc, Pc.chan] using hc
        | panic r0 => rw [hclose] at h; cases h
        | blocked => rw [hclose] at h; cases h
      · simp only [hk, if_false, Outcome.ok.injEq] at h
        subst h
        exact fun c hc => by simpa [State.setPc, Pc.chan] using hc
    | panic r0 => rw [hrecv] at h; cases h
    | blocked => rw [hrecv] at h; cases h

theorem stepDone_owner {s s1 : State} {q : Pid} (h : stepDone s q = .ok s1) :
    ∀ c, (s.procs q).pc.chan = some c → (s1.procs q).pc.chan = some c := by
  unfold stepDone at h
  cases hpc : (s.procs q).pc with
  | idle => simp only [hpc] at h; cases h
  | start => simp only [hpc] at h; cases h
  | registering ch i => simp only [hpc] at h; cases h
  | unregistering ch j => simp only [hpc] at h; cases h
  | returned ch err => simp only [hpc] at h; cases h
  | selecting ch k =>
    simp only [hpc] at h
    cases hctx : (s.procs q).ctx with
    | none => rw [hctx] at h; cases h
    | some e =>
      rw [hctx] at h
      cases hclose : (s.chans ch).close with
      | ok c1 =>
        rw [hclose] at h
        simp only [Outcome.ok.injEq] at h
        subst h
        exact fun c hc => by simpa [State.setPc, Pc.chan] using hc
      | panic r0 => rw [hclose] at h; cases h
      | blocked => rw [hclose] at h; cases h

/-- A statement of a call leaves the other calls as they are. -/
theorem procs_other {s s1 : State} {q : Pid}
    (h : ∃ pc1, s1.procs = Function.update s.procs q { s.procs q with pc := pc1 } ∧
      pc1 ≠ .idle ∧
      pc1.fuel (s.procs q).gates.length < (s.procs q).pc.fuel (s.procs q).gates.length)
    (q0 : Pid) (hq : q0 ≠ q) : s1.procs q0 = s.procs q0 := by
  obtain ⟨pc1, hp, -, -⟩ := h
  rw [hp, Function.update_noteq hq]

/-- Every transition keeps `Owned`. -/
theorem owned_step {s s1 : State} {a : Action} (ho : Owned s) (h : step s a = .ok s1) :
    Owned s1 := by
  have hkeep : ∀ q, (∀ q0, q0 ≠ q → s1.procs q0 = s.procs q0) →
      (∀ c, (s.procs q).pc.chan = some c → (s1.procs q).pc.chan = some c) →
      (∀ g c, c ∈ (s1.gates g).listeners →
        c ∈ (s.gates g).listeners ∨ (s1.procs q).pc.chan = some c) → Owned s1 := by
    intro q hoth hself hl g c hc
    rcases hl g c hc with h1 | h1
    · obtain ⟨q0, hq0⟩ := ho g c h1
      by_cases hq : q0 = q
      · subst hq
        exact ⟨q0, hself c hq0⟩
      · exact ⟨q0, by rw [hoth q0 hq]; exact hq0⟩
    · exact ⟨q, h1⟩
  cases a with
  | openGate g0 =>
    simp only [step] at h
    cases hop : (s.gates g0).Open g0 s.chans with
    | ok r =>
      obtain ⟨g1, cs1⟩ := r
      rw [hop] at h
      simp only [Outcome.ok.injEq] at h
      subst h
      intro g c hc
      exact ho g c ((open_gates s.gates g0 g1 s.chans cs1 hop g).2 c hc)
    | panic r0 => rw [hop] at h; cases h
    | blocked => rw [hop] at h; cases h
  | isOpen g => simp only [step, Outcome.ok.injEq] at h; subst h; exact ho
  | describe g => simp only [step, Outcome.ok.injEq] at h; subst h; exact ho
  | tryGates gs => simp only [step, Outcome.ok.injEq] at h; subst h; exact ho
  | call q ctx gs =>
    obtain ⟨hidle, hs1⟩ := call_ok h
    subst hs1
    refine hkeep q (fun q0 hq => Function.update_noteq hq _ _) ?_ (fun g c hc => Or.inl hc)
    intro c hc
    rw [hidle] at hc
    cases hc
  | cancel q e =>
    simp only [step] at h
    cases hctx : (s.procs q).ctx <;> rw [hctx] at h <;> cases h
    refine hkeep q (fun q0 hq => Function.update_noteq hq _ _) ?_ (fun g c hc => Or.inl hc)
    intro c hc
    simpa using hc
  | wait q =>
    exact hkeep q (procs_other (stepWait_effect h).1) (stepWait_owner h).1 (stepWait_owner h).2
  | selectRecv q =>
    refine hkeep q (procs_other (stepRecv_effect h).1) (stepRecv_owner h) ?_
    intro g c hc
    rw [(stepRecv_effect h).2] at hc
    exact Or.inl hc
  | selectDone q =>
    refine hkeep q (procs_other (stepDone_effect h).1) (stepDone_owner h) ?_
    intro g c hc
    rw [(stepDone_effect h).2] at hc
    exact Or.inl hc

theorem owned_run {s s1 : State} (as : List Action) (ho : Owned s) (h : run s as = .ok s1) :
    Owned s1 := by
  induction as generalizing s with
  | nil =>
    simp only [run, Outcome.ok.injEq] at h
    subst h
    exact ho
  | cons a rest ih =>
    obtain ⟨s2, h1, h2⟩ := run_cons_ok h
    exact ih (owned_step ho h1) h2

theorem owned_init (names : GateId → List String) : Owned (init names) := by
  intro g c hc
  cases hc

/-- While a gate still holds a live channel, the channel has been sent fewer values than
the call has gates. -/
theorem live_room {gates : GateId → Gate} {c : Chan} {ch : ChanId} {gs : List GateId}
    {i : Nat} (h : Live gates c ch gs i) (g : GateId) (hu : (gates g).opened = false)
    (hm : ch ∈ (gates g).listeners) : c.hist.length < gs.length := by
  have hmem := h.held g hm
  have h0 := h.unopened g hu
  have hsub : c.hist.Subperm ((gs.take i).erase g) := by
    refine List.subperm_ext_iff.2 fun x hx => ?_
    by_cases hxg : x = g
    · subst hxg
      exact absurd h0 (List.count_pos_iff.2 hx).ne'
    · rw [List.count_erase_of_ne hxg]
      exact h.count_le x
  have h1 := hsub.length_le
  rw [List.length_erase_of_mem hmem, List.length_take] at h1
  have h2 : 0 < (gs.take i).length := List.length_pos_of_mem hmem
  rw [List.length_take] at h2
  omega

/-- A range-and-send loop that blocks does so at a listener whose channel is full. -/
theorem sendAll_blocked (self : GateId) (l : List ChanId) (cs : Chans) (hn : l.Nodup)
    (h : sendAll self l cs = .blocked) : ∃ c ∈ l, (cs c).send self = .blocked := by
  induction l generalizing cs with
  | nil => cases h
  | cons a rest ih =>
    simp only [sendAll] at h
    cases hs : (cs a).send self with
    | ok c1 =>
      rw [hs] at h
      obtain ⟨c, hc, hb⟩ := ih _ (List.nodup_cons.1 hn).2 h
      have hca : c ≠ a := fun heq => (List.nodup_cons.1 hn).1 (heq ▸ hc)
      rw [Function.update_noteq hca] at hb
      exact ⟨c, List.mem_cons_of_mem _ hc, hb⟩
    | panic r0 => rw [hs] at h; cases h
    | blocked => exact ⟨a, List.mem_cons_self _ _, hs⟩

/-- A send to a channel that a gate holds does not block. -/
theorem listener_send_not_blocked {s : State} (hinv : Inv s) (ho : Owned s) (g : GateId)
    (c : ChanId) (hc : c ∈ (s.gates g).listeners) : (s.chans c).send g ≠ .blocked := by
  have hu : (s.gates g).opened = false := by
    by_contra hne
    simp only [Bool.not_eq_false] at hne
    have hd := hinv.drained g hne
    simp [Gate.listeners, hd] at hc
  obtain ⟨q, hq⟩ := ho g c hc
  have hp := hinv.proc q
  have hlive : ∀ i, Live s.gates (s.chans c) c (s.procs q).gates i →
      (s.chans c).send g ≠ .blocked := by
    intro i hl hb
    have hroom := live_room hl g hu hc
    have hok : (s.chans c).send g = .ok { s.chans c with hist := (s.chans c).hist ++ [g] } := by
      refine (send_ok_iff _ _ _).2 ⟨hl.notClosed, ?_, rfl⟩
      rw [hl.cap]
      simp only [Chan.pending]
      omega
    rw [hok] at hb
    cases hb
  have hdead : (s.chans c).closed = true → (s.chans c).send g ≠ .blocked := by
    intro hcl hb
    simp [Chan.send, hcl] at hb
  cases hpc : (s.procs q).pc with
  | idle => rw [hpc] at hq; cases hq
  | start => rw [hpc] at hq; cases hq
  | registering ch i =>
    rw [hpc] at hq hp
    simp only [Pc.chan, Option.some.injEq] at hq
    subst hq
    simp only [ProcInv] at hp
    exact hlive i hp.2.2.2
  | selecting ch k =>
    rw [hpc] at hq hp
    simp only [Pc.chan, Option.some.injEq] at hq
    subst hq
    simp only [ProcInv] at hp
    exact hlive _ hp.2.2.2
  | unregistering ch j =>
    rw [hpc] at hq hp
    simp only [Pc.chan, Option.some.injEq] at hq
    subst hq
    simp only [ProcInv] at hp
    exact hdead hp.2.2.1.closed
  | returned ch err =>
    rw [hpc] at hq hp
    simp only [Pc.chan] at hq
    subst hq
    cases err with
    | none =>
      simp only [ProcInv] at hp
      exact absurd hc (hp.2.2.2 g)
    | some e =>
      simp only [ProcInv] at hp
      exact absurd hc (hp.2.2.2 g)

/-- In a reachable state `Open` does not block. -/
theorem open_not_blocked {s : State} (hinv : Inv s) (ho : Owned s) (g : GateId) :
    step s (.openGate g) ≠ .blocked := by
  intro hb
  simp only [step] at hb
  by_cases hop : (s.gates g).opened = true
  · rw [open_of_opened _ _ _ hop] at hb
    cases hb
  · simp only [Bool.not_eq_true] at hop
    have hl : Gate.listeners { s.gates g with opened := true } = (s.gates g).listeners := rfl
    simp only [Gate.Open, hop, Bool.false_eq_true, if_false, hl] at hb
    cases hs : sendAll g (s.gates g).listeners s.chans with
    | ok cs1 => rw [hs] at hb; cases hb
    | panic r0 => rw [hs] at hb; cases hb
    | blocked =>
      obtain ⟨c, hc, hcb⟩ := sendAll_blocked g _ _ (hinv.nodup g) hs
      exact listener_send_not_blocked hinv ho g c hc hcb

/-- In a reachable state a `register` of `Wait` completes. -/
theorem register_completes {s : State} (hinv : Inv s) (p : Pid) (ch : ChanId) (i : Nat)
    (hpc : (s.procs p).pc = .registering ch i) : ∃ s2, step s (.wait p) = .ok s2 := by
  have hold := hinv.proc p
  rw [hpc] at hold
  simp only [ProcInv] at hold
  obtain ⟨hn1, hile, hr0, hlive⟩ := hold
  cases hi : (s.procs p).gates[i]? with
  | none => exact ⟨_, by simp only [step, stepWait, hpc, hi]; rfl⟩
  | some g0 =>
    have hilt : i < (s.procs p).gates.length := (List.getElem?_eq_some_iff.1 hi).1
    by_cases ho : (s.gates g0).opened = true
    · have hlen : (s.chans ch).hist.length ≤ i := by
        have := (live_subperm hlive).length_le
        simp only [List.length_take] at this
        omega
      have hsend : (s.chans ch).send g0
          = .ok { s.chans ch with hist := (s.chans ch).hist ++ [g0] } := by
        refine (send_ok_iff _ _ _).2 ⟨hlive.notClosed, ?_, rfl⟩
        rw [hlive.cap]
        simp only [Chan.pending]
        omega
      exact ⟨_, by
        simp only [step, stepWait, hpc, hi, Gate.register, ho, if_true, hsend]
        rfl⟩
    · simp only [Bool.not_eq_true] at ho
      exact ⟨_, by
        simp only [step, stepWait, hpc, hi, register_unopened _ _ _ _ ho]
        rfl⟩

/-- C12: in every reachable state, the channel a call of `Wait` made has capacity
`len(gates)` and has been sent at most `len(gates)` values in all; no `Open` of any gate
blocks, and every `register` of a call completes. -/
theorem C12_sends_within_capacity (names : GateId → List String) (as : List Action)
    (s : State) (hrun : run (init names) as = .ok s) :
    (∀ p ch, (s.procs p).pc.chan = some ch →
        (s.chans ch).cap = (s.procs p).gates.length ∧
          (s.chans ch).hist.length ≤ (s.procs p).gates.length) ∧
      (∀ g, step s (.openGate g) ≠ .blocked) ∧
      ∀ p ch i, (s.procs p).pc = .registering ch i → ∃ s2, step s (.wait p) = .ok s2 := by
  have hinv := inv_run as (inv_init names) hrun
  have hown := owned_run as (owned_init names) hrun
  refine ⟨?_, open_not_blocked hinv hown, register_completes hinv⟩
  intro p ch hch
  have hp := hinv.proc p
  cases hpc : (s.procs p).pc with
  | idle => rw [hpc] at hch; cases hch
  | start => rw [hpc] at hch; cases hch
  | registering c i =>
    rw [hpc] at hch hp
    simp only [Pc.chan, Option.some.injEq] at hch
    subst hch
    simp only [ProcInv] at hp
    exact ⟨hp.2.2.2.cap, live_hist_le hp.2.2.2⟩
  | selecting c k =>
    rw [hpc] at hch hp
    simp only [Pc.chan, Option.some.injEq] at hch
    subst hch
    simp only [ProcInv] at hp
    exact ⟨hp.2.2.2.cap, live_hist_le hp.2.2.2⟩
  | unregistering c j =>
    rw [hpc] at hch hp
    simp only [Pc.chan, Option.some.injEq] at hch
    subst hch
    simp only [ProcInv] at hp
    exact ⟨hp.2.2.1.cap, hp.2.2.1.hist_le⟩
  | returned c err =>
    rw [hpc] at hch hp
    simp only [Pc.chan] at hch
    subst hch
    cases err with
    | none =>
      simp only [ProcInv] at hp
      exact ⟨hp.2.1.cap, hp.2.1.hist_le⟩
    | some e =>
      simp only [ProcInv] at hp
      exact ⟨hp.2.2.1.cap, hp.2.2.1.hist_le⟩

theorem C12_witness :
    (∀ p ch, ((runD (init unnamed) (init unnamed) (traceWait2.take 6)).procs p).pc.chan
          = some ch →
        ((runD (init unnamed) (init unnamed) (traceWait2.take 6)).chans ch).cap
            = ((runD (init unnamed) (init unnamed) (traceWait2.take 6)).procs p).gates.length ∧
          ((runD (init unnamed) (init unnamed) (traceWait2.take 6)).chans ch).hist.length
            ≤ ((runD (init unnamed) (init unnamed) (traceWait2.take 6)).procs p).gates.length) ∧
      (∀ g, step (runD (init unnamed) (init unnamed) (traceWait2.take 6)) (.openGate g)
        ≠ .blocked) ∧
      ∀ p ch i, ((runD (init unnamed) (init unnamed) (traceWait2.take 6)).procs p).pc
          = .registering ch i →
        ∃ s2, step (runD (init unnamed) (init unnamed) (traceWait2.take 6)) (.wait p)
          = .ok s2 :=
  C12_sends_within_capacity unnamed (traceWait2.take 6)
    (runD (init unnamed) (init unnamed) (traceWait2.take 6)) rfl

/-- C13: in every reachable state, a call of `Wait` that has returned nil either had no
gates or has received exactly `len(gates)` values from its channel, repeated gates counted
as often as they are listed; and a call at the select still waits for `n` values with
`n` plus the values received equal to `len(gates)`. -/
theorem C13_wait_counts_every_occurrence (names : GateId → List String) (as : List Action)
    (s : State) (hrun : run (init names) as = .ok s) :
    (∀ p ch, (s.procs p).pc = .returned ch none →
        ((s.procs p).gates = [] ∧ ch = none) ∨
          ∃ c, ch = some c ∧ (s.chans c).rcvd = (s.procs p).gates.length ∧
            (s.procs p).gates.length ≤ (s.chans c).hist.length) ∧
      ∀ p c n, (s.procs p).pc = .selecting c n →
        1 ≤ n ∧ n + (s.chans c).rcvd = (s.procs p).gates.length := by
  have hinv := inv_run as (inv_init names) hrun
  constructor
  · intro p ch hret
    have hp := hinv.proc p
    rw [hret] at hp
    cases ch with
    | none =>
      simp only [ProcInv] at hp
      exact Or.inl ⟨hp.2, rfl⟩
    | some c =>
      simp only [ProcInv] at hp
      refine Or.inr ⟨c, rfl, hp.1, ?_⟩
      rw [← hp.1]
      exact hp.2.1.rcvd_le
  · intro p c n hpc
    have hp := hinv.proc p
    rw [hpc] at hp
    simp only [ProcInv] at hp
    exact ⟨hp.1, hp.2.1⟩

theorem C13_witness :
    1 ≤ 1 ∧ 1 + ((runD (init unnamed) (init unnamed) traceTwice).chans 0).rcvd
      = ((runD (init unnamed) (init unnamed) traceTwice).procs 0).gates.length :=
  (C13_wait_counts_every_occurrence unnamed traceTwice
    (runD (init unnamed) (init unnamed) traceTwice) rfl).2 0 0 1 rfl

/-- C14, counterexample: the string of `New("common")` carries the package name in
front; it is not the string the format without it gives. -/
theorem C14_counterexample :
    (New ["common"]).String ≠ "Gate\x7b name=common opened=false \x7d" ∧
      (New ["common"]).String = "syncgate.Gate\x7b name=common opened=false \x7d" := by
  decide

/-- C14, amended: for every name `n`, the empty one included, the string of `New(n)` is
`syncgate.Gate{ name=` followed by `n` and ` opened=false }`, and after `Open`, which
completes, it ends in ` opened=true }`; an empty or missing name leaves nothing between
`name=` and the blank. -/
theorem C14_string_of_new (n : String) (self : GateId) (cs : Chans) :
    (New [n]).String = "syncgate.Gate\x7b name=" ++ n ++ " opened=false \x7d" ∧
      (∃ g1, (New [n]).Open self cs = .ok (g1, cs) ∧
        g1.String = "syncgate.Gate\x7b name=" ++ n ++ " opened=true \x7d") ∧
      (New [""]).String = "syncgate.Gate\x7b name= opened=false \x7d" ∧
      (New []).String = "syncgate.Gate\x7b name= opened=false \x7d" := by
  refine ⟨?_, ⟨{ name := n, opened := true, chans := none }, rfl, ?_⟩, by decide, by decide⟩
  · simp only [Gate.String, New, String.append_assoc]
    rfl
  · simp only [Gate.String, String.append_assoc]
    rfl

theorem New_cons (n : String) (rest : List String) :
    New (n :: rest) = { name := n, opened := false, chans := none } := by
  simp [New]

/-- C15: the string of any gate is `syncgate.Gate{ name=<name> opened=<true|false> }`;
for `New(n, ...)` it ends in `opened=false`, after `Open` in `opened=true`; and the
transition that calls `String` leaves the state as it is. -/
theorem C15_string_format (g : Gate) (n : String) (rest : List String) (self : GateId)
    (cs : Chans) :
    (g.opened = false → g.String = "syncgate.Gate\x7b name=" ++ g.name ++ " opened=false \x7d") ∧
      (g.opened = true → g.String = "syncgate.Gate\x7b name=" ++ g.name ++ " opened=true \x7d") ∧
      (New (n :: rest)).String = "syncgate.Gate\x7b name=" ++ n ++ " opened=false \x7d" ∧
      (∃ g1, (New (n :: rest)).Open self cs = .ok (g1, cs) ∧
        g1.String = "syncgate.Gate\x7b name=" ++ n ++ " opened=true \x7d") ∧
      ∀ (s : State) (g0 : GateId), step s (.describe g0) = .ok s := by
  have hf : ∀ g : Gate, g.opened = false →
      g.String = "syncgate.Gate\x7b name=" ++ g.name ++ " opened=false \x7d" := by
    intro g ho
    simp only [Gate.String, ho, String.append_assoc]
    rfl
  have ht : ∀ g : Gate, g.opened = true →
      g.String = "syncgate.Gate\x7b name=" ++ g.name ++ " opened=true \x7d" := by
    intro g ho
    simp only [Gate.String, ho, String.append_assoc]
    rfl
  rw [New_cons]
  exact ⟨hf g, ht g, hf _ rfl,
    ⟨{ name := n, opened := true, chans := none }, rfl, ht _ rfl⟩, fun _ _ => rfl⟩

/-- A statement of call `p` leaves its context as it is. -/
theorem ctx_of_effect {s s1 : State} {p : Pid}
    (h : ∃ pc1, s1.procs = Function.update s.procs p { s.procs p with pc := pc1 } ∧
      pc1 ≠ .idle ∧
      pc1.fuel (s.procs p).gates.length < (s.procs p).pc.fuel (s.procs p).gates.length) :
    (s1.procs p).ctx = (s.procs p).ctx := by
  obtain ⟨pc1, hp, -, -⟩ := h
  rw [hp, Function.update_same]

/-- A call on gates that are all open runs to its return by its own statements alone,
never taking the case `<-ctx.Done()`. -/
theorem allOpen_completes (p : Pid) (n : Nat) (s : State) (hinv : Inv s)
    (hall : AllOpenCall s p) (hidle : (s.procs p).pc ≠ .idle)
    (hfuel : (s.procs p).pc.fuel (s.procs p).gates.length ≤ n) :
    ∃ as s2, (∀ a ∈ as, a = Action.wait p ∨ a = Action.selectRecv p) ∧
      run s as = .ok s2 ∧ (s2.procs p).pc.isReturned = true ∧
      (s2.procs p).ctx = (s.procs p).ctx ∧ Inv s2 := by
  induction n generalizing s with
  | zero =>
    by_cases hret : (s.procs p).pc.isReturned = true
    · exact ⟨[], s, fun a ha => absurd ha (List.not_mem_nil a), rfl, hret, rfl, hinv⟩
    · simp only [Bool.not_eq_true] at hret
      obtain ⟨s2, h2⟩ := progress_allOpen p hinv hall hidle hret
      rcases h2 with h2 | h2
      · have := (step_proc p h2 hidle).2.2.2.1 (by simp [Action.isStepOf])
        omega
      · have := (step_proc p h2 hidle).2.2.2.1 (by simp [Action.isStepOf])
        omega
  | succ m ih =>
    by_cases hret : (s.procs p).pc.isReturned = true
    · exact ⟨[], s, fun a ha => absurd ha (List.not_mem_nil a), rfl, hret, rfl, hinv⟩
    · simp only [Bool.not_eq_true] at hret
      obtain ⟨s2, h2⟩ := progress_allOpen p hinv hall hidle hret
      have hnext : ∀ a, (a = Action.wait p ∨ a = Action.selectRecv p) → step s a = .ok s2 →
          (s2.procs p).ctx = (s.procs p).ctx →
          ∃ as s3, (∀ a ∈ as, a = Action.wait p ∨ a = Action.selectRecv p) ∧
            run s as = .ok s3 ∧ (s3.procs p).pc.isReturned = true ∧
            (s3.procs p).ctx = (s.procs p).ctx ∧ Inv s3 := by
        intro a ha hstep hctx
        have hown : a.isStepOf p = true := by
          rcases ha with rfl | rfl <;> simp [Action.isStepOf]
        obtain ⟨hgs, hne, -, hlt, -⟩ := step_proc p hstep hidle
        have hlt2 := hlt hown
        obtain ⟨as, s3, has, hrun, hret3, hctx3, hinv3⟩ :=
          ih s2 (inv_step a hinv hstep) (allOpen_step p hinv hall hidle hstep) hne
            (by rw [hgs]; omega)
        refine ⟨a :: as, s3, ?_, ?_, hret3, by rw [hctx3, hctx], hinv3⟩
        · intro b hb
          rcases List.mem_cons.1 hb with rfl | hb
          · exact ha
          · exact has b hb
        · simp only [run, hstep]
          exact hrun
      rcases h2 with h2 | h2
      · exact hnext _ (Or.inl rfl) h2 (ctx_of_effect (stepWait_effect h2).1)
      · exact hnext _ (Or.inr rfl) h2 (ctx_of_effect (stepRecv_effect h2).1)

/-- As long as no statement has panicked: `Wait` is called on a non-empty list of gates
that are all open, and its context is not done at the end of the interleaving that
follows.  Then: if the call has returned, it returned nil; it ran at most
`3 * len(gates) + 4` statements; while it has not returned its next statement can run, a
value being ready at the select; from where it stands its own statements alone, with no
further `Open`, bring it to return nil; and every gate of the list is open with an empty
listener set. -/
theorem wait_on_open_gates (names : GateId → List String) (as as1 : List Action)
    (s s1 s2 : State) (p : Pid) (ctx : Option Err) (gs : List GateId)
    (hrun : run (init names) as = .ok s) (hne : gs ≠ [])
    (hopen : ∀ g ∈ gs, (s.gates g).IsOpen = true)
    (hcall : step s (.call p ctx gs) = .ok s1) (hrun1 : run s1 as1 = .ok s2)
    (hctx : (s2.procs p).ctx = none) :
    (∀ ch err, (s2.procs p).pc = .returned ch err → err = none) ∧
      as1.countP (Action.isStepOf p) ≤ 3 * gs.length + 4 ∧
      ((s2.procs p).pc.isReturned = false →
        ∃ s3, step s2 (.wait p) = .ok s3 ∨ step s2 (.selectRecv p) = .ok s3) ∧
      (∃ as2 s3, (∀ a ∈ as2, a = Action.wait p ∨ a = Action.selectRecv p) ∧
        run s2 as2 = .ok s3 ∧ ∃ ch, (s3.procs p).pc = .returned (some ch) none) ∧
      ∀ g ∈ gs, (s2.gates g).IsOpen = true ∧ (s2.gates g).listeners = [] := by
  have hinv := inv_run as (inv_init names) hrun
  have hinv1 := inv_step _ hinv hcall
  have hinv2 := inv_run as1 hinv1 hrun1
  obtain ⟨-, hs1⟩ := call_ok hcall
  have hp1 : s1.procs p = { ctx := ctx, gates := gs, pc := .start } := by
    rw [hs1]; simp
  have hne1 : (s1.procs p).pc ≠ .idle := by rw [hp1]; simp
  have hall1 : AllOpenCall s1 p := by
    refine ⟨?_, by rw [hp1]; trivial⟩
    rw [hp1, hs1]
    exact hopen
  have hall2 := allOpen_run p as1 hinv1 hall1 hne1 hrun1
  obtain ⟨hgs2, hne2, -, hfuel⟩ := run_proc p as1 hrun1 hne1
  rw [hp1] at hfuel hgs2
  simp only at hgs2
  have hnil : ∀ (t : State), Inv t → (t.procs p).ctx = none → (t.procs p).gates = gs →
      ∀ ch err, (t.procs p).pc = .returned ch err → err = none ∧ ∃ c, ch = some c := by
    intro t ht htc htg ch err hret
    have hp := ht.proc p
    rw [hret, htc, htg] at hp
    cases ch with
    | none =>
      simp only [ProcInv] at hp
      exact absurd hp.2 hne
    | some c =>
      cases err with
      | none => exact ⟨rfl, c, rfl⟩
      | some e =>
        simp only [ProcInv] at hp
        exact absurd hp.1 (by simp)
  refine ⟨fun ch err hret => (hnil s2 hinv2 hctx hgs2 ch err hret).1, ?_, ?_, ?_, ?_⟩
  · simp only [Pc.fuel] at hfuel
    omega
  · intro hret
    exact progress_allOpen p hinv2 hall2 hne2 hret
  · obtain ⟨as2, s3, has, hrun3, hret3, hctx3, hinv3⟩ :=
      allOpen_completes p _ s2 hinv2 hall2 hne2 (le_refl _)
    have hgs3 := (run_proc p as2 hrun3 hne2).1
    refine ⟨as2, s3, has, hrun3, ?_⟩
    cases hpc3 : (s3.procs p).pc with
    | returned ch err =>
      obtain ⟨he, c, hc⟩ := hnil s3 hinv3 (by rw [hctx3, hctx]) (by rw [hgs3, hgs2]) ch err hpc3
      subst he hc
      exact ⟨c, rfl⟩
    | idle => rw [hpc3] at hret3; cases hret3
    | start => rw [hpc3] at hret3; cases hret3
    | registering c i => rw [hpc3] at hret3; cases hret3
    | selecting c k => rw [hpc3] at hret3; cases hret3
    | unregistering c j => rw [hpc3] at hret3; cases hret3
  · intro g hg
    have ho := hall2.1 g (by rw [hgs2]; exact hg)
    have hd := hinv2.drained g ho
    exact ⟨ho, by simp [Gate.listeners, hd]⟩

/-- C17: for every list of name arguments `New` returns a gate that is unopened, has the
nil listener set, and is named by the first string of the list, or by the empty string
when the list is empty; later strings change nothing. -/
theorem C17_new_gate (names : List String) :
    (New names).opened = false ∧ (New names).IsOpen = false ∧ (New names).chans = none ∧
      (New names).listeners = [] ∧ (New names).name = names.headD "" ∧
      (New []).name = "" ∧
      ∀ n rest, (New (n :: rest)).name = n ∧ New (n :: rest) = New [n] := by
  refine ⟨rfl, rfl, rfl, rfl, ?_, rfl, ?_⟩
  · cases names with
    | nil => rfl
    | cons n rest => simp [New]
  · intro n rest
    rw [New_cons, New_cons]
    exact ⟨rfl, rfl⟩

/-- The first `Open` of an unopened gate with listener set `L` completes when every
listener is not closed and has room for a value; when it completes, the gate is open,
keeps its name and has the nil listener set, every channel of `L` got exactly one more
value, the gate itself, every other channel is as it was, and a later `Open` changes no
gate and no channel. -/
theorem first_open_completed (self : GateId) (g : Gate) (cs : Chans) (hu : g.opened = false)
    (hn : g.listeners.Nodup) :
    ((∀ c ∈ g.listeners, (cs c).closed = false ∧ (cs c).pending < (cs c).cap) →
        ∃ g1 cs1, g.Open self cs = .ok (g1, cs1)) ∧
      ∀ g1 cs1, g.Open self cs = .ok (g1, cs1) →
        g1.opened = true ∧ g1.name = g.name ∧ g1.chans = none ∧ g1.listeners = [] ∧
          (∀ c ∈ g.listeners, cs1 c = { cs c with hist := (cs c).hist ++ [self] } ∧
            deliveries self cs1 c = deliveries self cs c + 1) ∧
          (∀ c, c ∉ g.listeners → cs1 c = cs c) ∧
          ∀ cs2, g1.Open self cs2 = .ok (g1, cs2) := by
  constructor
  · intro hroom
    obtain ⟨cs1, hs⟩ := sendAll_total self g.listeners cs hn hroom
    refine ⟨{ g with opened := true, chans := none }, cs1, ?_⟩
    have hl : Gate.listeners { g with opened := true } = g.listeners := rfl
    simp only [Gate.Open, hu, Bool.false_eq_true, if_false, hl, hs]
  · intro g1 cs1 h
    obtain ⟨hg1, -⟩ := open_ok_of_unopened _ _ _ _ _ hu h
    have ho1 : g1.opened = true := by rw [hg1]
    refine ⟨ho1, by rw [hg1], by rw [hg1], by rw [hg1]; rfl, ?_, ?_, ?_⟩
    · intro c hc
      have he := ((open_chan _ _ _ _ _ hu hn h c).1 hc).2.2
      refine ⟨he, ?_⟩
      have hd := (open_deliveries self c g g1 cs cs1 hu hn h).2.2
      rw [hd]
      simp [hc]
    · intro c hc
      exact (open_chan _ _ _ _ _ hu hn h c).2 hc
    · intro cs2
      exact open_of_opened _ _ _ ho1

/-- C19: `unregister(e)` completes and sends nothing; it keeps `opened` and the name; the
listeners left are the old ones without `e`, in their order; and it changes nothing at
all when the listener set is nil or empty, when `e` is not in it, or when the gate has
just been opened. -/
theorem C19_unregister_frame (self : GateId) (g : Gate) (e : ChanId) (cs : Chans) :
    g.apply self (.unregister e) cs = .ok (g.unregister e, cs) ∧
      (g.unregister e).opened = g.opened ∧ (g.unregister e).name = g.name ∧
      (g.unregister e).listeners = g.listeners.filter (fun c => c != e) ∧
      e ∉ (g.unregister e).listeners ∧
      (∀ c, c ≠ e → (c ∈ (g.unregister e).listeners ↔ c ∈ g.listeners)) ∧
      (g.chans = none → g.unregister e = g) ∧
      (g.chans = some [] → g.unregister e = g) ∧
      (e ∉ g.listeners → g.unregister e = g) ∧
      ∀ (g0 : Gate) (cs0 cs1 : Chans), g0.opened = false →
        g0.Open self cs0 = .ok (g, cs1) → g.unregister e = g := by
  have hnil : g.chans = none → g.unregister e = g := by
    intro hc
    simp [Gate.unregister, hc]
  refine ⟨rfl, unregister_opened g e, unregister_name g e, unregister_listeners g e, ?_, ?_,
    hnil, ?_, ?_, ?_⟩
  · rw [unregister_listeners, List.mem_filter]
    simp
  · intro c hc
    rw [unregister_listeners, List.mem_filter]
    simp [hc]
  · intro hc
    obtain ⟨n, o, c⟩ := g
    simp only at hc
    subst hc
    rfl
  · intro he
    obtain ⟨n, o, c⟩ := g
    cases c with
    | none => rfl
    | some l =>
      have hl : ∀ a ∈ l, (a != e) = true := by
        intro a ha
        have hne : a ≠ e := fun h => he (h ▸ ha)
        simp [hne]
      simp only [Gate.unregister, List.filter_eq_self.2 hl]
  · intro g0 cs0 cs1 hu0 hopen
    apply hnil
    rw [(open_ok_of_unopened _ _ _ _ _ hu0 hopen).1]

/-- After a call has returned nil, no transition runs a statement of it, moves its
program counter or changes its channel. -/
theorem returned_nil_step {s s1 : State} {a : Action} (p : Pid) (ch : ChanId) (hinv : Inv s)
    (hret : (s.procs p).pc = .returned (some ch) none) (h : step s a = .ok s1) :
    (s1.procs p).pc = .returned (some ch) none ∧ s1.chans ch = s.chans ch := by
  have hidle : (s.procs p).pc ≠ .idle := by rw [hret]; simp
  obtain ⟨-, -, -, hlt, hstay⟩ := step_proc p h hidle
  have hnot : a.isStepOf p = false := by
    by_contra hown
    simp only [Bool.not_eq_false] at hown
    have := hlt hown
    rw [hret] at this
    simp [Pc.fuel] at this
  have hp := hinv.proc p
  rw [hret] at hp
  simp only [ProcInv] at hp
  refine ⟨by rw [hstay hnot, hret], ?_⟩
  exact step_chan_frame p ch hinv h (by rw [hret]; rfl) hnot (fun g _ => hp.2.2.2 g)

theorem returned_nil_run {s s1 : State} (p : Pid) (ch : ChanId) (as : List Action)
    (hinv : Inv s) (hret : (s.procs p).pc = .returned (some ch) none)
    (h : run s as = .ok s1) :
    (s1.procs p).pc = .returned (some ch) none ∧ s1.chans ch = s.chans ch := by
  induction as generalizing s with
  | nil =>
    simp only [run, Outcome.ok.injEq] at h
    subst h
    exact ⟨hret, rfl⟩
  | cons a rest ih =>
    obtain ⟨s2, h1, h2⟩ := run_cons_ok h
    obtain ⟨hret2, hch2⟩ := returned_nil_step p ch hinv hret h1
    obtain ⟨hret3, hch3⟩ := ih (inv_step a hinv h1) hret2 h2
    exact ⟨hret3, by rw [hch3, hch2]⟩

/-- As long as no statement has panicked: in every reachable state in which a call of
`Wait` has returned nil, from the state its closing receive leads to onwards, its
channel is closed after exactly `len(gates)` receives, every gate of its list is open
and no gate at all holds the channel; and over any further interleaving the channel stays
exactly as it is, so nothing is sent on it, and still no gate holds it. -/
theorem close_after_all_delivered (names : GateId → List String) (as as1 : List Action)
    (s s1 : State) (p : Pid) (ch : ChanId) (hrun : run (init names) as = .ok s)
    (hret : (s.procs p).pc = .returned (some ch) none) (hrun1 : run s as1 = .ok s1) :
    (s.chans ch).closed = true ∧ (s.chans ch).rcvd = (s.procs p).gates.length ∧
      (∀ g ∈ (s.procs p).gates, (s.gates g).IsOpen = true) ∧
      (∀ g, ch ∉ (s.gates g).listeners) ∧
      s1.chans ch = s.chans ch ∧ (∀ g, ch ∉ (s1.gates g).listeners) ∧
      (s1.procs p).pc = .returned (some ch) none := by
  have hinv := inv_run as (inv_init names) hrun
  have hinv1 := inv_run as1 hinv hrun1
  obtain ⟨hret1, hch1⟩ := returned_nil_run p ch as1 hinv hret hrun1
  have hp := hinv.proc p
  rw [hret] at hp
  simp only [ProcInv] at hp
  have hp1 := hinv1.proc p
  rw [hret1] at hp1
  simp only [ProcInv] at hp1
  exact ⟨hp.2.1.closed, hp.1, hp.2.2.1, hp.2.2.2, hch1, hp1.2.2.2, hret1⟩

/-! ## Runs on which the code departs from the specification -/

/-- C5, the failing input: the same endpoint is registered twice with an unopened gate, as
`Wait` does for a gate listed twice, and the gate opens: two registrations, one
delivery, where the same two registrations with the gate already open get two.  In the
program: `Wait(ctx, g0, g0)` registers twice, `g0` opens, the call receives the one value
and stands at the select with `n = 1`; no value is buffered, none of its statements can
run, and a further `g0.Open()` sends nothing. -/
theorem C5_two_registrations_one_delivery :
    (Gate.runOps 0 [.register 0, .register 0, .openGate] (New []) (fun _ => Chan.fresh 2)).toOption.map
        (fun r => (r.1.opened, deliveries 0 r.2 0)) = some (true, 1) ∧
      List.count (GateOp.register 0) [.register 0, .register 0, .openGate] = 2 ∧
      (Gate.runOps 0 [.openGate, .register 0, .register 0] (New []) (fun _ => Chan.fresh 2)).toOption.map
        (fun r => (r.1.opened, deliveries 0 r.2 0)) = some (true, 2) ∧
      ∃ s s1, run (init unnamed) traceTwice = .ok s ∧ (s.procs 0).gates = [0, 0] ∧
        (s.procs 0).ctx = none ∧ (s.gates 0).IsOpen = true ∧
        (s.procs 0).pc = .selecting 0 1 ∧ deliveries 0 s.chans 0 = 1 ∧
        step s (.selectRecv 0) = .blocked ∧ step s (.selectDone 0) = .blocked ∧
        step s (.wait 0) = .blocked ∧
        step s (.openGate 0) = .ok s1 ∧ deliveries 0 s1.chans 0 = 1 :=
  ⟨by decide, by decide, by decide, runD (init unnamed) (init unnamed) traceTwice,
    runD (init unnamed) (init unnamed) (traceTwice ++ [Action.openGate 0]), rfl, rfl, rfl, rfl, rfl,
    by decide, rfl, rfl, rfl, rfl, by decide⟩

/-- C6, the failing run: `Wait(ctx, g0)` (call 0) and `Wait(ctx1, g0)` (call 1) have
registered with `g0`; `ctx1` fires and call 1 closes its channel, which `g0` still holds.
`g0.Open()` sets `opened`, sends on the closed channel and panics before it sends to
call 0.  In the state it leaves, the only gate of call 0 is open, the channel of call 0
has been sent 0 of its `len(gates) = 1` values, `g0` still holds it, and call 0, whose
context is not done, cannot run.  After call 1 has unregistered and returned and `g0.Open()`
has been called again, still nothing has been sent to call 0. -/
theorem C6_open_panic_misses_wakeup :
    ∃ s s1 s2, run (init unnamed) traceSecondClosed = .ok s ∧
      (s.procs 0).pc = .selecting 0 1 ∧ (s.procs 0).gates = [0] ∧ (s.procs 0).ctx = none ∧
      0 ∈ (s.gates 0).listeners ∧ (s.gates 0).IsOpen = false ∧
      step s (.openGate 0) = .panic s1 ∧
      (s1.gates 0).IsOpen = true ∧ (s1.chans 0).hist = [] ∧ 0 ∈ (s1.gates 0).listeners ∧
      (s1.procs 0).pc = .selecting 0 1 ∧
      step s1 (.selectRecv 0) = .blocked ∧ step s1 (.selectDone 0) = .blocked ∧
      step s1 (.wait 0) = .blocked ∧
      runRecovered s1 traceSecondLeaves = .ok s2 ∧
      (s2.procs 1).pc = .returned (some 1) (some .Canceled) ∧
      (s2.chans 0).hist = [] ∧ (s2.gates 0).listeners = [0] ∧
      (s2.procs 0).pc = .selecting 0 1 ∧ step s2 (.selectRecv 0) = .blocked :=
  ⟨runD (init unnamed) (init unnamed) traceSecondClosed,
    runRecoveredD (init unnamed) (init unnamed) (traceSecondClosed ++ [Action.openGate 0]),
    runRecoveredD (init unnamed) (init unnamed)
      (traceSecondClosed ++ [Action.openGate 0] ++ traceSecondLeaves),
    rfl, rfl, rfl, rfl, by decide, rfl, rfl, rfl, rfl, by decide, rfl, rfl, rfl, rfl, rfl, rfl,
    rfl, rfl, rfl, rfl⟩

/-- C7, the failing run: `Wait(ctx, g0)` has registered its channel with `g0`, the context
fires, the select takes `<-ctx.Done()` and closes the channel; before
`g0.unregister(ch)` runs, `g0.Open()` sends on the closed channel and panics, leaving
`g0` with `opened = true` and the closed channel in `g0.chans`. -/
theorem C7_open_panics_on_closed_channel :
    (∃ s s1, run (init unnamed) traceClosedHeld = .ok s ∧
        (s.procs 0).pc = .unregistering 0 0 ∧ 0 ∈ (s.gates 0).listeners ∧
        (s.chans 0).closed = true ∧
        (s.gates 0).Open 0 s.chans = .panic ({ s.gates 0 with opened := true }, s.chans) ∧
        step s (.openGate 0) = .panic s1) ∧
      ∃ s1, run (init unnamed) (traceClosedHeld ++ [Action.openGate 0]) = .panic s1 :=
  ⟨⟨runD (init unnamed) (init unnamed) traceClosedHeld,
      runRecoveredD (init unnamed) (init unnamed) traceClosedHeldOpen,
      rfl, rfl, by decide, rfl, rfl, rfl⟩,
    runRecoveredD (init unnamed) (init unnamed) traceClosedHeldOpen, rfl⟩

/-- C11, the failing run: after the run of C7, in which `g0.Open()` panics on the closed
channel of a cancelled `Wait` that has not unregistered yet, `g0` has `opened = true` and
a listener set that is not empty: `g.opened = true` was written, `g.chans = nil` was not.
After the two calls of `traceSecondClosed`, one cancelled and returned and the other
still at its select, `g0` is open and holds the channel of the latter for good. -/
theorem C11_open_gate_with_listeners :
    (∃ s1, run (init unnamed) traceClosedHeldOpen = .panic s1 ∧
        runRecovered (init unnamed) traceClosedHeldOpen = .ok s1 ∧
        (s1.gates 0).opened = true ∧ (s1.gates 0).chans = some [0] ∧
        (s1.gates 0).listeners ≠ []) ∧
      ∃ s2, runRecovered (init unnamed)
          (traceSecondClosed ++ [Action.openGate 0] ++ traceSecondLeaves) = .ok s2 ∧
        (s2.gates 0).opened = true ∧ (s2.gates 0).listeners = [0] :=
  ⟨⟨runRecoveredD (init unnamed) (init unnamed) traceClosedHeldOpen, rfl, rfl, rfl, rfl,
      by decide⟩,
    runRecoveredD (init unnamed) (init unnamed)
      (traceSecondClosed ++ [Action.openGate 0] ++ traceSecondLeaves), rfl, rfl, rfl⟩

/-- C16, the failing runs.  `Wait(ctx, g0, g0)` with `g0` open when it is called returns
nil; with `g0` opened after the two registrations it receives one value and stands at
the select with `n = 1`, its context not done, no value buffered, no statement of it able
to run: the caller does not see the same result.  And after a `g0.Open()` that panicked
(the run of C7), `Wait(ctx1, g0)` on the open gate returns nil while the listener set of
`g0` is not empty. -/
theorem C16_opened_before_or_after_differ :
    (∃ s, run (init unnamed) traceTwiceOpened = .ok s ∧ (s.procs 0).gates = [0, 0] ∧
        (s.procs 0).pc = .returned (some 0) none) ∧
      (∃ s, run (init unnamed) traceTwice = .ok s ∧ (s.procs 0).gates = [0, 0] ∧
        (s.procs 0).ctx = none ∧ (s.gates 0).IsOpen = true ∧
        (s.procs 0).pc = .selecting 0 1 ∧ step s (.selectRecv 0) = .blocked ∧
        step s (.selectDone 0) = .blocked ∧ step s (.wait 0) = .blocked) ∧
      ∃ s0 s, runRecovered (init unnamed) traceClosedHeldOpen = .ok s0 ∧
        (s0.gates 0).IsOpen = true ∧
        run s0 traceWaitAfterPanic = .ok s ∧
        (s.procs 1).pc = .returned (some 1) none ∧ (s.gates 0).IsOpen = true ∧
        (s.gates 0).listeners = [0] :=
  ⟨⟨runD (init unnamed) (init unnamed) traceTwiceOpened, rfl, rfl, rfl⟩,
    ⟨runD (init unnamed) (init unnamed) traceTwice, rfl, rfl, rfl, rfl, rfl, rfl, rfl, rfl⟩,
    runRecoveredD (init unnamed) (init unnamed) traceClosedHeldOpen,
    runRecoveredD (init unnamed) (init unnamed) (traceClosedHeldOpen ++ traceWaitAfterPanic),
    rfl, rfl, rfl, rfl, rfl, rfl⟩

/-- C18, the failing input: the unopened gate `g0` with listener set `L = [1, 0]` after
`traceFirstClosed`, channel 0 being closed by its cancelled `Wait`.  The first
`g0.Open()` sets `opened`, sends `g0` to channel 1, panics on channel 0 and returns
through the deferred `Unlock`: one endpoint of `L` got its delivery, the other got none,
and the listener set is still `L`, not empty. -/
theorem C18_first_open_panics_partway :
    ∃ s g1 cs1, run (init unnamed) traceFirstClosed = .ok s ∧
      (s.gates 0).opened = false ∧ (s.gates 0).listeners = [1, 0] ∧
      (s.chans 0).closed = true ∧
      (s.gates 0).Open 0 s.chans = .panic (g1, cs1) ∧
      g1.opened = true ∧ g1.listeners = [1, 0] ∧
      deliveries 0 cs1 1 = 1 ∧ deliveries 0 cs1 0 = 0 :=
  ⟨runD (init unnamed) (init unnamed) traceFirstClosed,
    (runRecoveredD (init unnamed) (init unnamed) (traceFirstClosed ++ [Action.openGate 0])).gates 0,
    (runRecoveredD (init unnamed) (init unnamed) (traceFirstClosed ++ [Action.openGate 0])).chans,
    rfl, rfl, rfl, rfl, rfl, rfl, rfl, by decide, by decide⟩

/-- C20, the failing run: after `traceFirstClosed`, `g0.Open()` sends `g0` to the channel
of call 1 and then panics on the closed channel of call 0, before `g.chans = nil`.
Call 1 receives its `len(gates)`-th delivery, closes its channel and returns nil, and
at that moment `g0`, which is open, holds the closed channel in its listener set. -/
theorem C20_closes_while_gate_holds :
    ∃ s s1 s2, run (init unnamed) traceFirstClosed = .ok s ∧
      (s.procs 1).pc = .selecting 1 1 ∧ (s.procs 1).gates = [0] ∧
      step s (.openGate 0) = .panic s1 ∧ (s1.chans 1).hist = [0] ∧
      step s1 (.selectRecv 1) = .ok s2 ∧
      (s2.procs 1).pc = .returned (some 1) none ∧ (s2.chans 1).closed = true ∧
      (s2.chans 1).rcvd = 1 ∧ (s2.gates 0).IsOpen = true ∧ 1 ∈ (s2.gates 0).listeners :=
  ⟨runD (init unnamed) (init unnamed) traceFirstClosed,
    runRecoveredD (init unnamed) (init unnamed) (traceFirstClosed ++ [Action.openGate 0]),
    runRecoveredD (init unnamed) (init unnamed)
      (traceFirstClosed ++ [Action.openGate 0, Action.selectRecv 1]),
    rfl, rfl, rfl, rfl, rfl, rfl, rfl, rfl, rfl, rfl, by decide⟩
end Syncgate
